import Mathlib

/-!
# Verification of the scenario-engine specification against the source

This development shallowly embeds the parts of the `gst-devtools` validate
scenario engine that the specification's claims are about:

* the arithmetic/boolean expression evaluator of `gst-validate-utils.c`
  (`_read_expr`, `_read_boolean_or`, `_parse`, `_read_builtin`, ...),
* variable substitution (`_replace_variables_in_string`),
* clock-time extraction (`gst_validate_utils_get_clocktime`,
  `gst_validate_action_get_clocktime`),
* the action-type registry (`gst_validate_register_action_type_dynamic`,
  `_find_action_type`),
* the dispatcher gate (`_should_execute_action`), the dispatcher step
  (`execute_next_action`), the EOS handling of `message_cb`, the
  done-detection (`actions_list_is_done`, `_check_scenario_is_done`) and the
  scenario loader loop (`gst_validate_scenario_load`).

Modelling conventions:
* C `gdouble` values are modelled as exact rationals `ℚ`.  All arithmetic
  the claims exercise (comparisons, min/max, +, -, *, integer powers, the
  1e-10 equality threshold) is exact on the values involved, so claim
  outcomes transfer; binary floating-point rounding is not modelled.
* The C parser communicates errors through `longjmp` with a static message
  string; we model the messages as constructors of an error type `PErr`.
* The C parser works on a NUL-terminated string and allows reading the
  terminating NUL (`len = strlen + 1`); we model the input as the list of
  characters with the terminating `'\x00'` appended explicitly, and a parser
  consumes from the front of that list.
* The mutual recursion of `_read_expr`/.../`_read_power` is not structurally
  decreasing, so the embedding uses a fuel parameter; `PErr.outOfFuel` is a
  model artifact that the C code cannot produce, and the top-level entry
  point supplies fuel that is never exhausted on the concrete inputs used.
-/

/-- Error messages of the math parser (`_error` calls in
`gst-validate-utils.c`).  Each constructor stands for the exact C message
given in its comment; `outOfFuel` is a model artifact (see module comment). -/
inductive PErr where
  /-- "Tried to read past end of string!" -/
  | pastEnd
  /-- "Failed to read real number" -/
  | failedReadReal
  /-- "Expected a '=' for boolean '==' operator!" -/
  | expectEqForEq
  /-- "Expected '&' to follow '&' in logical and operation!" -/
  | expectAmp
  /-- "Expected '|' to follow '|' in logical or operation!" -/
  | expectBar
  /-- "Tried to call unknown built-in function!" -/
  | unknownBuiltin
  /-- "Expected ')' in built-in call!" -/
  | expectCloseBuiltin
  /-- "Could not look up value for variable %s!" -/
  | unknownVariable (name : String)
  /-- "Expected ')'!" -/
  | expectClose
  /-- "Expected '+' or '-' for unary expression, got '!'" -/
  | unaryBang
  /-- "Failed to reach end of input expression, likely malformed input" -/
  | malformedInput
  /-- model artifact: fuel of the embedding exhausted (no C counterpart) -/
  | outOfFuel
deriving DecidableEq, Repr

/-- `PARSER_BOOLEAN_EQUALITY_THRESHOLD` (1e-10). -/
def eqThreshold : ℚ := 1 / 10 ^ 10

/-- Model of the C library `pow` on our rational value model: exact for
integer exponents (the only case reachable in the claims); for non-integer
exponents `libm`'s transcendental pow is outside this repository and the
model returns 0. -/
def cpow (a b : ℚ) : ℚ := if b.den = 1 then a ^ b.num else 0

/-- `isalpha(c) || c == '_' || c == '$'`: first character of an identifier
in `_read_builtin`. -/
def identStart (c : Char) : Bool := c.isAlpha || c = '_' || c = '$'

/-- `isalpha(c) || isdigit(c) || c == '_' || c == '$'`: identifier
continuation character in `_read_builtin`. -/
def identChar (c : Char) : Bool := c.isAlpha || c.isDigit || c = '_' || c = '$'

/-- The digit-scanning loops of `_read_double`:
`while (isdigit (_peek (parser))) token[pos++] = _next (parser);`.
Errors with `pastEnd` when the peek runs past the end of the input
(`_peek` fails), mirroring the C `_error` inside `_peek`. -/
def spanDigits : List Char → Except PErr (List Char × List Char)
  | [] => .error .pastEnd
  | c :: t =>
    if c.isDigit then
      match spanDigits t with
      | .error e => .error e
      | .ok (ds, r) => .ok (c :: ds, r)
    else .ok ([], c :: t)

/-- The identifier-scanning loop of `_read_builtin`:
`while (isalpha (c) || isdigit (c) || c == '_' || c == '$') ...`. -/
def scanIdent : List Char → Except PErr (List Char × List Char)
  | [] => .error .pastEnd
  | c :: t =>
    if identChar c then
      match scanIdent t with
      | .error e => .error e
      | .ok (ds, r) => .ok (c :: ds, r)
    else .ok ([], c :: t)

/-- Value of a list of decimal digits. -/
def digitsToNat (ds : List Char) : ℕ :=
  ds.foldl (fun acc c => acc * 10 + (c.toNat - '0'.toNat)) 0

/-- `_read_double` of `gst-validate-utils.c`: scans
`[+-]? digits* [.]? digits* ([eE] [+-]?)? digits*` and converts the token
with `sscanf("%lf")`; the conversion fails when no mantissa digit is present
or an exponent marker has no digits. The numeric value is computed exactly
in `ℚ`. -/
def _read_double (l : List Char) : Except PErr (ℚ × List Char) :=
  match l with
  | [] => .error .pastEnd
  | c0 :: t0 =>
    let sign : ℚ := if c0 = '-' then -1 else 1
    let l1 := if c0 = '+' ∨ c0 = '-' then t0 else c0 :: t0
    match spanDigits l1 with
    | .error e => .error e
    | .ok (d1, l2) =>
      match l2 with
      | [] => .error .pastEnd
      | c2 :: t2 =>
        let dotted := c2 = '.'
        let l3 := if dotted then t2 else c2 :: t2
        match spanDigits l3 with
        | .error e => .error e
        | .ok (d2', l4) =>
          let d2 := if dotted then d2' else []
          let d1' := if dotted then d1 else d1 ++ d2'
          match l4 with
          | [] => .error .pastEnd
          | c4 :: t4 =>
            if c4 = 'e' ∨ c4 = 'E' then
              match t4 with
              | [] => .error .pastEnd
              | c5 :: t5 =>
                let esign : ℤ := if c5 = '-' then -1 else 1
                let l5 := if c5 = '+' ∨ c5 = '-' then t5 else c5 :: t5
                match spanDigits l5 with
                | .error e => .error e
                | .ok (d3, l6) =>
                  if d1' ++ d2 = [] ∨ d3 = [] then .error .failedReadReal
                  else
                    .ok (sign * ((digitsToNat d1' : ℚ) +
                          (digitsToNat d2 : ℚ) / 10 ^ d2.length) *
                          (10 : ℚ) ^ (esign * (digitsToNat d3 : ℤ)), l6)
            else
              if d1' ++ d2 = [] then .error .failedReadReal
              else
                .ok (sign * ((digitsToNat d1' : ℚ) +
                      (digitsToNat d2 : ℚ) / 10 ^ d2.length), c4 :: t4)

/-- Selector for the mutually recursive functions of the math parser.  Each
constructor corresponds to one C function (loop constructors carry the loop
accumulator of the corresponding C `while` loop):
`expr` = `_read_expr`, `term` = `_read_term`, `power` = `_read_power`
(`powerLoop` also carries the C local `s`, which persists across loop
iterations in the source), `unary` = `_read_unary`,
`paren` = `_read_parenthesis`, `builtin` = `_read_builtin`,
`arg` = `_read_argument`, `bCmp` = `_read_boolean_comparison`,
`bEq` = `_read_boolean_equality`, `bAnd` = `_read_boolean_and`,
`bOr` = `_read_boolean_or`. -/
inductive PF where
  | expr
  | exprLoop (v : ℚ)
  | term
  | termLoop (v : ℚ)
  | power
  | powerLoop (v s : ℚ)
  | unary
  | paren
  | builtin
  | arg
  | bCmp
  | bEq
  | bAnd
  | bAndLoop (v : ℚ)
  | bOr
  | bOrLoop (v : ℚ)
deriving DecidableEq, Repr

/-- Sequencing of two parser steps: continue with `k` on success, propagate
the error otherwise (the C code needs no explicit sequencing because
`_error` exits through `longjmp`). -/
def pbind (e : Except PErr (ℚ × List Char))
    (k : ℚ → List Char → Except PErr (ℚ × List Char)) :
    Except PErr (ℚ × List Char) :=
  match e with
  | .error er => .error er
  | .ok (v, r) => k v r

@[simp]
theorem pbind_error (er : PErr) (k) : pbind (.error er) k = .error er := rfl

@[simp]
theorem pbind_ok (v : ℚ) (r : List Char) (k) : pbind (.ok (v, r)) k = k v r := rfl

/-- The mutually recursive parser functions of `gst-validate-utils.c`,
embedded as a single function dispatching on `PF` and structurally recursive
on a fuel parameter.  The input list is consumed from the front; the
terminating NUL of the C string is an explicit final `'\x00'` element, and
reading past it (`_peek`/`_next` beyond `len`) is the `pastEnd` error.
`lk` models `parser->variable_func` together with its `user_data`
(`none` both for a lookup failure and for a NULL `variable_func`). -/
def parseFn (lk : String → Option ℚ) : ℕ → PF → List Char →
    Except PErr (ℚ × List Char)
  | 0, _, _ => .error .outOfFuel
  | fuel + 1, tag, l =>
    match tag with
    | .expr =>
      match l with
      | [] => .error .pastEnd
      | c :: t =>
        if c = '+' then
          pbind (parseFn lk fuel .term t) fun v r =>
            parseFn lk fuel (.exprLoop (0 + v)) r
        else if c = '-' then
          pbind (parseFn lk fuel .term t) fun v r =>
            parseFn lk fuel (.exprLoop (0 - v)) r
        else
          pbind (parseFn lk fuel .term (c :: t)) fun v r =>
            parseFn lk fuel (.exprLoop v) r
    | .exprLoop v =>
      match l with
      | [] => .error .pastEnd
      | c :: t =>
        if c = '+' then
          pbind (parseFn lk fuel .term t) fun w r =>
            parseFn lk fuel (.exprLoop (v + w)) r
        else if c = '-' then
          pbind (parseFn lk fuel .term t) fun w r =>
            parseFn lk fuel (.exprLoop (v - w)) r
        else .ok (v, c :: t)
    | .term =>
      pbind (parseFn lk fuel .power l) fun v r =>
        parseFn lk fuel (.termLoop v) r
    | .termLoop v =>
      match l with
      | [] => .error .pastEnd
      | c :: t =>
        if c = '*' then
          pbind (parseFn lk fuel .power t) fun w r =>
            parseFn lk fuel (.termLoop (v * w)) r
        else if c = '/' then
          pbind (parseFn lk fuel .power t) fun w r =>
            parseFn lk fuel (.termLoop (v / w)) r
        else .ok (v, c :: t)
    | .power =>
      pbind (parseFn lk fuel .unary l) fun v r =>
        parseFn lk fuel (.powerLoop v 1) r
    | .powerLoop v s =>
      match l with
      | [] => .error .pastEnd
      | c :: t =>
        if c = '^' then
          match t with
          | [] => .error .pastEnd
          | d :: u =>
            if d = '-' then
              pbind (parseFn lk fuel .power u) fun w r =>
                parseFn lk fuel (.powerLoop (cpow v ((-1) * w)) (-1)) r
            else
              pbind (parseFn lk fuel .power (d :: u)) fun w r =>
                parseFn lk fuel (.powerLoop (cpow v (s * w)) s) r
        else .ok (v, c :: t)
    | .unary =>
      match l with
      | [] => .error .pastEnd
      | c :: t =>
        if c = '!' then .error .unaryBang
        else if c = '-' then
          pbind (parseFn lk fuel .paren t) fun v r => .ok (-v, r)
        else if c = '+' then parseFn lk fuel .paren t
        else parseFn lk fuel .paren (c :: t)
    | .paren =>
      match l with
      | [] => .error .pastEnd
      | c :: t =>
        if c = '(' then
          pbind (parseFn lk fuel .bOr t) fun v r =>
            match r with
            | [] => .error .pastEnd
            | d :: u => if d = ')' then .ok (v, u) else .error .expectClose
        else parseFn lk fuel .builtin (c :: t)
    | .builtin =>
      match l with
      | [] => .error .pastEnd
      | c :: t =>
        if identStart c then
          match scanIdent (c :: t) with
          | .error e => .error e
          | .ok (tok, r) =>
            match r with
            | [] => .error .pastEnd
            | d :: u =>
              if d = '(' then
                if String.mk tok = "min" then
                  pbind (parseFn lk fuel .arg u) fun a1 r1 =>
                    pbind (parseFn lk fuel .arg r1) fun a2 r2 =>
                      match r2 with
                      | [] => .error .pastEnd
                      | e2 :: w2 =>
                        if e2 = ')' then .ok (min a1 a2, w2)
                        else .error .expectCloseBuiltin
                else if String.mk tok = "max" then
                  pbind (parseFn lk fuel .arg u) fun a1 r1 =>
                    pbind (parseFn lk fuel .arg r1) fun a2 r2 =>
                      match r2 with
                      | [] => .error .pastEnd
                      | e2 :: w2 =>
                        if e2 = ')' then .ok (max a1 a2, w2)
                        else .error .expectCloseBuiltin
                else .error .unknownBuiltin
              else
                match lk (String.mk tok) with
                | some w => .ok (w, d :: u)
                | none => .error (.unknownVariable (String.mk tok))
        else _read_double (c :: t)
    | .arg =>
      pbind (parseFn lk fuel .expr l) fun v r =>
        match r with
        | [] => .error .pastEnd
        | c :: t => if c = ',' then .ok (v, t) else .ok (v, c :: t)
    | .bCmp =>
      pbind (parseFn lk fuel .expr l) fun v0 r =>
        match r with
        | [] => .error .pastEnd
        | c :: t =>
          if c = '>' ∨ c = '<' then
            match t with
            | [] => .error .pastEnd
            | d :: u =>
              if d = '=' then
                pbind (parseFn lk fuel .expr u) fun v1 r1 =>
                  .ok (if c = '<' then (if v0 ≤ v1 then 1 else 0)
                       else (if v1 ≤ v0 then 1 else 0), r1)
              else
                pbind (parseFn lk fuel .expr (d :: u)) fun v1 r1 =>
                  .ok (if c = '<' then (if v0 < v1 then 1 else 0)
                       else (if v1 < v0 then 1 else 0), r1)
          else .ok (v0, c :: t)
    | .bEq =>
      pbind (parseFn lk fuel .bCmp l) fun v0 r =>
        match r with
        | [] => .error .pastEnd
        | c :: t =>
          if c = '=' then
            match t with
            | [] => .error .pastEnd
            | d :: u =>
              if d = '=' then
                pbind (parseFn lk fuel .bCmp u) fun v1 r1 =>
                  .ok (if |v0 - v1| < eqThreshold then 1 else 0, r1)
              else .error .expectEqForEq
          else if c = '!' then
            match t with
            | [] => .error .pastEnd
            | d :: u =>
              if d = '=' then
                pbind (parseFn lk fuel .bCmp u) fun v1 r1 =>
                  .ok (if eqThreshold < |v0 - v1| then 1 else 0, r1)
              else .ok (v0, c :: t)
          else .ok (v0, c :: t)
    | .bAnd =>
      pbind (parseFn lk fuel .bEq l) fun v0 r =>
        parseFn lk fuel (.bAndLoop v0) r
    | .bAndLoop v0 =>
      match l with
      | [] => .error .pastEnd
      | c :: t =>
        if c = '&' then
          match t with
          | [] => .error .pastEnd
          | d :: u =>
            if d = '&' then
              pbind (parseFn lk fuel .bEq u) fun v1 r =>
                parseFn lk fuel
                  (.bAndLoop (if eqThreshold ≤ |v0| ∧ eqThreshold ≤ |v1|
                    then 1 else 0)) r
            else .error .expectAmp
        else .ok (v0, c :: t)
    | .bOr =>
      pbind (parseFn lk fuel .bAnd l) fun v0 r =>
        parseFn lk fuel (.bOrLoop v0) r
    | .bOrLoop v0 =>
      match l with
      | [] => .error .pastEnd
      | c :: t =>
        if c = '|' then
          match t with
          | [] => .error .pastEnd
          | d :: u =>
            if d = '|' then
              pbind (parseFn lk fuel .bAnd u) fun v1 r =>
                parseFn lk fuel
                  (.bOrLoop (if eqThreshold ≤ |v0| ∨ eqThreshold ≤ |v1|
                    then 1 else 0)) r
            else .error .expectBar
        else .ok (v0, c :: t)

/-- `_parse`: runs `_read_expr` from position 0 and then requires
`pos >= len - 1` (all characters before the terminating NUL consumed);
on any error the C function returns `-1.0` with `parser->error` set. -/
def _parse (lk : String → Option ℚ) (fuel : ℕ) (l0 : List Char) :
    ℚ × Option PErr :=
  match parseFn lk fuel .expr l0 with
  | .error e => (-1, some e)
  | .ok (v, r) => if r.length ≤ 1 then (v, none) else (-1, some .malformedInput)

/-- Fuel supplied by the top-level entry point; any bound that the concrete
runs never exhaust works, the metatheory is fuel-monotone. -/
def evalFuel (l0 : List Char) : ℕ := 12 * l0.length + 64

/-- `gst_validate_utils_parse_expression`: removes every space character
(`g_strsplit (expr, " ", -1)` followed by `g_strjoinv ("", ...)`), appends
the terminating NUL and runs `_parse`.  Returns the value and the error
out-parameter. -/
def gst_validate_utils_parse_expression (expr : String)
    (lk : String → Option ℚ) : ℚ × Option PErr :=
  let nospace := expr.data.filter (fun c => ¬ c = ' ')
  _parse lk (evalFuel (nospace ++ ['\x00'])) (nospace ++ ['\x00'])

/-! ## Boundary character classes of the parser

The extension lemma (`parseFn_ext` below) replays a parser run on an input
whose unread tail has been replaced.  The classes below list the characters
a given parser function may test at its stopping position. -/

/-- Characters tested by the primary readers (`_read_builtin`,
`_read_double` and the identifier scan): letters, digits, `_`, `$`, `.`,
exponent markers and `(`. -/
def primaryStop (c : Char) : Bool :=
  c.isAlpha || c.isDigit || c = '_' || c = '$' || c = '.' || c = 'e' ||
  c = 'E' || c = '('

/-- Operator characters a parser function may additionally test at its
stopping position (including those of the readers it delegates to). -/
def pfExtra : PF → List Char
  | .expr => ['+', '-', '*', '/', '^']
  | .exprLoop _ => ['+', '-', '*', '/', '^']
  | .term => ['*', '/', '^']
  | .termLoop _ => ['*', '/', '^']
  | .power => ['^']
  | .powerLoop _ _ => ['^']
  | .unary => []
  | .paren => []
  | .builtin => []
  | .arg => [',', '+', '-', '*', '/', '^']
  | .bCmp => ['<', '>', '+', '-', '*', '/', '^']
  | .bEq => ['=', '!', '<', '>', '+', '-', '*', '/', '^']
  | .bAnd => ['&', '=', '!', '<', '>', '+', '-', '*', '/', '^']
  | .bAndLoop _ => ['&', '=', '!', '<', '>', '+', '-', '*', '/', '^']
  | .bOr => ['|', '&', '=', '!', '<', '>', '+', '-', '*', '/', '^']
  | .bOrLoop _ => ['|', '&', '=', '!', '<', '>', '+', '-', '*', '/', '^']

/-- A character that the function `tag` is guaranteed not to react to when
it stops exactly at the replaced tail. -/
def boundOK (tag : PF) (c : Char) : Bool :=
  !primaryStop c && !(pfExtra tag).contains c

/-- A character no parser function reacts to (`'\x00'` is one). -/
def strictNeutral (c : Char) : Bool :=
  !primaryStop c &&
  !(['+', '-', '*', '/', '^', '!', ')', '=', '<', '>', '&', '|', ','].contains c)

/-- Boundary class of `_read_double` at its stopping position. -/
def dblBound (c : Char) : Bool :=
  !(c.isDigit || c = '.' || c = 'e' || c = 'E')

/-! ## Variable store and string substitution (`gst-validate-scenario.c`) -/

/-- A value in the scenario variable store `scenario->priv->vars`: the
substitution code distinguishes double-typed fields
(`gst_structure_has_field_typed (..., G_TYPE_DOUBLE)`) from string fields
(`gst_structure_get_string`). -/
inductive VarVal where
  | str (s : String)
  | dbl (q : ℚ)
deriving DecidableEq, Repr

/-- `\w` of the GRegex pattern `\$\((\w+)\)`. -/
def wordChar (c : Char) : Bool := c.isAlpha || c.isDigit || c = '_'

/-- Recognizes `(\w+)` right after a `$`: returns the variable name when
the list starts with `'('`, one or more word characters and `')'`. -/
def varRefAt (l : List Char) : Option String :=
  match l with
  | '(' :: r =>
    let w := r.takeWhile wordChar
    if w ≠ [] ∧ (r.drop w.length).head? = some ')' then some (String.mk w)
    else none
  | _ => none

/-- The matches of `\$\((\w+)\)` over the original string, in order
(`g_regex_match` + `g_match_info_next`).  A match can contain neither `$`
nor `(` strictly inside, so no two matches can overlap and scanning one
character at a time finds exactly the regex engine's matches. -/
def findVarRefs : List Char → List String
  | [] => []
  | c :: rest =>
    (if c = '$' then (varRefAt rest).toList else []) ++ findVarRefs rest

/-- Pattern occurs at the front of the list. -/
def patAt : List Char → List Char → Bool
  | [], _ => true
  | _ :: _, [] => false
  | p :: ps, c :: cs => p = c && patAt ps cs

/-- Worker for `replaceAll`: `skip` counts remaining characters of a
just-matched occurrence still to be dropped, so the recursion stays
structural in the scanned list. -/
def replaceAllGo (pat rep : List Char) : ℕ → List Char → List Char
  | _ + 1, [] => []
  | skip + 1, _ :: rest => replaceAllGo pat rep skip rest
  | 0, l =>
    match l with
    | [] => []
    | c :: rest =>
      if pat ≠ [] ∧ patAt pat (c :: rest) then
        rep ++ replaceAllGo pat rep (pat.length - 1) rest
      else c :: replaceAllGo pat rep 0 rest

/-- `g_regex_replace` with the literal (escaped) pattern `$(name)`:
replaces every non-overlapping occurrence, scanning left to right. -/
def replaceAll (s pat rep : List Char) : List Char := replaceAllGo pat rep 0 s

/-- `_replace_variables_in_string`: iterates over the matches of
`\$\((\w+)\)` found in the original string; for each matched name, a
double-typed variable substitutes the literal variable name (`var_value =
varname` in the source), a string-typed variable substitutes its string
value, and an undefined name is the fatal `g_error` (modelled as `none`);
each iteration replaces all occurrences of `$(name)` in the current
string. -/
def _replace_variables_in_string (vars : String → Option VarVal)
    (in_string : String) : Option String :=
  (findVarRefs in_string.data).foldl
    (fun acc name =>
      match acc with
      | none => none
      | some cur =>
        match vars name with
        | some (.dbl _) =>
          some (String.mk (replaceAll cur.data
            ("$(" ++ name ++ ")").data name.data))
        | some (.str v) =>
          some (String.mk (replaceAll cur.data
            ("$(" ++ name ++ ")").data v.data))
        | none => none)
    (some in_string)

/-- `_update_well_known_vars`: removes `position` and `duration` from the
store and re-adds them as double-typed fields computed from pipeline
queries (seconds; an invalid duration becomes G_MAXDOUBLE before storing,
which the caller of this model performs).  `pipeline` is whether a pipeline
is still available; `dposition = none` models a failed position query
(field left removed). -/
def _update_well_known_vars (vars : String → Option VarVal)
    (pipeline : Bool) (dduration : ℚ) (dposition : Option ℚ) :
    String → Option VarVal :=
  fun n =>
    if pipeline then
      if n = "duration" then some (.dbl dduration)
      else if n = "position" then
        match dposition with
        | some q => some (.dbl q)
        | none => none
      else vars n
    else if n = "position" ∨ n = "duration" then none
    else vars n

/-- `_set_variable_func`: resolves a parser variable by reading a
double-typed field of the scenario variable store
(`gst_structure_get_double`). -/
def _set_variable_func (vars : String → Option VarVal) (name : String) :
    Option ℚ :=
  match vars name with
  | some (.dbl q) => some q
  | _ => none

/-! ## Clock-time extraction -/

/-- `GST_CLOCK_TIME_NONE` (`(guint64)-1`). -/
def GST_CLOCK_TIME_NONE : ℕ := 2 ^ 64 - 1

/-- `GST_SECOND` in nanoseconds. -/
def GST_SECOND : ℕ := 1000000000

/-- `GST_ROUND_UP_4 (x) = ((x) + 3) & ~3`, on non-negative values. -/
def GST_ROUND_UP_4 (n : ℕ) : ℕ := (n + 3) / 4 * 4

/-- A typed field value of a `GstStructure`, restricted to the types that
`gst_validate_utils_get_clocktime` distinguishes. -/
inductive FieldVal where
  | clocktime (n : ℕ)
  | u64 (n : ℕ)
  | u32 (n : ℕ)
  | i32 (i : ℤ)
  | i64 (i : ℤ)
  | dbl (q : ℚ)
  | str (s : String)
deriving DecidableEq, Repr

/-- Conversion of a double to `guint64` truncates toward zero for values in
range; a negative value is undefined behaviour in C and the model clamps it
to 0. -/
def doubleToU64 (q : ℚ) : ℕ := q.floor.toNat

/-- `gst_validate_utils_get_clocktime` (`gst-validate-utils.c`): reads a
structure field as a `GstClockTime`, accepting
clock-time/uint64/uint/int/int64 values directly (the int casts
sign-extend), and for a double-typed field mapping `-1.0` to
`GST_CLOCK_TIME_NONE` and any other value, taken as seconds, to nanoseconds
rounded up to a multiple of 4.  Returns the C `(return, *retval)` pair;
`*retval` is initialized to `GST_CLOCK_TIME_NONE`. -/
def gst_validate_utils_get_clocktime (field : Option FieldVal) : Bool × ℕ :=
  match field with
  | none => (false, GST_CLOCK_TIME_NONE)
  | some (.clocktime n) => (true, n)
  | some (.u64 n) => (true, n)
  | some (.u32 n) => (true, n)
  | some (.i32 i) => (true, (i % (2 ^ 64 : ℤ)).toNat)
  | some (.i64 i) => (true, (i % (2 ^ 64 : ℤ)).toNat)
  | some (.dbl q) =>
    if q = -1 then (true, GST_CLOCK_TIME_NONE)
    else (true, GST_ROUND_UP_4 (doubleToU64 (q * GST_SECOND)))
  | some (.str _) => (false, GST_CLOCK_TIME_NONE)

/-- `gst_validate_action_get_clocktime` (`gst-validate-scenario.c`): first
tries the typed read; for a string-valued field it substitutes variables,
evaluates the expression with `_set_variable_func` as lookup, maps an
evaluation error to return FALSE, the computed value `-1.0` to
`GST_CLOCK_TIME_NONE`, and any other value, in seconds, to nanoseconds
rounded up to a multiple of 4.  The C function returns `-1` from a
`gboolean` function when the field is missing entirely, so the model's
return component is an `Int` (1 = TRUE, 0 = FALSE).  The write-back of the
computed value into the structure is not modelled. -/
def gst_validate_action_get_clocktime (vars : String → Option VarVal)
    (field : Option FieldVal) : Int × ℕ :=
  match gst_validate_utils_get_clocktime field with
  | (true, n) => (1, n)
  | (false, _) =>
    match field with
    | some (.str s) =>
      match _replace_variables_in_string vars s with
      | none => (0, GST_CLOCK_TIME_NONE)
      | some strval =>
        match gst_validate_utils_parse_expression strval
            (_set_variable_func vars) with
        | (_, some _) => (0, GST_CLOCK_TIME_NONE)
        | (val, none) =>
          if val = -1 then (1, GST_CLOCK_TIME_NONE)
          else (1, GST_ROUND_UP_4 (doubleToU64 (val * GST_SECOND)))
    | _ => (-1, GST_CLOCK_TIME_NONE)

/-! ## Action type registry -/

/-- `GstValidateActionType` restricted to the fields the registry logic
uses; `overriden_type` chains to the replaced registration. -/
inductive GstValidateActionType where
  | mk (name : String) (rank : ℕ)
      (overriden_type : Option GstValidateActionType)

def GstValidateActionType.name : GstValidateActionType → String
  | .mk n _ _ => n

def GstValidateActionType.rank : GstValidateActionType → ℕ
  | .mk _ r _ => r

def GstValidateActionType.overriden_type :
    GstValidateActionType → Option GstValidateActionType
  | .mk _ _ o => o

/-- `_find_action_type`: the first type in the registration list whose name
matches. -/
def _find_action_type (action_types : List GstValidateActionType)
    (type_name : String) : Option GstValidateActionType :=
  action_types.find? (fun t => t.name = type_name)

/-- The registry bookkeeping of
`gst_validate_register_action_type_dynamic`: if a type of this name exists
and its rank is `<=` the new rank, it is removed from the list
(`g_list_remove` removes that very registration), chained as
`overriden_type` of the new type, and the new type is appended; if the
existing rank is strictly higher, the new type is discarded and the
existing one is returned.  Returns the new registry and the returned
type. -/
def gst_validate_register_action_type_dynamic
    (action_types : List GstValidateActionType) (type_name : String)
    (rank : ℕ) : List GstValidateActionType × GstValidateActionType :=
  match _find_action_type action_types type_name with
  | some tmptype =>
    if tmptype.rank ≤ rank then
      let typ := GstValidateActionType.mk type_name rank (some tmptype)
      -- `g_list_remove` removes the node found by `_find_action_type`,
      -- which is the first entry whose name matches
      ((action_types.eraseP (fun t => t.name = type_name)) ++ [typ], typ)
    else (action_types, tmptype)
  | none =>
    let typ := GstValidateActionType.mk type_name rank none
    (action_types ++ [typ], typ)

/-! ## Dispatcher: execution gate, dispatcher step, done detection -/

/-- `GstState`: VOID_PENDING=0, NULL=1, READY=2, PAUSED=3, PLAYING=4. -/
def GST_STATE_PAUSED : ℕ := 3

/-- `GstValidateExecuteActionReturn` (action states). -/
inductive ActionState where
  | none
  | ok
  | error
  | errorReported
  | async
  | interlaced
  | inProgress
deriving DecidableEq, Repr

/-- Per-action data used by the dispatcher (`GstValidateAction` fields and
the flags of its registered type). -/
structure DispAction where
  state : ActionState
  repeatCount : Int
  timeout : Option ℕ
  execution_time : ℕ
  playback_time : Option ℕ
  needs_playback_parsing : Bool
  is_subaction : Bool
  optional : Bool
  doesnt_need_pipeline : Bool
deriving DecidableEq, Repr

/-- `_should_execute_action`: decides whether the head action runs now.
Returns the decision together with the updated `got_eos` flag (the
just-got-EOS branch consumes it).  `pipelineState` is `GST_STATE (pipeline)`
when the pipeline is still available, `none` when it has been destroyed. -/
def _should_execute_action (act : Option DispAction)
    (pipelineState : Option ℕ) (got_eos : Bool) (position : ℕ) (rate : ℚ) :
    Bool × Bool :=
  match act with
  | none => (false, got_eos)
  | some a =>
    match pipelineState with
    | none =>
      if ¬ a.doesnt_need_pipeline then (false, got_eos)
      else if a.playback_time.isSome then (false, got_eos)
      else (true, got_eos)
    | some st =>
      if got_eos then (true, false)
      else if st < GST_STATE_PAUSED then (true, got_eos)
      else
        match a.playback_time with
        | Option.none => (true, got_eos)
        | some t =>
          if 0 < rate ∧ position < t then (false, got_eos)
          else if rate < 0 ∧ t < position then (false, got_eos)
          else (true, got_eos)

/-- `actions_list_is_done`: TRUE iff the list contains no non-optional
action. -/
def actions_list_is_done (l : List DispAction) : Bool :=
  l.all (fun a => a.optional)

/-- `_check_scenario_is_done`: the "done" signal is emitted exactly when
this is TRUE of the three queues. -/
def _check_scenario_is_done
    (actions interlaced_actions on_addition_actions : List DispAction) :
    Bool :=
  actions_list_is_done actions &&
  actions_list_is_done interlaced_actions &&
  actions_list_is_done on_addition_actions

/-- The scenario state `execute_next_action` reads and writes. -/
structure DispState where
  buffering : Bool
  changing_state : Bool
  needs_async_done : Bool
  got_eos : Bool
  seeked_in_pause : Bool
  execute_on_idle : Bool
  pipelineState : Option ℕ
  actions : List DispAction
  interlaced_actions : List DispAction
  on_addition_actions : List DispAction
deriving DecidableEq, Repr

/-- Reports `execute_next_action` can emit. -/
inductive DispReport where
  /-- `SCENARIO_ACTION_EXECUTION_ERROR`, "Action %s timed out after: %t" -/
  | actionTimedOut
  /-- `SCENARIO_ACTION_EXECUTION_ERROR`, "Could not execute %s" -/
  | couldNotExecute
  /-- `g_error ("Could not determine next action playback time!")` -/
  | fatalPlaybackTimeParse
deriving DecidableEq, Repr

/-- Result of one `execute_next_action` invocation. -/
structure DispResult where
  state : DispState
  reports : List DispReport
  /-- TRUE = `G_SOURCE_CONTINUE`, FALSE = `G_SOURCE_REMOVE` -/
  sourceRet : Bool
  /-- the "done" signal was emitted by `_check_scenario_is_done` -/
  doneEmitted : Bool
deriving DecidableEq, Repr

/-- `execute_next_action` (`gst-validate-scenario.c`), as one dispatcher
step.  External collaborators are parameters: `exec` is
`gst_validate_execute_action` (prepare hook + type handler), `sub` is
`_execute_sub_action_action`, `now` is `gst_util_get_timestamp ()`,
`check_position` is the outcome of `_check_position` (`none` = FALSE,
otherwise the queried position and playback rate), `parse_pt` is whether
`gst_validate_parse_next_action_playback_time` succeeds.  The synchronous
recursion when `execute-on-idle` is not set uses the fuel parameter.
`_add_execute_actions_gsource` and the reports emitted inside
`_should_execute_action` and `_check_position` are not part of the modelled
state. -/
def execute_next_action (exec sub : DispAction → ActionState) (now : ℕ)
    (check_position : Option (ℕ × ℚ)) (parse_pt : Bool) :
    ℕ → DispState → DispResult
  | 0, s => ⟨s, [], true, false⟩
  | fuel + 1, s =>
    if s.buffering then ⟨s, [], true, false⟩
    else if s.changing_state ∨ s.needs_async_done then ⟨s, [], true, false⟩
    else
      -- continuation after the head-state inspection: position check,
      -- execution gate, handler execution, repeat/sub-action handling,
      -- queue removal and the synchronous recursion
      let cont : DispState → Option DispAction → Bool → DispResult :=
        fun s1 act? done1 =>
          match check_position with
          | Option.none => ⟨s1, [], true, done1⟩
          | some (position, rate) =>
            match _should_execute_action act? s1.pipelineState s1.got_eos
                position rate with
            | (false, ge) => ⟨{ s1 with got_eos := ge }, [], true, done1⟩
            | (true, ge) =>
              match act? with
              | Option.none => ⟨{ s1 with got_eos := ge }, [], true, done1⟩
              | some act =>
                let s2 := { s1 with got_eos := ge, seeked_in_pause := false }
                let st1 := exec act
                let reps :=
                  if st1 = .error then [DispReport.couldNotExecute] else []
                let act1 := { act with
                  repeatCount :=
                    if act.repeatCount > 0 ∧ ¬ act.is_subaction then
                      act.repeatCount - 1
                    else act.repeatCount }
                let st2 := if st1 = .ok then sub act1 else st1
                let act2 := { act1 with state := st2 }
                if st2 ≠ .async then
                  let s3 := { s2 with
                    actions := s2.actions.tail,
                    interlaced_actions :=
                      if st2 = .interlaced then
                        s2.interlaced_actions ++ [act2]
                      else s2.interlaced_actions }
                  if ¬ parse_pt then
                    ⟨s3, reps ++ [.fatalPlaybackTimeParse], false, done1⟩
                  else
                    let done2 := done1 ∨ (s3.actions = [] ∧
                      _check_scenario_is_done s3.actions
                        s3.interlaced_actions s3.on_addition_actions)
                    if ¬ s3.execute_on_idle then
                      let r := execute_next_action exec sub now
                        check_position parse_pt fuel s3
                      ⟨r.state, reps ++ r.reports, r.sourceRet,
                       done2 ∨ r.doneEmitted⟩
                    else ⟨s3, reps, true, done2⟩
                else
                  ⟨{ s2 with actions := act2 :: s2.actions.tail }, reps,
                   true, done1⟩
      match s.actions with
      | [] => cont s Option.none false
      | act :: rest =>
        if act.state = .inProgress then ⟨s, [], true, false⟩
        else if act.state = .ok ∧ act.repeatCount ≤ 0 then
          let s' := { s with actions := rest }
          if ¬ parse_pt then ⟨s', [.fatalPlaybackTimeParse], false, false⟩
          else
            match rest with
            | [] =>
              cont s' Option.none
                (_check_scenario_is_done [] s'.interlaced_actions
                  s'.on_addition_actions)
            | next :: _ => cont s' (some next) false
        else if act.state = .async then
          let reps : List DispReport :=
            match act.timeout with
            | some tmo =>
              if now - act.execution_time > tmo then [.actionTimedOut]
              else []
            | Option.none => []
          ⟨s, reps, true, false⟩
        else cont s (some act) false

/-! ## EOS handling of `message_cb` -/

/-- The per-action data the EOS handling of `message_cb` inspects:
the action state, `action->priv->optional`, and whether the action's
registered type carries `GST_VALIDATE_ACTION_TYPE_NO_EXECUTION_NOT_FATAL`. -/
structure EosAction where
  state : ActionState
  optional : Bool
  noExecutionNotFatal : Bool
deriving DecidableEq, Repr

/-- The filter of the counting loop: an action is skipped (not counted)
when its type is `NO_EXECUTION_NOT_FATAL`, its state is OK, or it is
optional. -/
def eosCounts (a : EosAction) : Bool :=
  ¬ (a.noExecutionNotFatal ∨ a.state = .ok ∨ a.optional)

/-- Outcome of the EOS/ERROR branch of `message_cb`. -/
structure EosOutcome where
  /-- `SCENARIO_NOT_ENDED` was reported -/
  scenarioNotEnded : Bool
  actions : List EosAction
  interlaced_actions : List EosAction
  on_addition_actions : List EosAction
  /-- the synthesized `stop` action was executed -/
  stopExecuted : Bool
  message_type : Option String
  got_eos : Bool
deriving DecidableEq, Repr

/-- The `GST_MESSAGE_ERROR` / `GST_MESSAGE_EOS` branch of `message_cb`,
from the point where the pending `set_done` callbacks have been drained
(the drain runs handler code, so the claims quantify over the post-drain
queue state).  On EOS while waiting for a message type with a further
queued action, the handler defers entirely (`goto done`).  The result is
`none` for the NULL dereference of `priv->actions->next` that the source
performs when `priv->message_type` is set and the main queue is empty.
Waiting for the `eos` message type is resolved by
`_check_waiting_for_message`, which clears the wait (the deferred
`set_done` it triggers does not change any queue within this handler). -/
def message_cb_eos (is_error got_eos0 : Bool) (message_type : Option String)
    (actions interlaced on_addition : List EosAction) : Option EosOutcome :=
  if ¬ is_error ∧ message_type.isSome ∧ actions = [] then Option.none
  else if ¬ is_error ∧ message_type.isSome ∧ 1 < actions.length then
    some ⟨false, actions, interlaced, on_addition, false, message_type, true⟩
  else
    let mt := if ¬ is_error ∧ message_type = some "eos" then Option.none
              else message_type
    let ge := if is_error then got_eos0 else true
    let nb := ((actions ++ interlaced ++ on_addition).filter eosCounts).length
    some ⟨decide (0 < nb), [], [], [], true, mt, ge⟩

/-! ## Scenario loader -/

/-- The loading loop of `gst_validate_scenario_load` over the
colon-separated scenario list, abstracted over the per-reference search
outcome (`none` when no candidate file loads, ending in `goto error`;
`some is_config` on success).  `found_actions` is the loop's flag; a second
non-config scenario ends in `one_actions_scenario_max`.  A FALSE return
makes the C function abort through `g_error`. -/
def gst_validate_scenario_load : List (Option Bool) → Bool → Bool
  | [], _ => true
  | outcome :: rest, found_actions =>
    match outcome with
    | Option.none => false
    | some is_config =>
      if ¬ is_config then
        if found_actions then false
        else gst_validate_scenario_load rest true
      else gst_validate_scenario_load rest found_actions

example :
    gst_validate_utils_parse_expression "1+2*3" (fun _ => none) = (7, none) := by
  with_unfolding_all rfl

example :
    gst_validate_utils_parse_expression "1<2" (fun _ => none) =
      (-1, some .malformedInput) := by
  with_unfolding_all rfl

example :
    gst_validate_utils_parse_expression "min(1, 2)" (fun _ => none) =
      (1, none) := by
  with_unfolding_all rfl

example :
    gst_validate_utils_parse_expression "2^3^2" (fun _ => none) =
      (512, none) := by
  with_unfolding_all rfl

example :
    gst_validate_utils_parse_expression "1+-2^2" (fun _ => none) =
      (5, none) := by
  with_unfolding_all rfl

example :
    gst_validate_utils_parse_expression "-2^2" (fun _ => none) =
      (-4, none) := by
  with_unfolding_all rfl

example :
    gst_validate_utils_parse_expression "(1&&1)" (fun _ => none) =
      (1, none) := by
  with_unfolding_all rfl

example :
    gst_validate_utils_parse_expression "pos" (fun n => if n = "pos" then some (5/2) else none) =
      (5/2, none) := by
  with_unfolding_all rfl

/-! ## Parser metatheory: scanning helpers -/

theorem spanDigits_nil {c : Char} {t : List Char} (hc : c.isDigit = false) :
    spanDigits (c :: t) = .ok ([], c :: t) := by
  simp [spanDigits, hc]

theorem spanDigits_cons {c : Char} {t ds r : List Char} (hc : c.isDigit = true)
    (h : spanDigits t = .ok (ds, r)) :
    spanDigits (c :: t) = .ok (c :: ds, r) := by
  simp [spanDigits, hc, h]

theorem spanDigits_append {ds : List Char} :
    ∀ {l es r : List Char}, (∀ x ∈ ds, x.isDigit = true) →
    spanDigits l = .ok (es, r) → spanDigits (ds ++ l) = .ok (ds ++ es, r) := by
  induction ds with
  | nil => intro l es r _ h; simpa using h
  | cons d ds ih =>
    intro l es r hds h
    have hd : d.isDigit = true := hds d (by simp)
    have := ih (fun x hx => hds x (by simp [hx])) h
    simpa using spanDigits_cons hd this

theorem spanDigits_spec : ∀ l ds r, spanDigits l = .ok (ds, r) →
    l = ds ++ r ∧ (∀ x ∈ ds, x.isDigit = true) ∧
    (∃ c t, r = c :: t ∧ c.isDigit = false) := by
  intro l
  induction l with
  | nil => intro ds r h; exact Except.noConfusion h
  | cons c t ih =>
    intro ds r h
    simp only [spanDigits] at h
    by_cases hc : c.isDigit
    · rw [if_pos hc] at h
      cases hs : spanDigits t with
      | error e => rw [hs] at h; exact Except.noConfusion h
      | ok p =>
        obtain ⟨ds', r'⟩ := p
        simp only [hs] at h
        simp only [Except.ok.injEq, Prod.mk.injEq] at h
        obtain ⟨h1, h2⟩ := h
        obtain ⟨ht, hd, hr⟩ := ih ds' r' hs
        subst h1; subst h2; subst ht
        refine ⟨rfl, ?_, hr⟩
        intro x hx
        rcases List.mem_cons.mp hx with hx | hx
        · subst hx; exact hc
        · exact hd x hx
    · rw [if_neg hc] at h
      simp only [Except.ok.injEq, Prod.mk.injEq] at h
      obtain ⟨h1, h2⟩ := h
      subst h1; subst h2
      exact ⟨rfl, by simp, c, t, rfl, by simpa using hc⟩

theorem scanIdent_nil {c : Char} {t : List Char} (hc : identChar c = false) :
    scanIdent (c :: t) = .ok ([], c :: t) := by
  simp [scanIdent, hc]

theorem scanIdent_cons {c : Char} {t ds r : List Char}
    (hc : identChar c = true) (h : scanIdent t = .ok (ds, r)) :
    scanIdent (c :: t) = .ok (c :: ds, r) := by
  simp [scanIdent, hc, h]

theorem scanIdent_append {ds : List Char} :
    ∀ {l es r : List Char}, (∀ x ∈ ds, identChar x = true) →
    scanIdent l = .ok (es, r) → scanIdent (ds ++ l) = .ok (ds ++ es, r) := by
  induction ds with
  | nil => intro l es r _ h; simpa using h
  | cons d ds ih =>
    intro l es r hds h
    have hd : identChar d = true := hds d (by simp)
    have := ih (fun x hx => hds x (by simp [hx])) h
    simpa using scanIdent_cons hd this

theorem scanIdent_spec : ∀ l ds r, scanIdent l = .ok (ds, r) →
    l = ds ++ r ∧ (∀ x ∈ ds, identChar x = true) ∧
    (∃ c t, r = c :: t ∧ identChar c = false) := by
  intro l
  induction l with
  | nil => intro ds r h; exact Except.noConfusion h
  | cons c t ih =>
    intro ds r h
    simp only [scanIdent] at h
    by_cases hc : identChar c
    · rw [if_pos hc] at h
      cases hs : scanIdent t with
      | error e => rw [hs] at h; exact Except.noConfusion h
      | ok p =>
        obtain ⟨ds', r'⟩ := p
        simp only [hs] at h
        simp only [Except.ok.injEq, Prod.mk.injEq] at h
        obtain ⟨h1, h2⟩ := h
        obtain ⟨ht, hd, hr⟩ := ih ds' r' hs
        subst h1; subst h2; subst ht
        refine ⟨rfl, ?_, hr⟩
        intro x hx
        rcases List.mem_cons.mp hx with hx | hx
        · subst hx; exact hc
        · exact hd x hx
    · rw [if_neg hc] at h
      simp only [Except.ok.injEq, Prod.mk.injEq] at h
      obtain ⟨h1, h2⟩ := h
      subst h1; subst h2
      exact ⟨rfl, by simp, c, t, rfl, by simpa using hc⟩

theorem nul_not_digit {c : Char} (h : c.isDigit = true) : c ≠ '\x00' := by
  intro hc; subst hc; exact absurd h (by decide)

theorem nul_not_identChar {c : Char} (h : identChar c = true) : c ≠ '\x00' := by
  intro hc; subst hc; exact absurd h (by decide)

/-- Helper: composing two consumed segments. -/
theorem consumed_comp {l m r : List Char} {C1 C2 : List Char}
    (h1 : l = C1 ++ m) (h2 : m = C2 ++ r) (n1 : '\x00' ∉ C1)
    (n2 : '\x00' ∉ C2) : ∃ C, l = C ++ r ∧ '\x00' ∉ C := by
  refine ⟨C1 ++ C2, ?_, ?_⟩
  · rw [h1, h2, List.append_assoc]
  · intro hmem
    rcases List.mem_append.mp hmem with h | h
    · exact n1 h
    · exact n2 h

theorem _read_double_consumed : ∀ l v r, _read_double l = .ok (v, r) →
    ∃ C, l = C ++ r ∧ '\x00' ∉ C := by
  intro l v r h
  cases l with
  | nil => exact Except.noConfusion h
  | cons c0 t0 =>
    simp only [_read_double] at h
    cases hs1 : spanDigits (if c0 = '+' ∨ c0 = '-' then t0 else c0 :: t0) with
    | error e => rw [hs1] at h; exact Except.noConfusion h
    | ok p1 =>
      obtain ⟨d1, l2⟩ := p1
      simp only [hs1] at h
      obtain ⟨he1, hd1, hstop1⟩ := spanDigits_spec _ _ _ hs1
      cases l2 with
      | nil => exact Except.noConfusion h
      | cons c2 t2 =>
        obtain ⟨c2', t2', heq, hnd⟩ := hstop1
        injection heq with h1 h2
        subst h1; subst h2
        dsimp only at h
        have nd1 : '\x00' ∉ d1 := fun hx => nul_not_digit (hd1 _ hx) rfl
        -- prefix consumed before the second span, and the input seen by it
        by_cases hdot : c2 = '.'
        · simp only [if_pos hdot] at h
          cases hs2 : spanDigits t2 with
          | error e => rw [hs2] at h; exact Except.noConfusion h
          | ok p2 =>
            obtain ⟨d2', l4⟩ := p2
            simp only [hs2] at h
            obtain ⟨he2, hd2, hstop2⟩ := spanDigits_spec _ _ _ hs2
            have nd2 : '\x00' ∉ d2' := fun hx => nul_not_digit (hd2 _ hx) rfl
            cases l4 with
            | nil => exact Except.noConfusion h
            | cons c4 t4 =>
              dsimp only at h
              have hpre : ∃ C, c0 :: t0 = C ++ (c4 :: t4) ∧ '\x00' ∉ C := by
                have hbody : (if c0 = '+' ∨ c0 = '-' then t0 else c0 :: t0) =
                    (d1 ++ c2 :: d2') ++ (c4 :: t4) := by
                  rw [he1, he2]; simp
                have hnbody : '\x00' ∉ d1 ++ c2 :: d2' := by
                  intro hx
                  rcases List.mem_append.mp hx with hx | hx
                  · exact nd1 hx
                  · rcases List.mem_cons.mp hx with hx | hx
                    · rw [hdot] at hx; exact absurd hx (by decide)
                    · exact nd2 hx
                by_cases hsgn : c0 = '+' ∨ c0 = '-'
                · rw [if_pos hsgn] at hbody
                  refine ⟨c0 :: (d1 ++ c2 :: d2'), by simp [hbody], ?_⟩
                  intro hx
                  rcases List.mem_cons.mp hx with hx | hx
                  · rcases hsgn with h' | h' <;>
                      (rw [h'] at hx; exact absurd hx (by decide))
                  · exact hnbody hx
                · rw [if_neg hsgn] at hbody
                  exact ⟨d1 ++ c2 :: d2', hbody, hnbody⟩
              obtain ⟨Cpre, hCpre, nCpre⟩ := hpre
              by_cases hee : c4 = 'e' ∨ c4 = 'E'
              · rw [if_pos hee] at h
                cases t4 with
                | nil => exact Except.noConfusion h
                | cons c5 t5 =>
                  dsimp only at h
                  cases hs3 : spanDigits
                      (if c5 = '+' ∨ c5 = '-' then t5 else c5 :: t5) with
                  | error e => rw [hs3] at h; exact Except.noConfusion h
                  | ok p3 =>
                    obtain ⟨d3, l6⟩ := p3
                    simp only [hs3] at h
                    obtain ⟨he3, hd3, _⟩ := spanDigits_spec _ _ _ hs3
                    have nd3 : '\x00' ∉ d3 :=
                      fun hx => nul_not_digit (hd3 _ hx) rfl
                    by_cases hval : d1 ++ d2' = [] ∨ d3 = []
                    · rw [if_pos hval] at h; exact Except.noConfusion h
                    · rw [if_neg hval] at h
                      simp only [Except.ok.injEq, Prod.mk.injEq] at h
                      obtain ⟨_, hr⟩ := h
                      subst hr
                      have hmid : ∃ C, c4 :: c5 :: t5 = C ++ l6 ∧
                          '\x00' ∉ C := by
                        by_cases hsgn5 : c5 = '+' ∨ c5 = '-'
                        · rw [if_pos hsgn5] at he3
                          refine ⟨c4 :: c5 :: d3, by simp [he3], ?_⟩
                          intro hx
                          rcases List.mem_cons.mp hx with hx | hx
                          · rcases hee with h' | h' <;>
                              (rw [h'] at hx; exact absurd hx (by decide))
                          · rcases List.mem_cons.mp hx with hx | hx
                            · rcases hsgn5 with h' | h' <;>
                                (rw [h'] at hx; exact absurd hx (by decide))
                            · exact nd3 hx
                        · rw [if_neg hsgn5] at he3
                          refine ⟨c4 :: d3, by simp [← he3], ?_⟩
                          intro hx
                          rcases List.mem_cons.mp hx with hx | hx
                          · rcases hee with h' | h' <;>
                              (rw [h'] at hx; exact absurd hx (by decide))
                          · exact nd3 hx
                      obtain ⟨Cm, hCm, nCm⟩ := hmid
                      exact consumed_comp hCpre hCm nCpre nCm
              · rw [if_neg hee] at h
                by_cases hval : d1 ++ d2' = []
                · rw [if_pos hval] at h; exact Except.noConfusion h
                · rw [if_neg hval] at h
                  simp only [Except.ok.injEq, Prod.mk.injEq] at h
                  obtain ⟨_, hr⟩ := h
                  subst hr
                  exact ⟨Cpre, hCpre, nCpre⟩
        · simp only [if_neg hdot] at h
          rw [spanDigits_nil hnd] at h
          dsimp only at h
          simp only [List.append_nil] at h
          have hpre : ∃ C, c0 :: t0 = C ++ (c2 :: t2) ∧ '\x00' ∉ C := by
            by_cases hsgn : c0 = '+' ∨ c0 = '-'
            · rw [if_pos hsgn] at he1
              refine ⟨c0 :: d1, by simp [he1], ?_⟩
              intro hx
              rcases List.mem_cons.mp hx with hx | hx
              · rcases hsgn with h' | h' <;>
                  (rw [h'] at hx; exact absurd hx (by decide))
              · exact nd1 hx
            · rw [if_neg hsgn] at he1
              exact ⟨d1, he1, nd1⟩
          obtain ⟨Cpre, hCpre, nCpre⟩ := hpre
          by_cases hee : c2 = 'e' ∨ c2 = 'E'
          · rw [if_pos hee] at h
            cases t2 with
            | nil => exact Except.noConfusion h
            | cons c5 t5 =>
              dsimp only at h
              cases hs3 : spanDigits
                  (if c5 = '+' ∨ c5 = '-' then t5 else c5 :: t5) with
              | error e => rw [hs3] at h; exact Except.noConfusion h
              | ok p3 =>
                obtain ⟨d3, l6⟩ := p3
                simp only [hs3] at h
                obtain ⟨he3, hd3, _⟩ := spanDigits_spec _ _ _ hs3
                have nd3 : '\x00' ∉ d3 := fun hx => nul_not_digit (hd3 _ hx) rfl
                by_cases hval : d1 = [] ∨ d3 = []
                · rw [if_pos hval] at h; exact Except.noConfusion h
                · rw [if_neg hval] at h
                  simp only [Except.ok.injEq, Prod.mk.injEq] at h
                  obtain ⟨_, hr⟩ := h
                  subst hr
                  have hmid : ∃ C, c2 :: c5 :: t5 = C ++ l6 ∧ '\x00' ∉ C := by
                    by_cases hsgn5 : c5 = '+' ∨ c5 = '-'
                    · rw [if_pos hsgn5] at he3
                      refine ⟨c2 :: c5 :: d3, by simp [he3], ?_⟩
                      intro hx
                      rcases List.mem_cons.mp hx with hx | hx
                      · rcases hee with h' | h' <;>
                          (rw [h'] at hx; exact absurd hx (by decide))
                      · rcases List.mem_cons.mp hx with hx | hx
                        · rcases hsgn5 with h' | h' <;>
                            (rw [h'] at hx; exact absurd hx (by decide))
                        · exact nd3 hx
                    · rw [if_neg hsgn5] at he3
                      refine ⟨c2 :: d3, by simp [← he3], ?_⟩
                      intro hx
                      rcases List.mem_cons.mp hx with hx | hx
                      · rcases hee with h' | h' <;>
                          (rw [h'] at hx; exact absurd hx (by decide))
                      · exact nd3 hx
                  obtain ⟨Cm, hCm, nCm⟩ := hmid
                  exact consumed_comp hCpre hCm nCpre nCm
          · rw [if_neg hee] at h
            by_cases hval : d1 = []
            · rw [if_pos hval] at h; exact Except.noConfusion h
            · rw [if_neg hval] at h
              simp only [Except.ok.injEq, Prod.mk.injEq] at h
              obtain ⟨_, hr⟩ := h
              subst hr
              exact ⟨Cpre, hCpre, nCpre⟩

theorem consumed_cons {c : Char} {t r : List Char} (hc : c ≠ '\x00')
    (h : ∃ C, t = C ++ r ∧ '\x00' ∉ C) :
    ∃ C, c :: t = C ++ r ∧ '\x00' ∉ C := by
  obtain ⟨C, hC, nC⟩ := h
  refine ⟨c :: C, by simp [hC], ?_⟩
  intro hx
  rcases List.mem_cons.mp hx with hx | hx
  · exact hc hx.symm
  · exact nC hx

theorem consumed_self (l : List Char) : ∃ C, l = C ++ l ∧ '\x00' ∉ C :=
  ⟨[], rfl, by simp⟩

/-- Composing consumed-input facts through `pbind`. -/
theorem consumed_pbind {e : Except PErr (ℚ × List Char)}
    {k : ℚ → List Char → Except PErr (ℚ × List Char)} {input : List Char}
    (he : ∀ v m, e = .ok (v, m) → ∃ C, input = C ++ m ∧ '\x00' ∉ C)
    (hk : ∀ v m w r, e = .ok (v, m) → k v m = .ok (w, r) →
      ∃ C, m = C ++ r ∧ '\x00' ∉ C) :
    ∀ w r, pbind e k = .ok (w, r) → ∃ C, input = C ++ r ∧ '\x00' ∉ C := by
  intro w r h
  cases hee : e with
  | error er => rw [hee] at h; exact Except.noConfusion h
  | ok p =>
    obtain ⟨v, m⟩ := p
    rw [hee] at h
    simp only [pbind_ok] at h
    obtain ⟨C1, h1, n1⟩ := he v m hee
    obtain ⟨C2, h2, n2⟩ := hk v m w r hee h
    exact consumed_comp h1 h2 n1 n2

theorem parseFn_consumed (lk : String → Option ℚ) :
    ∀ fuel tag l v r, parseFn lk fuel tag l = .ok (v, r) →
      ∃ C, l = C ++ r ∧ '\x00' ∉ C := by
  intro fuel
  induction fuel with
  | zero => intro tag l v r h; exact Except.noConfusion h
  | succ fuel ih =>
    intro tag l v r
    cases tag with
    | expr =>
      cases l with
      | nil => intro h; exact Except.noConfusion h
      | cons c t =>
        simp only [parseFn]
        by_cases hc : c = '+'
        · rw [if_pos hc]
          intro h
          refine consumed_cons (by rw [hc]; decide) ?_
          exact consumed_pbind (fun v m hm => ih .term t v m hm)
            (fun v m w r _ hk => ih (.exprLoop (0 + v)) m w r hk) v r h
        · rw [if_neg hc]
          by_cases hc2 : c = '-'
          · rw [if_pos hc2]
            intro h
            refine consumed_cons (by rw [hc2]; decide) ?_
            exact consumed_pbind (fun v m hm => ih .term t v m hm)
              (fun v m w r _ hk => ih (.exprLoop (0 - v)) m w r hk) v r h
          · rw [if_neg hc2]
            intro h
            exact consumed_pbind (fun v m hm => ih .term (c :: t) v m hm)
              (fun v m w r _ hk => ih (.exprLoop v) m w r hk) v r h
    | exprLoop v0 =>
      cases l with
      | nil => intro h; exact Except.noConfusion h
      | cons c t =>
        simp only [parseFn]
        by_cases hc : c = '+'
        · rw [if_pos hc]
          intro h
          refine consumed_cons (by rw [hc]; decide) ?_
          exact consumed_pbind (fun v m hm => ih .term t v m hm)
            (fun v m w r _ hk => ih (.exprLoop (v0 + v)) m w r hk) v r h
        · rw [if_neg hc]
          by_cases hc2 : c = '-'
          · rw [if_pos hc2]
            intro h
            refine consumed_cons (by rw [hc2]; decide) ?_
            exact consumed_pbind (fun v m hm => ih .term t v m hm)
              (fun v m w r _ hk => ih (.exprLoop (v0 - v)) m w r hk) v r h
          · rw [if_neg hc2]
            intro h
            simp only [Except.ok.injEq, Prod.mk.injEq] at h
            obtain ⟨_, hr⟩ := h
            rw [← hr]
            exact consumed_self _
    | term =>
      intro h
      exact consumed_pbind (fun v m hm => ih .power l v m hm)
        (fun v m w r _ hk => ih (.termLoop v) m w r hk) v r h
    | termLoop v0 =>
      cases l with
      | nil => intro h; exact Except.noConfusion h
      | cons c t =>
        simp only [parseFn]
        by_cases hc : c = '*'
        · rw [if_pos hc]
          intro h
          refine consumed_cons (by rw [hc]; decide) ?_
          exact consumed_pbind (fun v m hm => ih .power t v m hm)
            (fun v m w r _ hk => ih (.termLoop (v0 * v)) m w r hk) v r h
        · rw [if_neg hc]
          by_cases hc2 : c = '/'
          · rw [if_pos hc2]
            intro h
            refine consumed_cons (by rw [hc2]; decide) ?_
            exact consumed_pbind (fun v m hm => ih .power t v m hm)
              (fun v m w r _ hk => ih (.termLoop (v0 / v)) m w r hk) v r h
          · rw [if_neg hc2]
            intro h
            simp only [Except.ok.injEq, Prod.mk.injEq] at h
            obtain ⟨_, hr⟩ := h
            rw [← hr]
            exact consumed_self _
    | power =>
      intro h
      exact consumed_pbind (fun v m hm => ih .unary l v m hm)
        (fun v m w r _ hk => ih (.powerLoop v 1) m w r hk) v r h
    | powerLoop v0 s0 =>
      cases l with
      | nil => intro h; exact Except.noConfusion h
      | cons c t =>
        simp only [parseFn]
        by_cases hc : c = '^'
        · rw [if_pos hc]
          cases t with
          | nil => intro h; exact Except.noConfusion h
          | cons d u =>
            dsimp only
            by_cases hd : d = '-'
            · rw [if_pos hd]
              intro h
              refine consumed_cons (by rw [hc]; decide) ?_
              refine consumed_cons (by rw [hd]; decide) ?_
              exact consumed_pbind (fun v m hm => ih .power u v m hm)
                (fun v m w r _ hk =>
                  ih (.powerLoop (cpow v0 ((-1) * v)) (-1)) m w r hk) v r h
            · rw [if_neg hd]
              intro h
              refine consumed_cons (by rw [hc]; decide) ?_
              exact consumed_pbind (fun v m hm => ih .power (d :: u) v m hm)
                (fun v m w r _ hk =>
                  ih (.powerLoop (cpow v0 (s0 * v)) s0) m w r hk) v r h
        · rw [if_neg hc]
          intro h
          simp only [Except.ok.injEq, Prod.mk.injEq] at h
          obtain ⟨_, hr⟩ := h
          rw [← hr]
          exact consumed_self _
    | unary =>
      cases l with
      | nil => intro h; exact Except.noConfusion h
      | cons c t =>
        simp only [parseFn]
        by_cases hc : c = '!'
        · rw [if_pos hc]; intro h; exact Except.noConfusion h
        · rw [if_neg hc]
          by_cases hc2 : c = '-'
          · rw [if_pos hc2]
            intro h
            refine consumed_cons (by rw [hc2]; decide) ?_
            refine consumed_pbind (fun v m hm => ih .paren t v m hm)
              (fun v m w r _ hk => ?_) v r h
            simp only [Except.ok.injEq, Prod.mk.injEq] at hk
            obtain ⟨_, hr⟩ := hk
            rw [← hr]
            exact consumed_self _
          · rw [if_neg hc2]
            by_cases hc3 : c = '+'
            · rw [if_pos hc3]
              intro h
              exact consumed_cons (by rw [hc3]; decide) (ih .paren t v r h)
            · rw [if_neg hc3]
              intro h
              exact ih .paren (c :: t) v r h
    | paren =>
      cases l with
      | nil => intro h; exact Except.noConfusion h
      | cons c t =>
        simp only [parseFn]
        by_cases hc : c = '('
        · rw [if_pos hc]
          intro h
          refine consumed_cons (by rw [hc]; decide) ?_
          refine consumed_pbind (fun v m hm => ih .bOr t v m hm)
            (fun v m w r _ hk => ?_) v r h
          cases m with
          | nil => exact Except.noConfusion hk
          | cons d u =>
            dsimp only at hk
            by_cases hd : d = ')'
            · rw [if_pos hd] at hk
              simp only [Except.ok.injEq, Prod.mk.injEq] at hk
              obtain ⟨_, hr⟩ := hk
              rw [← hr]
              exact consumed_cons (by rw [hd]; decide) (consumed_self u)
            · rw [if_neg hd] at hk; exact Except.noConfusion hk
        · rw [if_neg hc]
          intro h
          exact ih .builtin (c :: t) v r h
    | builtin =>
      cases l with
      | nil => intro h; exact Except.noConfusion h
      | cons c t =>
        simp only [parseFn]
        by_cases hc : identStart c
        · rw [if_pos hc]
          cases hscan : scanIdent (c :: t) with
          | error e => dsimp only; intro h; exact Except.noConfusion h
          | ok p =>
            obtain ⟨tok, m⟩ := p
            dsimp only
            obtain ⟨hsp, htok, hstop⟩ := scanIdent_spec _ _ _ hscan
            have ntok : '\x00' ∉ tok :=
              fun hx => nul_not_identChar (htok _ hx) rfl
            cases m with
            | nil => intro h; exact Except.noConfusion h
            | cons d u =>
              dsimp only
              by_cases hd : d = '('
              · rw [if_pos hd]
                by_cases hmin : String.mk tok = "min"
                · rw [if_pos hmin]
                  intro h
                  have hrest : ∃ C, u = C ++ r ∧ '\x00' ∉ C := by
                    refine consumed_pbind (fun v m hm => ih .arg u v m hm)
                      (fun a1 r1 w r _ hk => ?_) v r h
                    refine consumed_pbind (fun v m hm => ih .arg r1 v m hm)
                      (fun a2 r2 w r _ hk2 => ?_) w r hk
                    cases r2 with
                    | nil => exact Except.noConfusion hk2
                    | cons e2 w2 =>
                      dsimp only at hk2
                      by_cases he2 : e2 = ')'
                      · rw [if_pos he2] at hk2
                        simp only [Except.ok.injEq, Prod.mk.injEq] at hk2
                        obtain ⟨_, hr⟩ := hk2
                        rw [← hr]
                        exact consumed_cons (by rw [he2]; decide)
                          (consumed_self w2)
                      · rw [if_neg he2] at hk2; exact Except.noConfusion hk2
                  obtain ⟨C, hC, nC⟩ := hrest
                  refine ⟨tok ++ d :: C, ?_, ?_⟩
                  · rw [hsp, hC]; simp
                  · intro hx
                    rcases List.mem_append.mp hx with hx | hx
                    · exact ntok hx
                    · rcases List.mem_cons.mp hx with hx | hx
                      · rw [hd] at hx; exact absurd hx (by decide)
                      · exact nC hx
                · rw [if_neg hmin]
                  by_cases hmax : String.mk tok = "max"
                  · rw [if_pos hmax]
                    intro h
                    have hrest : ∃ C, u = C ++ r ∧ '\x00' ∉ C := by
                      refine consumed_pbind (fun v m hm => ih .arg u v m hm)
                        (fun a1 r1 w r _ hk => ?_) v r h
                      refine consumed_pbind (fun v m hm => ih .arg r1 v m hm)
                        (fun a2 r2 w r _ hk2 => ?_) w r hk
                      cases r2 with
                      | nil => exact Except.noConfusion hk2
                      | cons e2 w2 =>
                        dsimp only at hk2
                        by_cases he2 : e2 = ')'
                        · rw [if_pos he2] at hk2
                          simp only [Except.ok.injEq, Prod.mk.injEq] at hk2
                          obtain ⟨_, hr⟩ := hk2
                          rw [← hr]
                          exact consumed_cons (by rw [he2]; decide)
                            (consumed_self w2)
                        · rw [if_neg he2] at hk2
                          exact Except.noConfusion hk2
                    obtain ⟨C, hC, nC⟩ := hrest
                    refine ⟨tok ++ d :: C, ?_, ?_⟩
                    · rw [hsp, hC]; simp
                    · intro hx
                      rcases List.mem_append.mp hx with hx | hx
                      · exact ntok hx
                      · rcases List.mem_cons.mp hx with hx | hx
                        · rw [hd] at hx; exact absurd hx (by decide)
                        · exact nC hx
                  · rw [if_neg hmax]
                    intro h
                    exact Except.noConfusion h
              · rw [if_neg hd]
                cases hlk : lk (String.mk tok) with
                | none => intro h; exact Except.noConfusion h
                | some w =>
                  intro h
                  simp only [Except.ok.injEq, Prod.mk.injEq] at h
                  obtain ⟨_, hr⟩ := h
                  rw [← hr, hsp]
                  exact ⟨tok, rfl, ntok⟩
        · rw [if_neg hc]
          intro h
          exact _read_double_consumed _ v r h
    | arg =>
      intro h
      refine consumed_pbind (fun v m hm => ih .expr l v m hm)
        (fun v m w r _ hk => ?_) v r h
      cases m with
      | nil => exact Except.noConfusion hk
      | cons c t =>
        dsimp only at hk
        by_cases hc : c = ','
        · rw [if_pos hc] at hk
          simp only [Except.ok.injEq, Prod.mk.injEq] at hk
          obtain ⟨_, hr⟩ := hk
          rw [← hr]
          exact consumed_cons (by rw [hc]; decide) (consumed_self t)
        · rw [if_neg hc] at hk
          simp only [Except.ok.injEq, Prod.mk.injEq] at hk
          obtain ⟨_, hr⟩ := hk
          rw [← hr]
          exact consumed_self _
    | bCmp =>
      intro h
      refine consumed_pbind (fun v m hm => ih .expr l v m hm)
        (fun v0 m w r _ hk => ?_) v r h
      cases m with
      | nil => exact Except.noConfusion hk
      | cons c t =>
        dsimp only at hk
        by_cases hc : c = '>' ∨ c = '<'
        · rw [if_pos hc] at hk
          cases t with
          | nil => exact Except.noConfusion hk
          | cons d u =>
            dsimp only at hk
            have hcn : c ≠ '\x00' := by
              rcases hc with h' | h' <;> (rw [h']; decide)
            by_cases hd : d = '='
            · rw [if_pos hd] at hk
              refine consumed_cons hcn (consumed_cons (by rw [hd]; decide) ?_)
              refine consumed_pbind (fun v m hm => ih .expr u v m hm)
                (fun v1 r1 w r _ hk2 => ?_) w r hk
              simp only [Except.ok.injEq, Prod.mk.injEq] at hk2
              obtain ⟨_, hr⟩ := hk2
              rw [← hr]
              exact consumed_self _
            · rw [if_neg hd] at hk
              refine consumed_cons hcn ?_
              refine consumed_pbind (fun v m hm => ih .expr (d :: u) v m hm)
                (fun v1 r1 w r _ hk2 => ?_) w r hk
              simp only [Except.ok.injEq, Prod.mk.injEq] at hk2
              obtain ⟨_, hr⟩ := hk2
              rw [← hr]
              exact consumed_self _
        · rw [if_neg hc] at hk
          simp only [Except.ok.injEq, Prod.mk.injEq] at hk
          obtain ⟨_, hr⟩ := hk
          rw [← hr]
          exact consumed_self _
    | bEq =>
      intro h
      refine consumed_pbind (fun v m hm => ih .bCmp l v m hm)
        (fun v0 m w r _ hk => ?_) v r h
      cases m with
      | nil => exact Except.noConfusion hk
      | cons c t =>
        dsimp only at hk
        by_cases hc : c = '='
        · rw [if_pos hc] at hk
          cases t with
          | nil => exact Except.noConfusion hk
          | cons d u =>
            dsimp only at hk
            by_cases hd : d = '='
            · rw [if_pos hd] at hk
              refine consumed_cons (by rw [hc]; decide)
                (consumed_cons (by rw [hd]; decide) ?_)
              refine consumed_pbind (fun v m hm => ih .bCmp u v m hm)
                (fun v1 r1 w r _ hk2 => ?_) w r hk
              simp only [Except.ok.injEq, Prod.mk.injEq] at hk2
              obtain ⟨_, hr⟩ := hk2
              rw [← hr]
              exact consumed_self _
            · rw [if_neg hd] at hk; exact Except.noConfusion hk
        · rw [if_neg hc] at hk
          by_cases hc2 : c = '!'
          · rw [if_pos hc2] at hk
            cases t with
            | nil => exact Except.noConfusion hk
            | cons d u =>
              dsimp only at hk
              by_cases hd : d = '='
              · rw [if_pos hd] at hk
                refine consumed_cons (by rw [hc2]; decide)
                  (consumed_cons (by rw [hd]; decide) ?_)
                refine consumed_pbind (fun v m hm => ih .bCmp u v m hm)
                  (fun v1 r1 w r _ hk2 => ?_) w r hk
                simp only [Except.ok.injEq, Prod.mk.injEq] at hk2
                obtain ⟨_, hr⟩ := hk2
                rw [← hr]
                exact consumed_self _
              · rw [if_neg hd] at hk
                simp only [Except.ok.injEq, Prod.mk.injEq] at hk
                obtain ⟨_, hr⟩ := hk
                rw [← hr]
                exact consumed_self _
          · rw [if_neg hc2] at hk
            simp only [Except.ok.injEq, Prod.mk.injEq] at hk
            obtain ⟨_, hr⟩ := hk
            rw [← hr]
            exact consumed_self _
    | bAnd =>
      intro h
      exact consumed_pbind (fun v m hm => ih .bEq l v m hm)
        (fun v m w r _ hk => ih (.bAndLoop v) m w r hk) v r h
    | bAndLoop v0 =>
      cases l with
      | nil => intro h; exact Except.noConfusion h
      | cons c t =>
        simp only [parseFn]
        by_cases hc : c = '&'
        · rw [if_pos hc]
          cases t with
          | nil => intro h; exact Except.noConfusion h
          | cons d u =>
            dsimp only
            by_cases hd : d = '&'
            · rw [if_pos hd]
              intro h
              refine consumed_cons (by rw [hc]; decide)
                (consumed_cons (by rw [hd]; decide) ?_)
              exact consumed_pbind (fun v m hm => ih .bEq u v m hm)
                (fun v m w r _ hk => ih (.bAndLoop _) m w r hk) v r h
            · rw [if_neg hd]
              intro h
              exact Except.noConfusion h
        · rw [if_neg hc]
          intro h
          simp only [Except.ok.injEq, Prod.mk.injEq] at h
          obtain ⟨_, hr⟩ := h
          rw [← hr]
          exact consumed_self _
    | bOr =>
      intro h
      exact consumed_pbind (fun v m hm => ih .bAnd l v m hm)
        (fun v m w r _ hk => ih (.bOrLoop v) m w r hk) v r h
    | bOrLoop v0 =>
      cases l with
      | nil => intro h; exact Except.noConfusion h
      | cons c t =>
        simp only [parseFn]
        by_cases hc : c = '|'
        · rw [if_pos hc]
          cases t with
          | nil => intro h; exact Except.noConfusion h
          | cons d u =>
            dsimp only
            by_cases hd : d = '|'
            · rw [if_pos hd]
              intro h
              refine consumed_cons (by rw [hc]; decide)
                (consumed_cons (by rw [hd]; decide) ?_)
              exact consumed_pbind (fun v m hm => ih .bAnd u v m hm)
                (fun v m w r _ hk => ih (.bOrLoop _) m w r hk) v r h
            · rw [if_neg hd]
              intro h
              exact Except.noConfusion h
        · rw [if_neg hc]
          intro h
          simp only [Except.ok.injEq, Prod.mk.injEq] at h
          obtain ⟨_, hr⟩ := h
          rw [← hr]
          exact consumed_self _

/-! ## Parser metatheory: fuel monotonicity -/

theorem mono_pbind {e e' : Except PErr (ℚ × List Char)}
    {k k' : ℚ → List Char → Except PErr (ℚ × List Char)}
    (he : ∀ y, e = .ok y → e' = .ok y)
    (hk : ∀ v r y, e = .ok (v, r) → k v r = .ok y → k' v r = .ok y) :
    ∀ y, pbind e k = .ok y → pbind e' k' = .ok y := by
  intro y h
  cases hee : e with
  | error er => rw [hee] at h; exact Except.noConfusion h
  | ok p =>
    obtain ⟨v, r⟩ := p
    rw [hee] at h
    simp only [pbind_ok] at h
    rw [he (v, r) hee]
    simp only [pbind_ok]
    exact hk v r y hee h

theorem parseFn_mono_aux (lk : String → Option ℚ) :
    ∀ fuel tag l x fuel', fuel ≤ fuel' →
      parseFn lk fuel tag l = .ok x → parseFn lk fuel' tag l = .ok x := by
  intro fuel
  induction fuel with
  | zero => intro tag l x fuel' _ h; exact Except.noConfusion h
  | succ f ih =>
    intro tag l x fuel' hle
    cases fuel' with
    | zero => exact absurd hle (by omega)
    | succ f' =>
    have hff : f ≤ f' := Nat.succ_le_succ_iff.mp hle
    cases tag with
    | expr =>
      cases l with
      | nil => intro h; exact Except.noConfusion h
      | cons c t =>
        simp only [parseFn]
        by_cases hc : c = '+'
        · simp only [if_pos hc]
          exact mono_pbind (fun y => ih .term t y f' hff)
            (fun v r y _ => ih (.exprLoop (0 + v)) r y f' hff) x
        · simp only [if_neg hc]
          by_cases hc2 : c = '-'
          · simp only [if_pos hc2]
            exact mono_pbind (fun y => ih .term t y f' hff)
              (fun v r y _ => ih (.exprLoop (0 - v)) r y f' hff) x
          · simp only [if_neg hc2]
            exact mono_pbind (fun y => ih .term (c :: t) y f' hff)
              (fun v r y _ => ih (.exprLoop v) r y f' hff) x
    | exprLoop v0 =>
      cases l with
      | nil => intro h; exact Except.noConfusion h
      | cons c t =>
        simp only [parseFn]
        by_cases hc : c = '+'
        · simp only [if_pos hc]
          exact mono_pbind (fun y => ih .term t y f' hff)
            (fun v r y _ => ih (.exprLoop (v0 + v)) r y f' hff) x
        · simp only [if_neg hc]
          by_cases hc2 : c = '-'
          · simp only [if_pos hc2]
            exact mono_pbind (fun y => ih .term t y f' hff)
              (fun v r y _ => ih (.exprLoop (v0 - v)) r y f' hff) x
          · simp only [if_neg hc2]
            exact fun h => h
    | term =>
      simp only [parseFn]
      exact mono_pbind (fun y => ih .power l y f' hff)
        (fun v r y _ => ih (.termLoop v) r y f' hff) x
    | termLoop v0 =>
      cases l with
      | nil => intro h; exact Except.noConfusion h
      | cons c t =>
        simp only [parseFn]
        by_cases hc : c = '*'
        · simp only [if_pos hc]
          exact mono_pbind (fun y => ih .power t y f' hff)
            (fun v r y _ => ih (.termLoop (v0 * v)) r y f' hff) x
        · simp only [if_neg hc]
          by_cases hc2 : c = '/'
          · simp only [if_pos hc2]
            exact mono_pbind (fun y => ih .power t y f' hff)
              (fun v r y _ => ih (.termLoop (v0 / v)) r y f' hff) x
          · simp only [if_neg hc2]
            exact fun h => h
    | power =>
      simp only [parseFn]
      exact mono_pbind (fun y => ih .unary l y f' hff)
        (fun v r y _ => ih (.powerLoop v 1) r y f' hff) x
    | powerLoop v0 s0 =>
      cases l with
      | nil => intro h; exact Except.noConfusion h
      | cons c t =>
        simp only [parseFn]
        by_cases hc : c = '^'
        · simp only [if_pos hc]
          cases t with
          | nil => intro h; exact Except.noConfusion h
          | cons d u =>
            dsimp only
            by_cases hd : d = '-'
            · simp only [if_pos hd]
              exact mono_pbind (fun y => ih .power u y f' hff)
                (fun v r y _ =>
                  ih (.powerLoop (cpow v0 ((-1) * v)) (-1)) r y f' hff) x
            · simp only [if_neg hd]
              exact mono_pbind (fun y => ih .power (d :: u) y f' hff)
                (fun v r y _ =>
                  ih (.powerLoop (cpow v0 (s0 * v)) s0) r y f' hff) x
        · simp only [if_neg hc]
          exact fun h => h
    | unary =>
      cases l with
      | nil => intro h; exact Except.noConfusion h
      | cons c t =>
        simp only [parseFn]
        by_cases hc : c = '!'
        · simp only [if_pos hc]; exact fun h => h
        · simp only [if_neg hc]
          by_cases hc2 : c = '-'
          · simp only [if_pos hc2]
            exact mono_pbind (fun y => ih .paren t y f' hff)
              (fun v r y _ h => h) x
          · simp only [if_neg hc2]
            by_cases hc3 : c = '+'
            · simp only [if_pos hc3]
              exact fun h => ih .paren t x f' hff h
            · simp only [if_neg hc3]
              exact fun h => ih .paren (c :: t) x f' hff h
    | paren =>
      cases l with
      | nil => intro h; exact Except.noConfusion h
      | cons c t =>
        simp only [parseFn]
        by_cases hc : c = '('
        · simp only [if_pos hc]
          exact mono_pbind (fun y => ih .bOr t y f' hff)
            (fun v r y _ h => h) x
        · simp only [if_neg hc]
          exact fun h => ih .builtin (c :: t) x f' hff h
    | builtin =>
      cases l with
      | nil => intro h; exact Except.noConfusion h
      | cons c t =>
        simp only [parseFn]
        by_cases hc : identStart c
        · simp only [if_pos hc]
          cases hscan : scanIdent (c :: t) with
          | error e => exact fun h => h
          | ok p =>
            obtain ⟨tok, m⟩ := p
            dsimp only
            cases m with
            | nil => exact fun h => h
            | cons d u =>
              dsimp only
              by_cases hd : d = '('
              · simp only [if_pos hd]
                by_cases hmin : String.mk tok = "min"
                · simp only [if_pos hmin]
                  exact mono_pbind (fun y => ih .arg u y f' hff)
                    (fun a1 r1 y _ =>
                      mono_pbind (fun y2 => ih .arg r1 y2 f' hff)
                        (fun a2 r2 y2 _ h => h) y) x
                · simp only [if_neg hmin]
                  by_cases hmax : String.mk tok = "max"
                  · simp only [if_pos hmax]
                    exact mono_pbind (fun y => ih .arg u y f' hff)
                      (fun a1 r1 y _ =>
                        mono_pbind (fun y2 => ih .arg r1 y2 f' hff)
                          (fun a2 r2 y2 _ h => h) y) x
                  · simp only [if_neg hmax]
                    exact fun h => h
              · simp only [if_neg hd]
                exact fun h => h
        · simp only [if_neg hc]
          exact fun h => h
    | arg =>
      simp only [parseFn]
      exact mono_pbind (fun y => ih .expr l y f' hff)
        (fun v r y _ h => h) x
    | bCmp =>
      simp only [parseFn]
      refine mono_pbind (fun y => ih .expr l y f' hff)
        (fun v0 m y _ => ?_) x
      cases m with
      | nil => exact fun h => h
      | cons c t =>
        dsimp only
        by_cases hc : c = '>' ∨ c = '<'
        · simp only [if_pos hc]
          cases t with
          | nil => exact fun h => h
          | cons d u =>
            dsimp only
            by_cases hd : d = '='
            · simp only [if_pos hd]
              exact mono_pbind (fun y2 => ih .expr u y2 f' hff)
                (fun v1 r1 y2 _ h => h) y
            · simp only [if_neg hd]
              exact mono_pbind (fun y2 => ih .expr (d :: u) y2 f' hff)
                (fun v1 r1 y2 _ h => h) y
        · simp only [if_neg hc]
          exact fun h => h
    | bEq =>
      simp only [parseFn]
      refine mono_pbind (fun y => ih .bCmp l y f' hff)
        (fun v0 m y _ => ?_) x
      cases m with
      | nil => exact fun h => h
      | cons c t =>
        dsimp only
        by_cases hc : c = '='
        · simp only [if_pos hc]
          cases t with
          | nil => exact fun h => h
          | cons d u =>
            dsimp only
            by_cases hd : d = '='
            · simp only [if_pos hd]
              exact mono_pbind (fun y2 => ih .bCmp u y2 f' hff)
                (fun v1 r1 y2 _ h => h) y
            · simp only [if_neg hd]
              exact fun h => h
        · simp only [if_neg hc]
          by_cases hc2 : c = '!'
          · simp only [if_pos hc2]
            cases t with
            | nil => exact fun h => h
            | cons d u =>
              dsimp only
              by_cases hd : d = '='
              · simp only [if_pos hd]
                exact mono_pbind (fun y2 => ih .bCmp u y2 f' hff)
                  (fun v1 r1 y2 _ h => h) y
              · simp only [if_neg hd]
                exact fun h => h
          · simp only [if_neg hc2]
            exact fun h => h
    | bAnd =>
      simp only [parseFn]
      exact mono_pbind (fun y => ih .bEq l y f' hff)
        (fun v r y _ => ih (.bAndLoop v) r y f' hff) x
    | bAndLoop v0 =>
      cases l with
      | nil => intro h; exact Except.noConfusion h
      | cons c t =>
        simp only [parseFn]
        by_cases hc : c = '&'
        · simp only [if_pos hc]
          cases t with
          | nil => intro h; exact Except.noConfusion h
          | cons d u =>
            dsimp only
            by_cases hd : d = '&'
            · simp only [if_pos hd]
              exact mono_pbind (fun y => ih .bEq u y f' hff)
                (fun v r y _ => ih (.bAndLoop _) r y f' hff) x
            · simp only [if_neg hd]
              exact fun h => h
        · simp only [if_neg hc]
          exact fun h => h
    | bOr =>
      simp only [parseFn]
      exact mono_pbind (fun y => ih .bAnd l y f' hff)
        (fun v r y _ => ih (.bOrLoop v) r y f' hff) x
    | bOrLoop v0 =>
      cases l with
      | nil => intro h; exact Except.noConfusion h
      | cons c t =>
        simp only [parseFn]
        by_cases hc : c = '|'
        · simp only [if_pos hc]
          cases t with
          | nil => intro h; exact Except.noConfusion h
          | cons d u =>
            dsimp only
            by_cases hd : d = '|'
            · simp only [if_pos hd]
              exact mono_pbind (fun y => ih .bAnd u y f' hff)
                (fun v r y _ => ih (.bOrLoop _) r y f' hff) x
            · simp only [if_neg hd]
              exact fun h => h
        · simp only [if_neg hc]
          exact fun h => h

theorem parseFn_mono (lk : String → Option ℚ) {fuel fuel' : ℕ} {tag l x}
    (hle : fuel ≤ fuel') (h : parseFn lk fuel tag l = .ok x) :
    parseFn lk fuel' tag l = .ok x :=
  parseFn_mono_aux lk fuel tag l x fuel' hle h

/-! ## Parser metatheory: boundary helpers -/

theorem suffix_nul : ∀ {D C m : List Char}, D ++ ['\x00'] = C ++ m →
    '\x00' ∉ C → ∃ E, m = E ++ ['\x00'] ∧ D = C ++ E := by
  intro D C
  induction C generalizing D with
  | nil =>
    intro m h _
    exact ⟨D, by simpa using h.symm, by simp⟩
  | cons c C ih =>
    intro m h hC
    cases D with
    | nil =>
      simp only [List.nil_append, List.cons_append] at h
      exact absurd ((List.cons.inj h).1 ▸ List.mem_cons_self c C) hC
    | cons d D =>
      simp only [List.cons_append] at h
      obtain ⟨hdc, ht⟩ := List.cons.inj h
      obtain ⟨E, hm, hD⟩ := ih ht (fun hx => hC (List.mem_cons_of_mem c hx))
      exact ⟨E, hm, by rw [hdc, hD, List.cons_append]⟩

theorem append_nul_inj {E F : List Char} (h : E ++ ['\x00'] = F ++ ['\x00']) :
    E = F :=
  List.append_inj_left h (by
    have := congrArg List.length h
    simpa using this)

theorem append_nul_nil {E : List Char} (h : E ++ ['\x00'] = ['\x00']) : E = [] :=
  @append_nul_inj E [] h

theorem append_nul_bang {E : List Char} (h : E ++ ['\x00'] = ['!', '\x00']) :
    E = ['!'] :=
  @append_nul_inj E ['!'] h

theorem run_nul_E {lk : String → Option ℚ} {fuel : ℕ} {tag : PF} {v : ℚ}
    {E : List Char} (h : parseFn lk fuel tag ['\x00'] = .ok (v, E ++ ['\x00'])) :
    E = [] := by
  obtain ⟨C, hC, -⟩ := parseFn_consumed lk fuel tag _ v _ h
  have hl := congrArg List.length hC
  simp only [List.length_append, List.length_cons, List.length_nil] at hl
  have : E.length = 0 := by omega
  exact List.eq_nil_of_length_eq_zero this

theorem dbl_nul : _read_double ['\x00'] = .error .failedReadReal := by
  with_unfolding_all rfl

/-- The strict parser functions fail on the bare terminating NUL. -/
theorem builtin_nul (lk : String → Option ℚ) :
    ∀ fuel x, parseFn lk fuel .builtin ['\x00'] = .ok x → False := by
  intro fuel x h
  cases fuel with
  | zero => exact Except.noConfusion h
  | succ f =>
    simp only [parseFn] at h
    rw [if_neg (by decide : ¬ identStart '\x00' = true)] at h
    rw [dbl_nul] at h
    exact Except.noConfusion h

theorem paren_nul (lk : String → Option ℚ) :
    ∀ fuel x, parseFn lk fuel .paren ['\x00'] = .ok x → False := by
  intro fuel x h
  cases fuel with
  | zero => exact Except.noConfusion h
  | succ f =>
    simp only [parseFn] at h
    rw [if_neg (by decide : ¬ ('\x00' : Char) = '(')] at h
    exact builtin_nul lk f x h

theorem unary_nul (lk : String → Option ℚ) :
    ∀ fuel x, parseFn lk fuel .unary ['\x00'] = .ok x → False := by
  intro fuel x h
  cases fuel with
  | zero => exact Except.noConfusion h
  | succ f =>
    simp only [parseFn] at h
    rw [if_neg (by decide : ¬ ('\x00' : Char) = '!'),
        if_neg (by decide : ¬ ('\x00' : Char) = '-'),
        if_neg (by decide : ¬ ('\x00' : Char) = '+')] at h
    exact paren_nul lk f x h

theorem power_nul (lk : String → Option ℚ) :
    ∀ fuel x, parseFn lk fuel .power ['\x00'] = .ok x → False := by
  intro fuel x h
  cases fuel with
  | zero => exact Except.noConfusion h
  | succ f =>
    simp only [parseFn] at h
    cases hu : parseFn lk f .unary ['\x00'] with
    | error e => rw [hu] at h; exact Except.noConfusion h
    | ok y => exact unary_nul lk f y hu

theorem term_nul (lk : String → Option ℚ) :
    ∀ fuel x, parseFn lk fuel .term ['\x00'] = .ok x → False := by
  intro fuel x h
  cases fuel with
  | zero => exact Except.noConfusion h
  | succ f =>
    simp only [parseFn] at h
    cases hu : parseFn lk f .power ['\x00'] with
    | error e => rw [hu] at h; exact Except.noConfusion h
    | ok y => exact power_nul lk f y hu

theorem expr_nul (lk : String → Option ℚ) :
    ∀ fuel x, parseFn lk fuel .expr ['\x00'] = .ok x → False := by
  intro fuel x h
  cases fuel with
  | zero => exact Except.noConfusion h
  | succ f =>
    simp only [parseFn] at h
    rw [if_neg (by decide : ¬ ('\x00' : Char) = '+'),
        if_neg (by decide : ¬ ('\x00' : Char) = '-')] at h
    cases hu : parseFn lk f .term ['\x00'] with
    | error e => rw [hu] at h; exact Except.noConfusion h
    | ok y => exact term_nul lk f y hu

theorem arg_nul (lk : String → Option ℚ) :
    ∀ fuel x, parseFn lk fuel .arg ['\x00'] = .ok x → False := by
  intro fuel x h
  cases fuel with
  | zero => exact Except.noConfusion h
  | succ f =>
    simp only [parseFn] at h
    cases hu : parseFn lk f .expr ['\x00'] with
    | error e => rw [hu] at h; exact Except.noConfusion h
    | ok y => exact expr_nul lk f y hu

/-- The additive-level readers fail on a leading `!` (C `_read_unary`
raises "Parse error: unexpected character"). -/
theorem unary_bang (lk : String → Option ℚ) :
    ∀ fuel t x, parseFn lk fuel .unary ('!' :: t) = .ok x → False := by
  intro fuel t x h
  cases fuel with
  | zero => exact Except.noConfusion h
  | succ f =>
    have he : parseFn lk (f + 1) .unary ('!' :: t) = .error .unaryBang := by
      with_unfolding_all rfl
    rw [he] at h
    exact Except.noConfusion h

theorem power_bang (lk : String → Option ℚ) :
    ∀ fuel t x, parseFn lk fuel .power ('!' :: t) = .ok x → False := by
  intro fuel t x h
  cases fuel with
  | zero => exact Except.noConfusion h
  | succ f =>
    simp only [parseFn] at h
    cases hu : parseFn lk f .unary ('!' :: t) with
    | error e => rw [hu] at h; exact Except.noConfusion h
    | ok y => exact unary_bang lk f t y hu

theorem term_bang (lk : String → Option ℚ) :
    ∀ fuel t x, parseFn lk fuel .term ('!' :: t) = .ok x → False := by
  intro fuel t x h
  cases fuel with
  | zero => exact Except.noConfusion h
  | succ f =>
    simp only [parseFn] at h
    cases hu : parseFn lk f .power ('!' :: t) with
    | error e => rw [hu] at h; exact Except.noConfusion h
    | ok y => exact power_bang lk f t y hu

theorem expr_bang (lk : String → Option ℚ) :
    ∀ fuel t x, parseFn lk fuel .expr ('!' :: t) = .ok x → False := by
  intro fuel t x h
  cases fuel with
  | zero => exact Except.noConfusion h
  | succ f =>
    simp only [parseFn] at h
    rw [if_neg (by decide : ¬ ('!' : Char) = '+'),
        if_neg (by decide : ¬ ('!' : Char) = '-')] at h
    cases hu : parseFn lk f .term ('!' :: t) with
    | error e => rw [hu] at h; exact Except.noConfusion h
    | ok y => exact term_bang lk f t y hu

theorem arg_bang (lk : String → Option ℚ) :
    ∀ fuel t x, parseFn lk fuel .arg ('!' :: t) = .ok x → False := by
  intro fuel t x h
  cases fuel with
  | zero => exact Except.noConfusion h
  | succ f =>
    simp only [parseFn] at h
    cases hu : parseFn lk f .expr ('!' :: t) with
    | error e => rw [hu] at h; exact Except.noConfusion h
    | ok y => exact expr_bang lk f t y hu

/-! Extraction and construction lemmas for `boundOK`. -/

theorem boundOK_primary {tag : PF} {c : Char} (h : boundOK tag c = true) :
    primaryStop c = false := by
  simp only [boundOK, Bool.and_eq_true, Bool.not_eq_true'] at h
  exact h.1

theorem boundOK_ne {tag : PF} {c x : Char} (h : boundOK tag c = true)
    (hx : x ∈ pfExtra tag) : ¬ c = x := by
  simp only [boundOK, Bool.and_eq_true, Bool.not_eq_true'] at h
  intro he
  subst he
  have hm : (pfExtra tag).contains c = true := List.elem_iff.mpr hx
  rw [h.2] at hm
  exact Bool.noConfusion hm

theorem boundOK_intro {tag : PF} {c : Char} (h1 : primaryStop c = false)
    (h2 : ∀ x ∈ pfExtra tag, ¬ c = x) : boundOK tag c = true := by
  simp only [boundOK, Bool.and_eq_true, Bool.not_eq_true']
  refine ⟨h1, ?_⟩
  cases hc : (pfExtra tag).contains c
  · rfl
  · exact absurd rfl (h2 c (List.elem_iff.mp hc))

theorem boundOK_mono {t1 t2 : PF} {c : Char}
    (hsub : ∀ x ∈ pfExtra t1, x ∈ pfExtra t2)
    (h : boundOK t2 c = true) : boundOK t1 c = true :=
  boundOK_intro (boundOK_primary h) (fun x hx => boundOK_ne h (hsub x hx))

theorem primary_false_ne {c x : Char} (h : primaryStop c = false)
    (hx : primaryStop x = true) : ¬ c = x := by
  intro he
  rw [he, hx] at h
  exact Bool.noConfusion h

theorem identChar_false_of_primary {c : Char} (h : primaryStop c = false) :
    identChar c = false := by
  simp only [primaryStop, Bool.or_eq_false_iff] at h
  simp only [identChar, Bool.or_eq_false_iff]
  exact ⟨⟨⟨h.1.1.1.1.1.1.1, h.1.1.1.1.1.1.2⟩, h.1.1.1.1.1.2⟩, h.1.1.1.1.2⟩

theorem dblBound_of_primary {c : Char} (h : primaryStop c = false) :
    dblBound c = true := by
  simp only [primaryStop, Bool.or_eq_false_iff] at h
  simp only [dblBound, Bool.not_eq_true', Bool.or_eq_false_iff]
  exact ⟨⟨⟨h.1.1.1.1.1.1.2, h.1.1.1.2⟩, h.1.1.2⟩, h.1.2⟩

/-! The loop functions stop (returning value and input unchanged) on any
head character other than their operators, and consume on the operator. -/

theorem exprLoop_stop (lk : String → Option ℚ) {fuel : ℕ} {w : ℚ} {c : Char}
    {t : List Char} {v : ℚ} {m : List Char}
    (h : parseFn lk fuel (.exprLoop w) (c :: t) = .ok (v, m))
    (h1 : ¬ c = '+') (h2 : ¬ c = '-') : v = w ∧ m = c :: t := by
  cases fuel with
  | zero => exact Except.noConfusion h
  | succ f =>
    simp only [parseFn, if_neg h1, if_neg h2, Except.ok.injEq,
      Prod.mk.injEq] at h
    exact ⟨h.1.symm, h.2.symm⟩

theorem termLoop_stop (lk : String → Option ℚ) {fuel : ℕ} {w : ℚ} {c : Char}
    {t : List Char} {v : ℚ} {m : List Char}
    (h : parseFn lk fuel (.termLoop w) (c :: t) = .ok (v, m))
    (h1 : ¬ c = '*') (h2 : ¬ c = '/') : v = w ∧ m = c :: t := by
  cases fuel with
  | zero => exact Except.noConfusion h
  | succ f =>
    simp only [parseFn, if_neg h1, if_neg h2, Except.ok.injEq,
      Prod.mk.injEq] at h
    exact ⟨h.1.symm, h.2.symm⟩

theorem powerLoop_stop (lk : String → Option ℚ) {fuel : ℕ} {w s : ℚ} {c : Char}
    {t : List Char} {v : ℚ} {m : List Char}
    (h : parseFn lk fuel (.powerLoop w s) (c :: t) = .ok (v, m))
    (h1 : ¬ c = '^') : v = w ∧ m = c :: t := by
  cases fuel with
  | zero => exact Except.noConfusion h
  | succ f =>
    simp only [parseFn, if_neg h1, Except.ok.injEq, Prod.mk.injEq] at h
    exact ⟨h.1.symm, h.2.symm⟩

theorem bAndLoop_stop (lk : String → Option ℚ) {fuel : ℕ} {w : ℚ} {c : Char}
    {t : List Char} {v : ℚ} {m : List Char}
    (h : parseFn lk fuel (.bAndLoop w) (c :: t) = .ok (v, m))
    (h1 : ¬ c = '&') : v = w ∧ m = c :: t := by
  cases fuel with
  | zero => exact Except.noConfusion h
  | succ f =>
    simp only [parseFn, if_neg h1, Except.ok.injEq, Prod.mk.injEq] at h
    exact ⟨h.1.symm, h.2.symm⟩

theorem bOrLoop_stop (lk : String → Option ℚ) {fuel : ℕ} {w : ℚ} {c : Char}
    {t : List Char} {v : ℚ} {m : List Char}
    (h : parseFn lk fuel (.bOrLoop w) (c :: t) = .ok (v, m))
    (h1 : ¬ c = '|') : v = w ∧ m = c :: t := by
  cases fuel with
  | zero => exact Except.noConfusion h
  | succ f =>
    simp only [parseFn, if_neg h1, Except.ok.injEq, Prod.mk.injEq] at h
    exact ⟨h.1.symm, h.2.symm⟩

theorem exprLoop_id (lk : String → Option ℚ) (fuel : ℕ) (w : ℚ) {c : Char}
    (t : List Char) (h1 : ¬ c = '+') (h2 : ¬ c = '-') :
    parseFn lk (fuel + 1) (.exprLoop w) (c :: t) = .ok (w, c :: t) := by
  simp only [parseFn, if_neg h1, if_neg h2]

theorem termLoop_id (lk : String → Option ℚ) (fuel : ℕ) (w : ℚ) {c : Char}
    (t : List Char) (h1 : ¬ c = '*') (h2 : ¬ c = '/') :
    parseFn lk (fuel + 1) (.termLoop w) (c :: t) = .ok (w, c :: t) := by
  simp only [parseFn, if_neg h1, if_neg h2]

theorem powerLoop_id (lk : String → Option ℚ) (fuel : ℕ) (w s : ℚ) {c : Char}
    (t : List Char) (h1 : ¬ c = '^') :
    parseFn lk (fuel + 1) (.powerLoop w s) (c :: t) = .ok (w, c :: t) := by
  simp only [parseFn, if_neg h1]

theorem bAndLoop_id (lk : String → Option ℚ) (fuel : ℕ) (w : ℚ) {c : Char}
    (t : List Char) (h1 : ¬ c = '&') :
    parseFn lk (fuel + 1) (.bAndLoop w) (c :: t) = .ok (w, c :: t) := by
  simp only [parseFn, if_neg h1]

theorem bOrLoop_id (lk : String → Option ℚ) (fuel : ℕ) (w : ℚ) {c : Char}
    (t : List Char) (h1 : ¬ c = '|') :
    parseFn lk (fuel + 1) (.bOrLoop w) (c :: t) = .ok (w, c :: t) := by
  simp only [parseFn, if_neg h1]

/-! Replacing the unread tail after a scanning run. -/

theorem spanDigits_ext {D E ds : List Char} {c2 : Char} {t2 : List Char}
    (h : spanDigits (D ++ ['\x00']) = .ok (ds, E ++ ['\x00']))
    (hc2 : E = [] → c2.isDigit = false) :
    spanDigits (D ++ c2 :: t2) = .ok (ds, E ++ c2 :: t2) := by
  obtain ⟨heq, hds, c, t, hr, hcd⟩ := spanDigits_spec _ _ _ h
  have hD : D = ds ++ E := append_nul_inj (by rw [heq, List.append_assoc])
  subst hD
  cases E with
  | nil =>
    have := spanDigits_append hds (@spanDigits_nil c2 t2 (hc2 rfl))
    simpa using this
  | cons e E2 =>
    have hce : e = c := by
      simp only [List.cons_append] at hr
      exact (List.cons.inj hr).1
    have := spanDigits_append hds
      (@spanDigits_nil e (E2 ++ c2 :: t2) (hce ▸ hcd))
    simpa using this

theorem scanIdent_ext {D E ds : List Char} {c2 : Char} {t2 : List Char}
    (h : scanIdent (D ++ ['\x00']) = .ok (ds, E ++ ['\x00']))
    (hc2 : E = [] → identChar c2 = false) :
    scanIdent (D ++ c2 :: t2) = .ok (ds, E ++ c2 :: t2) := by
  obtain ⟨heq, hds, c, t, hr, hcd⟩ := scanIdent_spec _ _ _ h
  have hD : D = ds ++ E := append_nul_inj (by rw [heq, List.append_assoc])
  subst hD
  cases E with
  | nil =>
    have := scanIdent_append hds (@scanIdent_nil c2 t2 (hc2 rfl))
    simpa using this
  | cons e E2 =>
    have hce : e = c := by
      simp only [List.cons_append] at hr
      exact (List.cons.inj hr).1
    have := scanIdent_append hds
      (@scanIdent_nil e (E2 ++ c2 :: t2) (hce ▸ hcd))
    simpa using this

theorem dblBound_elim {c : Char} (h : dblBound c = true) :
    c.isDigit = false ∧ ¬ c = '.' ∧ ¬ c = 'e' ∧ ¬ c = 'E' := by
  simp only [dblBound, Bool.not_eq_true', Bool.or_eq_false_iff] at h
  exact ⟨h.1.1.1, decide_eq_false_iff_not.mp h.1.1.2,
    decide_eq_false_iff_not.mp h.1.2, decide_eq_false_iff_not.mp h.2⟩


/-- Replacing the unread tail after a successful `_read_double` run: a run
on `D` followed by the terminating NUL that leaves `E` (and the NUL) unread
also runs on `D` followed by any other tail, provided the first new
character cannot extend the number token when the run stopped exactly at
the boundary. -/
theorem _read_double_ext {D E : List Char} {v : ℚ} {y : Char} {ys : List Char}
    (hb : E = [] → dblBound y = true)
    (h : _read_double (D ++ ['\x00']) = .ok (v, E ++ ['\x00'])) :
    _read_double (D ++ y :: ys) = .ok (v, E ++ y :: ys) := by
  cases D with
  | nil =>
    rw [List.nil_append] at h
    rw [dbl_nul] at h
    exact Except.noConfusion h
  | cons c0 D0 =>
    simp only [List.cons_append] at h ⊢
    simp only [_read_double] at h ⊢
    obtain ⟨X, hXo, hXn⟩ : ∃ X,
        (if c0 = '+' ∨ c0 = '-' then D0 ++ ['\x00'] else c0 :: (D0 ++ ['\x00']))
          = X ++ ['\x00'] ∧
        (if c0 = '+' ∨ c0 = '-' then D0 ++ y :: ys else c0 :: (D0 ++ y :: ys))
          = X ++ y :: ys := by
      by_cases hsgn : c0 = '+' ∨ c0 = '-'
      · exact ⟨D0, by rw [if_pos hsgn], by rw [if_pos hsgn]⟩
      · exact ⟨c0 :: D0, by rw [if_neg hsgn, List.cons_append],
          by rw [if_neg hsgn, List.cons_append]⟩
    rw [hXo] at h
    rw [hXn]
    cases hs1 : spanDigits (X ++ ['\x00']) with
    | error e => rw [hs1] at h; exact Except.noConfusion h
    | ok p1 =>
      obtain ⟨d1, l2⟩ := p1
      simp only [hs1] at h
      obtain ⟨he1, hd1, hstop1⟩ := spanDigits_spec _ _ _ hs1
      have nd1 : '\x00' ∉ d1 := fun hx => nul_not_digit (hd1 _ hx) rfl
      obtain ⟨E1, hE1, hX1⟩ := suffix_nul he1 nd1
      subst hE1
      cases E1 with
      | nil =>
        simp only [List.nil_append] at h
        simp only [if_neg (by decide : ¬ ('\x00' : Char) = '.'),
          @spanDigits_nil '\x00' [] (by decide),
          if_neg (by decide :
            ¬ (('\x00' : Char) = 'e' ∨ ('\x00' : Char) = 'E')),
          List.append_nil] at h
        by_cases hval : d1 = []
        · rw [if_pos hval] at h; exact Except.noConfusion h
        · rw [if_neg hval] at h
          simp only [Except.ok.injEq, Prod.mk.injEq] at h
          obtain ⟨hv, hr⟩ := h
          have hE : E = [] := append_nul_nil hr.symm
          subst hE
          obtain ⟨hy1, hy2, hy3, hy4⟩ := dblBound_elim (hb rfl)
          have hns1 : spanDigits (X ++ y :: ys) = .ok (d1, y :: ys) := by
            have := @spanDigits_ext X [] d1 y ys hs1 (fun _ => hy1)
            simpa using this
          simp only [hns1, if_neg hy2, @spanDigits_nil y ys hy1,
            if_neg (fun hor => Or.elim hor hy3 hy4),
            List.append_nil, List.nil_append]
          rw [if_neg hval, hv]
      | cons e1 E1' =>
        obtain ⟨c2p, t2p, heq, hnd0⟩ := hstop1
        simp only [List.cons_append] at heq
        obtain ⟨hc2e, ht2⟩ := List.cons.inj heq
        subst hc2e
        simp only [List.cons_append] at h
        have hns1 : spanDigits (X ++ y :: ys) =
            .ok (d1, (e1 :: E1') ++ y :: ys) :=
          @spanDigits_ext X (e1 :: E1') d1 y ys hs1
            (fun h0 => absurd h0 (by simp))
        simp only [hns1, List.cons_append]
        by_cases hdot : e1 = '.'
        · simp only [if_pos hdot] at h ⊢
          cases hs2 : spanDigits (E1' ++ ['\x00']) with
          | error e => rw [hs2] at h; exact Except.noConfusion h
          | ok p2 =>
            obtain ⟨d2', l4⟩ := p2
            simp only [hs2] at h
            obtain ⟨he2, hd2, hstop2⟩ := spanDigits_spec _ _ _ hs2
            have nd2 : '\x00' ∉ d2' := fun hx => nul_not_digit (hd2 _ hx) rfl
            obtain ⟨E2, hE2, hX2⟩ := suffix_nul he2 nd2
            subst hE2
            cases E2 with
            | nil =>
              simp only [List.nil_append] at h
              simp only [if_neg (by decide :
                ¬ (('\x00' : Char) = 'e' ∨ ('\x00' : Char) = 'E'))] at h
              by_cases hval : d1 ++ d2' = []
              · rw [if_pos hval] at h; exact Except.noConfusion h
              · rw [if_neg hval] at h
                simp only [Except.ok.injEq, Prod.mk.injEq] at h
                obtain ⟨hv, hr⟩ := h
                have hE : E = [] := append_nul_nil hr.symm
                subst hE
                obtain ⟨hy1, hy2, hy3, hy4⟩ := dblBound_elim (hb rfl)
                have hns2 : spanDigits (E1' ++ y :: ys) =
                    .ok (d2', y :: ys) := by
                  have := @spanDigits_ext E1' [] d2' y ys hs2 (fun _ => hy1)
                  simpa using this
                simp only [hns2, if_neg (fun hor => Or.elim hor hy3 hy4),
                  List.nil_append]
                rw [if_neg hval, hv]
            | cons e4 E2' =>
              obtain ⟨c4p, t4p, heq2, hnd2⟩ := hstop2
              simp only [List.cons_append] at heq2
              obtain ⟨hc4e, ht4⟩ := List.cons.inj heq2
              subst hc4e
              simp only [List.cons_append] at h
              have hns2 : spanDigits (E1' ++ y :: ys) =
                  .ok (d2', (e4 :: E2') ++ y :: ys) :=
                @spanDigits_ext E1' (e4 :: E2') d2' y ys hs2
                  (fun h0 => absurd h0 (by simp))
              simp only [hns2, List.cons_append]
              by_cases hee : e4 = 'e' ∨ e4 = 'E'
              · rw [if_pos hee] at h
                rw [if_pos hee]
                cases E2' with
                | nil =>
                  simp only [List.nil_append] at h
                  simp only [if_neg (by decide :
                      ¬ (('\x00' : Char) = '+' ∨ ('\x00' : Char) = '-')),
                    @spanDigits_nil '\x00' [] (by decide)] at h
                  rw [if_pos (Or.inr trivial)] at h
                  exact Except.noConfusion h
                | cons c5 E2'' =>
                  simp only [List.cons_append] at h ⊢
                  obtain ⟨Y, hYo, hYn⟩ : ∃ Y,
                      (if c5 = '+' ∨ c5 = '-' then E2'' ++ ['\x00']
                        else c5 :: (E2'' ++ ['\x00'])) = Y ++ ['\x00'] ∧
                      (if c5 = '+' ∨ c5 = '-' then E2'' ++ y :: ys
                        else c5 :: (E2'' ++ y :: ys)) = Y ++ y :: ys := by
                    by_cases hsgn5 : c5 = '+' ∨ c5 = '-'
                    · exact ⟨E2'', by rw [if_pos hsgn5], by rw [if_pos hsgn5]⟩
                    · exact ⟨c5 :: E2'',
                        by rw [if_neg hsgn5, List.cons_append],
                        by rw [if_neg hsgn5, List.cons_append]⟩
                  rw [hYo] at h
                  rw [hYn]
                  cases hs3 : spanDigits (Y ++ ['\x00']) with
                  | error e => rw [hs3] at h; exact Except.noConfusion h
                  | ok p3 =>
                    obtain ⟨d3, l6⟩ := p3
                    simp only [hs3] at h
                    obtain ⟨he3, hd3, -⟩ := spanDigits_spec _ _ _ hs3
                    have nd3 : '\x00' ∉ d3 :=
                      fun hx => nul_not_digit (hd3 _ hx) rfl
                    obtain ⟨E3, hE3, hX3⟩ := suffix_nul he3 nd3
                    subst hE3
                    by_cases hval : d1 ++ d2' = [] ∨ d3 = []
                    · rw [if_pos hval] at h; exact Except.noConfusion h
                    · rw [if_neg hval] at h
                      simp only [Except.ok.injEq, Prod.mk.injEq] at h
                      obtain ⟨hv, hr⟩ := h
                      have hE : E3 = E := append_nul_inj hr
                      have hns3 : spanDigits (Y ++ y :: ys) =
                          .ok (d3, E3 ++ y :: ys) :=
                        spanDigits_ext hs3
                          (fun h0 => (dblBound_elim (hb (hE ▸ h0))).1)
                      simp only [hns3]
                      rw [if_neg hval, hv, hE]
              · rw [if_neg hee] at h
                rw [if_neg hee]
                by_cases hval : d1 ++ d2' = []
                · rw [if_pos hval] at h; exact Except.noConfusion h
                · rw [if_neg hval] at h
                  simp only [Except.ok.injEq, Prod.mk.injEq] at h
                  obtain ⟨hv, hr⟩ := h
                  have hE : e4 :: E2' = E :=
                    append_nul_inj (by simpa using hr)
                  subst hE
                  rw [if_neg hval, hv]
                  simp [List.cons_append]
        · simp only [if_neg hdot] at h ⊢
          simp only [@spanDigits_nil e1 (E1' ++ ['\x00']) hnd0,
            List.append_nil] at h
          simp only [@spanDigits_nil e1 (E1' ++ y :: ys) hnd0,
            List.append_nil]
          by_cases hee : e1 = 'e' ∨ e1 = 'E'
          · rw [if_pos hee] at h
            rw [if_pos hee]
            cases E1' with
            | nil =>
              simp only [List.nil_append] at h
              simp only [if_neg (by decide :
                  ¬ (('\x00' : Char) = '+' ∨ ('\x00' : Char) = '-')),
                @spanDigits_nil '\x00' [] (by decide)] at h
              rw [if_pos (Or.inr trivial)] at h
              exact Except.noConfusion h
            | cons c5 E1'' =>
              simp only [List.cons_append] at h ⊢
              obtain ⟨Y, hYo, hYn⟩ : ∃ Y,
                  (if c5 = '+' ∨ c5 = '-' then E1'' ++ ['\x00']
                    else c5 :: (E1'' ++ ['\x00'])) = Y ++ ['\x00'] ∧
                  (if c5 = '+' ∨ c5 = '-' then E1'' ++ y :: ys
                    else c5 :: (E1'' ++ y :: ys)) = Y ++ y :: ys := by
                by_cases hsgn5 : c5 = '+' ∨ c5 = '-'
                · exact ⟨E1'', by rw [if_pos hsgn5], by rw [if_pos hsgn5]⟩
                · exact ⟨c5 :: E1'',
                    by rw [if_neg hsgn5, List.cons_append],
                    by rw [if_neg hsgn5, List.cons_append]⟩
              rw [hYo] at h
              rw [hYn]
              cases hs3 : spanDigits (Y ++ ['\x00']) with
              | error e => rw [hs3] at h; exact Except.noConfusion h
              | ok p3 =>
                obtain ⟨d3, l6⟩ := p3
                simp only [hs3] at h
                obtain ⟨he3, hd3, -⟩ := spanDigits_spec _ _ _ hs3
                have nd3 : '\x00' ∉ d3 :=
                  fun hx => nul_not_digit (hd3 _ hx) rfl
                obtain ⟨E3, hE3, hX3⟩ := suffix_nul he3 nd3
                subst hE3
                by_cases hval : d1 = [] ∨ d3 = []
                · rw [if_pos hval] at h; exact Except.noConfusion h
                · rw [if_neg hval] at h
                  simp only [Except.ok.injEq, Prod.mk.injEq] at h
                  obtain ⟨hv, hr⟩ := h
                  have hE : E3 = E := append_nul_inj hr
                  have hns3 : spanDigits (Y ++ y :: ys) =
                      .ok (d3, E3 ++ y :: ys) :=
                    spanDigits_ext hs3
                      (fun h0 => (dblBound_elim (hb (hE ▸ h0))).1)
                  simp only [hns3]
                  rw [if_neg hval, hv, hE]
          · rw [if_neg hee] at h
            rw [if_neg hee]
            by_cases hval : d1 = []
            · rw [if_pos hval] at h; exact Except.noConfusion h
            · rw [if_neg hval] at h
              simp only [Except.ok.injEq, Prod.mk.injEq] at h
              obtain ⟨hv, hr⟩ := h
              have hE : e1 :: E1' = E := append_nul_inj (by simpa using hr)
              subst hE
              rw [if_neg hval, hv]
              simp [List.cons_append]

/-- Sequencing step of the tail-replacement argument: a call followed by a
continuation call on its remainder. -/
theorem ext_seq (lk : String → Option ℚ) (z : Char) (zs : List Char)
    (fuel : ℕ) (tag1 : PF) (mk : ℚ → PF) (X E : List Char) (v : ℚ)
    (IH : ∀ tag D E v,
      parseFn lk fuel tag (D ++ ['\x00']) = .ok (v, E ++ ['\x00']) →
      (E = [] → boundOK tag z = true) → (E = ['!'] → ¬ z = '=') →
      parseFn lk fuel tag (D ++ z :: zs) = .ok (v, E ++ z :: zs))
    (h : pbind (parseFn lk fuel tag1 (X ++ ['\x00']))
      (fun w m => parseFn lk fuel (mk w) m) = .ok (v, E ++ ['\x00']))
    (hb1 : E = [] → boundOK tag1 z = true)
    (hb2 : ∀ w, E = [] → boundOK (mk w) z = true)
    (hbang : E = ['!'] → ¬ z = '=')
    (hstop : ∀ w v2 E2,
      parseFn lk fuel (mk w) ('!' :: ['\x00']) = .ok (v2, E2 ++ ['\x00']) →
      E2 = ['!']) :
    pbind (parseFn lk fuel tag1 (X ++ z :: zs))
      (fun w m => parseFn lk fuel (mk w) m) = .ok (v, E ++ z :: zs) := by
  cases h1 : parseFn lk fuel tag1 (X ++ ['\x00']) with
  | error e => rw [h1] at h; exact Except.noConfusion h
  | ok p =>
    obtain ⟨w, m⟩ := p
    rw [h1] at h
    simp only [pbind_ok] at h
    obtain ⟨C1, hC1, hn1⟩ := parseFn_consumed lk fuel tag1 _ w m h1
    obtain ⟨E1, hE1, hX⟩ := suffix_nul hC1 hn1
    subst hE1
    have ih2 := IH (mk w) E1 E v h (hb2 w) hbang
    have hbb1 : E1 = [] → boundOK tag1 z = true := by
      intro h0
      subst h0
      have hE0 : E = [] := run_nul_E (by simpa using h)
      exact hb1 hE0
    have hbg1 : E1 = ['!'] → ¬ z = '=' := by
      intro h0
      subst h0
      have hEb : E = ['!'] := hstop w v E (by simpa using h)
      exact hbang hEb
    have ih1 := IH tag1 X E1 w h1 hbb1 hbg1
    rw [ih1]
    simp only [pbind_ok]
    exact ih2

/-- Master tail-replacement ("extension") lemma of the expression parser: a
successful run that consumed `D` and stopped with `E` plus the terminating
NUL unread behaves identically when the NUL is replaced by an arbitrary tail
`z :: zs`, provided `z` is a character the parser would not have reacted to
at its stopping position (`boundOK`), and — for the single two-character
lookahead `!=` surviving a stop — `z` is not `=` when the unread part is
exactly `!`. -/
theorem parseFn_ext (lk : String → Option ℚ) (z : Char) (zs : List Char) :
    ∀ fuel tag D E v,
      parseFn lk fuel tag (D ++ ['\x00']) = .ok (v, E ++ ['\x00']) →
      (E = [] → boundOK tag z = true) →
      (E = ['!'] → ¬ z = '=') →
      parseFn lk fuel tag (D ++ z :: zs) = .ok (v, E ++ z :: zs) := by
  intro fuel
  induction fuel with
  | zero => intro tag D E v h _ _; exact Except.noConfusion h
  | succ f ih =>
    intro tag D E v h hE hBg
    cases tag with
    | expr =>
      cases D with
      | nil => exact ((expr_nul lk (f + 1) _ (by simpa using h)).elim)
      | cons d D =>
        simp only [List.cons_append] at h ⊢
        simp only [parseFn] at h ⊢
        by_cases hc : d = '+'
        · simp only [if_pos hc] at h ⊢
          exact ext_seq lk z zs f .term (fun w => .exprLoop (0 + w)) D E v ih h
            (fun h0 => boundOK_mono (by decide) (hE h0))
            (fun w h0 => hE h0)
            hBg
            (fun w v2 E2 hh =>
              append_nul_bang (exprLoop_stop lk hh (by decide) (by decide)).2)
        · simp only [if_neg hc] at h ⊢
          by_cases hc2 : d = '-'
          · simp only [if_pos hc2] at h ⊢
            exact ext_seq lk z zs f .term (fun w => .exprLoop (0 - w)) D E v ih h
              (fun h0 => boundOK_mono (by decide) (hE h0))
              (fun w h0 => hE h0)
              hBg
              (fun w v2 E2 hh =>
                append_nul_bang (exprLoop_stop lk hh (by decide) (by decide)).2)
          · simp only [if_neg hc2] at h ⊢
            exact ext_seq lk z zs f .term (fun w => .exprLoop w) (d :: D) E v ih h
              (fun h0 => boundOK_mono (by decide) (hE h0))
              (fun w h0 => hE h0)
              hBg
              (fun w v2 E2 hh =>
                append_nul_bang (exprLoop_stop lk hh (by decide) (by decide)).2)
    | exprLoop v0 =>
      cases D with
      | nil =>
        simp only [List.nil_append] at h
        obtain ⟨hv, hm⟩ := exprLoop_stop lk h (by decide) (by decide)
        have hE0 : E = [] := append_nul_nil hm
        subst hE0
        simp only [List.nil_append]
        rw [hv]
        have hb0 : boundOK PF.expr z = true := hE rfl
        exact exprLoop_id lk f v0 zs (boundOK_ne hb0 (by decide))
          (boundOK_ne hb0 (by decide))
      | cons d D =>
        simp only [List.cons_append] at h ⊢
        simp only [parseFn] at h ⊢
        by_cases hc : d = '+'
        · simp only [if_pos hc] at h ⊢
          exact ext_seq lk z zs f .term (fun w => .exprLoop (v0 + w)) D E v ih h
            (fun h0 => boundOK_mono (by decide)
              (show boundOK PF.expr z = true from hE h0))
            (fun w h0 => hE h0)
            hBg
            (fun w v2 E2 hh =>
              append_nul_bang (exprLoop_stop lk hh (by decide) (by decide)).2)
        · simp only [if_neg hc] at h ⊢
          by_cases hc2 : d = '-'
          · simp only [if_pos hc2] at h ⊢
            exact ext_seq lk z zs f .term (fun w => .exprLoop (v0 - w)) D E v ih h
              (fun h0 => boundOK_mono (by decide)
              (show boundOK PF.expr z = true from hE h0))
              (fun w h0 => hE h0)
              hBg
              (fun w v2 E2 hh =>
                append_nul_bang (exprLoop_stop lk hh (by decide) (by decide)).2)
          · simp only [if_neg hc2] at h ⊢
            simp only [Except.ok.injEq, Prod.mk.injEq] at h
            obtain ⟨hv, hm⟩ := h
            have hEd : E = d :: D := @append_nul_inj E (d :: D) hm.symm
            rw [hv, hEd]
            simp only [List.cons_append]
    | term =>
      simp only [parseFn] at h ⊢
      exact ext_seq lk z zs f .power (fun w => .termLoop w) D E v ih h
        (fun h0 => boundOK_mono (by decide) (hE h0))
        (fun w h0 => hE h0)
        hBg
        (fun w v2 E2 hh =>
          append_nul_bang (termLoop_stop lk hh (by decide) (by decide)).2)
    | termLoop v0 =>
      cases D with
      | nil =>
        simp only [List.nil_append] at h
        obtain ⟨hv, hm⟩ := termLoop_stop lk h (by decide) (by decide)
        have hE0 : E = [] := append_nul_nil hm
        subst hE0
        simp only [List.nil_append]
        rw [hv]
        have hb0 : boundOK PF.term z = true := hE rfl
        exact termLoop_id lk f v0 zs (boundOK_ne hb0 (by decide))
          (boundOK_ne hb0 (by decide))
      | cons d D =>
        simp only [List.cons_append] at h ⊢
        simp only [parseFn] at h ⊢
        by_cases hc : d = '*'
        · simp only [if_pos hc] at h ⊢
          exact ext_seq lk z zs f .power (fun w => .termLoop (v0 * w)) D E v ih h
            (fun h0 => boundOK_mono (by decide)
              (show boundOK PF.term z = true from hE h0))
            (fun w h0 => hE h0)
            hBg
            (fun w v2 E2 hh =>
              append_nul_bang (termLoop_stop lk hh (by decide) (by decide)).2)
        · simp only [if_neg hc] at h ⊢
          by_cases hc2 : d = '/'
          · simp only [if_pos hc2] at h ⊢
            exact ext_seq lk z zs f .power (fun w => .termLoop (v0 / w)) D E v ih h
              (fun h0 => boundOK_mono (by decide)
              (show boundOK PF.term z = true from hE h0))
              (fun w h0 => hE h0)
              hBg
              (fun w v2 E2 hh =>
                append_nul_bang (termLoop_stop lk hh (by decide) (by decide)).2)
          · simp only [if_neg hc2] at h ⊢
            simp only [Except.ok.injEq, Prod.mk.injEq] at h
            obtain ⟨hv, hm⟩ := h
            have hEd : E = d :: D := @append_nul_inj E (d :: D) hm.symm
            rw [hv, hEd]
            simp only [List.cons_append]
    | power =>
      simp only [parseFn] at h ⊢
      exact ext_seq lk z zs f .unary (fun w => .powerLoop w 1) D E v ih h
        (fun h0 => boundOK_mono (by decide) (hE h0))
        (fun w h0 => hE h0)
        hBg
        (fun w v2 E2 hh => append_nul_bang (powerLoop_stop lk hh (by decide)).2)
    | powerLoop v0 s0 =>
      cases D with
      | nil =>
        simp only [List.nil_append] at h
        obtain ⟨hv, hm⟩ := powerLoop_stop lk h (by decide)
        have hE0 : E = [] := append_nul_nil hm
        subst hE0
        simp only [List.nil_append]
        rw [hv]
        have hb0 : boundOK PF.power z = true := hE rfl
        exact powerLoop_id lk f v0 s0 zs (boundOK_ne hb0 (by decide))
      | cons d D =>
        simp only [List.cons_append] at h ⊢
        simp only [parseFn] at h ⊢
        by_cases hc : d = '^'
        · simp only [if_pos hc] at h ⊢
          cases D with
          | nil =>
            simp only [List.nil_append] at h
            rw [if_neg (by decide : ¬ ('\x00' : Char) = '-')] at h
            cases hp : parseFn lk f .power ['\x00'] with
            | error e => rw [hp] at h; exact Except.noConfusion h
            | ok y2 => exact (power_nul lk f y2 hp).elim
          | cons d2 D2 =>
            simp only [List.cons_append] at h ⊢
            by_cases hd2 : d2 = '-'
            · simp only [if_pos hd2] at h ⊢
              exact ext_seq lk z zs f .power
                (fun w => .powerLoop (cpow v0 ((-1) * w)) (-1)) D2 E v ih h
                (fun h0 => boundOK_mono (by decide)
                (show boundOK PF.power z = true from hE h0))
                (fun w h0 => hE h0)
                hBg
                (fun w v2 E2 hh =>
                  append_nul_bang (powerLoop_stop lk hh (by decide)).2)
            · simp only [if_neg hd2] at h ⊢
              exact ext_seq lk z zs f .power
                (fun w => .powerLoop (cpow v0 (s0 * w)) s0) (d2 :: D2) E v ih h
                (fun h0 => boundOK_mono (by decide)
                (show boundOK PF.power z = true from hE h0))
                (fun w h0 => hE h0)
                hBg
                (fun w v2 E2 hh =>
                  append_nul_bang (powerLoop_stop lk hh (by decide)).2)
        · simp only [if_neg hc] at h ⊢
          simp only [Except.ok.injEq, Prod.mk.injEq] at h
          obtain ⟨hv, hm⟩ := h
          have hEd : E = d :: D := @append_nul_inj E (d :: D) hm.symm
          rw [hv, hEd]
          simp only [List.cons_append]
    | unary =>
      cases D with
      | nil => exact ((unary_nul lk (f + 1) _ (by simpa using h)).elim)
      | cons d D =>
        simp only [List.cons_append] at h ⊢
        simp only [parseFn] at h ⊢
        by_cases hc : d = '!'
        · simp only [if_pos hc] at h
          exact Except.noConfusion h
        · simp only [if_neg hc] at h ⊢
          by_cases hc2 : d = '-'
          · simp only [if_pos hc2] at h ⊢
            cases hp : parseFn lk f .paren (D ++ ['\x00']) with
            | error e => rw [hp] at h; exact Except.noConfusion h
            | ok p =>
              obtain ⟨w, m⟩ := p
              rw [hp] at h
              simp only [pbind_ok] at h
              simp only [Except.ok.injEq, Prod.mk.injEq] at h
              obtain ⟨hv, hm⟩ := h
              have ihp := ih .paren D E w (hm ▸ hp) (fun h0 => hE h0) hBg
              rw [ihp]
              simp only [pbind_ok]
              rw [hv]
          · simp only [if_neg hc2] at h ⊢
            by_cases hc3 : d = '+'
            · simp only [if_pos hc3] at h ⊢
              exact ih .paren D E v h (fun h0 => hE h0) hBg
            · simp only [if_neg hc3] at h ⊢
              exact ih .paren (d :: D) E v h (fun h0 => hE h0) hBg
    | paren =>
      cases D with
      | nil => exact ((paren_nul lk (f + 1) _ (by simpa using h)).elim)
      | cons d D =>
        simp only [List.cons_append] at h ⊢
        simp only [parseFn] at h ⊢
        by_cases hc : d = '('
        · simp only [if_pos hc] at h ⊢
          cases hp : parseFn lk f .bOr (D ++ ['\x00']) with
          | error e => rw [hp] at h; exact Except.noConfusion h
          | ok p =>
            obtain ⟨w, m⟩ := p
            rw [hp] at h
            simp only [pbind_ok] at h
            obtain ⟨C1, hC1, hn1⟩ := parseFn_consumed lk f .bOr _ w m hp
            obtain ⟨E1, hE1, hX⟩ := suffix_nul hC1 hn1
            subst hE1
            cases E1 with
            | nil =>
              simp only [List.nil_append] at h
              rw [if_neg (by decide : ¬ ('\x00' : Char) = ')')] at h
              exact Except.noConfusion h
            | cons e E2 =>
              simp only [List.cons_append] at h
              by_cases he : e = ')'
              · rw [if_pos he] at h
                simp only [Except.ok.injEq, Prod.mk.injEq] at h
                obtain ⟨hv, hm⟩ := h
                have hEE : E2 = E := append_nul_inj hm
                have ihb := ih .bOr D (e :: E2) w hp
                  (fun h0 => absurd h0 (by simp))
                  (fun h0 => by rw [he] at h0; simp at h0)
                rw [ihb]
                simp only [pbind_ok, List.cons_append]
                rw [if_pos he, hv, hEE]
              · rw [if_neg he] at h
                exact Except.noConfusion h
        · simp only [if_neg hc] at h ⊢
          exact ih .builtin (d :: D) E v h (fun h0 => hE h0) hBg
    | builtin =>
      cases D with
      | nil => exact ((builtin_nul lk (f + 1) _ (by simpa using h)).elim)
      | cons d D =>
        simp only [List.cons_append] at h ⊢
        simp only [parseFn] at h ⊢
        by_cases hid : identStart d
        · simp only [if_pos hid] at h ⊢
          cases hscan : scanIdent (d :: (D ++ ['\x00'])) with
          | error e => rw [hscan] at h; exact Except.noConfusion h
          | ok p =>
            obtain ⟨tok, m⟩ := p
            simp only [hscan] at h
            obtain ⟨heq, htok, hstopex⟩ := scanIdent_spec _ _ _ hscan
            have hnt : '\x00' ∉ tok :=
              fun hx => nul_not_identChar (htok _ hx) rfl
            have heq2 : (d :: D) ++ ['\x00'] = tok ++ m := by simpa using heq
            obtain ⟨E1, hE1, hX⟩ := suffix_nul heq2 hnt
            subst hE1
            cases E1 with
            | nil =>
              simp only [List.nil_append] at h
              rw [if_neg (by decide : ¬ ('\x00' : Char) = '(')] at h
              cases hlk : lk (String.mk tok) with
              | none => rw [hlk] at h; exact Except.noConfusion h
              | some w =>
                rw [hlk] at h
                simp only [Except.ok.injEq, Prod.mk.injEq] at h
                obtain ⟨hv, hm⟩ := h
                have hE0 : E = [] := append_nul_nil hm.symm
                subst hE0
                have hprim := boundOK_primary (hE rfl)
                have hscan2 : scanIdent (d :: (D ++ z :: zs)) =
                    .ok (tok, z :: zs) := by
                  have := @scanIdent_ext (d :: D) [] tok z zs hscan
                    (fun _ => identChar_false_of_primary hprim)
                  simpa using this
                simp only [hscan2]
                rw [if_neg (primary_false_ne hprim (by decide))]
                rw [hlk]
                rw [hv]
                simp only [List.nil_append]
            | cons e1 E2 =>
              simp only [List.cons_append] at h
              have hscan2 : scanIdent (d :: (D ++ z :: zs)) =
                  .ok (tok, e1 :: (E2 ++ z :: zs)) := by
                have := @scanIdent_ext (d :: D) (e1 :: E2) tok z zs hscan
                  (fun h0 => absurd h0 (by simp))
                simpa using this
              simp only [hscan2]
              by_cases he1 : e1 = '('
              · simp only [if_pos he1] at h ⊢
                by_cases hmin : String.mk tok = "min"
                · simp only [if_pos hmin] at h ⊢
                  cases ha1 : parseFn lk f .arg (E2 ++ ['\x00']) with
                  | error e => rw [ha1] at h; exact Except.noConfusion h
                  | ok p1 =>
                    obtain ⟨a1, m1⟩ := p1
                    rw [ha1] at h
                    simp only [pbind_ok] at h
                    obtain ⟨C2, hC2, hn2⟩ :=
                      parseFn_consumed lk f .arg _ a1 m1 ha1
                    obtain ⟨E3, hE3, hX3⟩ := suffix_nul hC2 hn2
                    subst hE3
                    cases ha2 : parseFn lk f .arg (E3 ++ ['\x00']) with
                    | error e => rw [ha2] at h; exact Except.noConfusion h
                    | ok p2 =>
                      obtain ⟨a2, m2⟩ := p2
                      rw [ha2] at h
                      simp only [pbind_ok] at h
                      obtain ⟨C3, hC3, hn3⟩ :=
                        parseFn_consumed lk f .arg _ a2 m2 ha2
                      obtain ⟨E4, hE4, hX4⟩ := suffix_nul hC3 hn3
                      subst hE4
                      cases E4 with
                      | nil =>
                        simp only [List.nil_append] at h
                        rw [if_neg (by decide : ¬ ('\x00' : Char) = ')')] at h
                        exact Except.noConfusion h
                      | cons e4 E5 =>
                        simp only [List.cons_append] at h
                        by_cases he4 : e4 = ')'
                        · rw [if_pos he4] at h
                          simp only [Except.ok.injEq, Prod.mk.injEq] at h
                          obtain ⟨hv, hm⟩ := h
                          have hE5E : E5 = E := append_nul_inj hm
                          have iha2 := ih .arg E3 (e4 :: E5) a2 ha2
                            (fun h0 => absurd h0 (by simp))
                            (fun h0 => by rw [he4] at h0; simp at h0)
                          have hcondE3 : E3 = [] → boundOK PF.arg z = true := by
                            intro h0
                            subst h0
                            exact ((arg_nul lk f _ (by simpa using ha2)).elim)
                          have hbangE3 : E3 = ['!'] → ¬ z = '=' := by
                            intro h0
                            subst h0
                            exact ((arg_bang lk f _ _ (by simpa using ha2)).elim)
                          have iha1 := ih .arg E2 E3 a1 ha1 hcondE3 hbangE3
                          rw [iha1]
                          simp only [pbind_ok]
                          rw [iha2]
                          simp only [pbind_ok, List.cons_append]
                          rw [if_pos he4, hv, hE5E]
                        · rw [if_neg he4] at h
                          exact Except.noConfusion h
                · simp only [if_neg hmin] at h ⊢
                  by_cases hmax : String.mk tok = "max"
                  · simp only [if_pos hmax] at h ⊢
                    cases ha1 : parseFn lk f .arg (E2 ++ ['\x00']) with
                    | error e => rw [ha1] at h; exact Except.noConfusion h
                    | ok p1 =>
                      obtain ⟨a1, m1⟩ := p1
                      rw [ha1] at h
                      simp only [pbind_ok] at h
                      obtain ⟨C2, hC2, hn2⟩ :=
                        parseFn_consumed lk f .arg _ a1 m1 ha1
                      obtain ⟨E3, hE3, hX3⟩ := suffix_nul hC2 hn2
                      subst hE3
                      cases ha2 : parseFn lk f .arg (E3 ++ ['\x00']) with
                      | error e => rw [ha2] at h; exact Except.noConfusion h
                      | ok p2 =>
                        obtain ⟨a2, m2⟩ := p2
                        rw [ha2] at h
                        simp only [pbind_ok] at h
                        obtain ⟨C3, hC3, hn3⟩ :=
                          parseFn_consumed lk f .arg _ a2 m2 ha2
                        obtain ⟨E4, hE4, hX4⟩ := suffix_nul hC3 hn3
                        subst hE4
                        cases E4 with
                        | nil =>
                          simp only [List.nil_append] at h
                          rw [if_neg (by decide : ¬ ('\x00' : Char) = ')')] at h
                          exact Except.noConfusion h
                        | cons e4 E5 =>
                          simp only [List.cons_append] at h
                          by_cases he4 : e4 = ')'
                          · rw [if_pos he4] at h
                            simp only [Except.ok.injEq, Prod.mk.injEq] at h
                            obtain ⟨hv, hm⟩ := h
                            have hE5E : E5 = E := append_nul_inj hm
                            have iha2 := ih .arg E3 (e4 :: E5) a2 ha2
                              (fun h0 => absurd h0 (by simp))
                              (fun h0 => by rw [he4] at h0; simp at h0)
                            have hcondE3 : E3 = [] → boundOK PF.arg z = true := by
                              intro h0
                              subst h0
                              exact ((arg_nul lk f _ (by simpa using ha2)).elim)
                            have hbangE3 : E3 = ['!'] → ¬ z = '=' := by
                              intro h0
                              subst h0
                              exact ((arg_bang lk f _ _
                                (by simpa using ha2)).elim)
                            have iha1 := ih .arg E2 E3 a1 ha1 hcondE3 hbangE3
                            rw [iha1]
                            simp only [pbind_ok]
                            rw [iha2]
                            simp only [pbind_ok, List.cons_append]
                            rw [if_pos he4, hv, hE5E]
                          · rw [if_neg he4] at h
                            exact Except.noConfusion h
                  · simp only [if_neg hmax] at h
                    exact Except.noConfusion h
              · simp only [if_neg he1] at h ⊢
                cases hlk : lk (String.mk tok) with
                | none => rw [hlk] at h; exact Except.noConfusion h
                | some w =>
                  rw [hlk] at h
                  simp only [Except.ok.injEq, Prod.mk.injEq] at h
                  obtain ⟨hv, hm⟩ := h
                  have hEe : E = e1 :: E2 := @append_nul_inj E (e1 :: E2) hm.symm
                  dsimp only
                  rw [hv, hEe]
                  simp only [List.cons_append]
        · simp only [if_neg hid] at h ⊢
          have h2 : _read_double ((d :: D) ++ ['\x00']) =
              .ok (v, E ++ ['\x00']) := h
          exact _read_double_ext
            (fun h0 => dblBound_of_primary (boundOK_primary (hE h0))) h2
    | arg =>
      simp only [parseFn] at h ⊢
      cases hx : parseFn lk f .expr (D ++ ['\x00']) with
      | error e => rw [hx] at h; exact Except.noConfusion h
      | ok p =>
        obtain ⟨w, m⟩ := p
        rw [hx] at h
        simp only [pbind_ok] at h
        obtain ⟨C1, hC1, hn1⟩ := parseFn_consumed lk f .expr _ w m hx
        obtain ⟨E1, hE1, hX1⟩ := suffix_nul hC1 hn1
        subst hE1
        cases E1 with
        | nil =>
          simp only [List.nil_append] at h
          rw [if_neg (by decide : ¬ ('\x00' : Char) = ',')] at h
          simp only [Except.ok.injEq, Prod.mk.injEq] at h
          obtain ⟨hv, hm⟩ := h
          have hE0 : E = [] := append_nul_nil hm.symm
          subst hE0
          have ihx := ih .expr D [] w hx
            (fun _ => boundOK_mono (by decide) (hE rfl))
            (fun h0 => absurd h0 (by simp))
          rw [ihx]
          simp only [pbind_ok, List.nil_append]
          rw [if_neg (boundOK_ne (hE rfl) (by decide))]
          rw [hv]
        | cons e1 E2 =>
          simp only [List.cons_append] at h
          by_cases he1 : e1 = ','
          · rw [if_pos he1] at h
            simp only [Except.ok.injEq, Prod.mk.injEq] at h
            obtain ⟨hv, hm⟩ := h
            have hEE : E2 = E := append_nul_inj hm
            have ihx := ih .expr D (e1 :: E2) w hx
              (fun h0 => absurd h0 (by simp))
              (fun h0 => by rw [he1] at h0; simp at h0)
            rw [ihx]
            simp only [pbind_ok, List.cons_append]
            rw [if_pos he1, hv, hEE]
          · rw [if_neg he1] at h
            simp only [Except.ok.injEq, Prod.mk.injEq] at h
            obtain ⟨hv, hm⟩ := h
            have hEe : E = e1 :: E2 := @append_nul_inj E (e1 :: E2) hm.symm
            have ihx := ih .expr D (e1 :: E2) w hx
              (fun h0 => absurd h0 (by simp))
              (fun h0 => hBg (hEe.trans h0))
            rw [ihx]
            simp only [pbind_ok, List.cons_append]
            rw [if_neg he1, hv, hEe]
            simp only [List.cons_append]
    | bCmp =>
      simp only [parseFn] at h ⊢
      cases hx : parseFn lk f .expr (D ++ ['\x00']) with
      | error e => rw [hx] at h; exact Except.noConfusion h
      | ok p =>
        obtain ⟨w, m⟩ := p
        rw [hx] at h
        simp only [pbind_ok] at h
        obtain ⟨C1, hC1, hn1⟩ := parseFn_consumed lk f .expr _ w m hx
        obtain ⟨E1, hE1, hX1⟩ := suffix_nul hC1 hn1
        subst hE1
        cases E1 with
        | nil =>
          simp only [List.nil_append] at h
          rw [if_neg (by decide :
            ¬ (('\x00' : Char) = '>' ∨ ('\x00' : Char) = '<'))] at h
          simp only [Except.ok.injEq, Prod.mk.injEq] at h
          obtain ⟨hv, hm⟩ := h
          have hE0 : E = [] := append_nul_nil hm.symm
          subst hE0
          have ihx := ih .expr D [] w hx
            (fun _ => boundOK_mono (by decide) (hE rfl))
            (fun h0 => absurd h0 (by simp))
          rw [ihx]
          simp only [pbind_ok, List.nil_append]
          rw [if_neg (fun hor => Or.elim hor
            (boundOK_ne (hE rfl) (by decide))
            (boundOK_ne (hE rfl) (by decide)))]
          rw [hv]
        | cons e1 E2 =>
          simp only [List.cons_append] at h
          by_cases hor : e1 = '>' ∨ e1 = '<'
          · rw [if_pos hor] at h
            cases E2 with
            | nil =>
              simp only [List.nil_append] at h
              rw [if_neg (by decide : ¬ ('\x00' : Char) = '=')] at h
              cases hx2 : parseFn lk f .expr ['\x00'] with
              | error e => rw [hx2] at h; exact Except.noConfusion h
              | ok y2 => exact ((expr_nul lk f y2 hx2).elim)
            | cons e2 E3 =>
              simp only [List.cons_append] at h
              by_cases he2 : e2 = '='
              · rw [if_pos he2] at h
                cases hx2 : parseFn lk f .expr (E3 ++ ['\x00']) with
                | error e => rw [hx2] at h; exact Except.noConfusion h
                | ok p2 =>
                  obtain ⟨w1, m2⟩ := p2
                  rw [hx2] at h
                  simp only [pbind_ok] at h
                  obtain ⟨C2, hC2, hn2⟩ :=
                    parseFn_consumed lk f .expr _ w1 m2 hx2
                  obtain ⟨E4, hE4, hX4⟩ := suffix_nul hC2 hn2
                  subst hE4
                  simp only [Except.ok.injEq, Prod.mk.injEq] at h
                  obtain ⟨hv, hm⟩ := h
                  have hE4E : E4 = E := append_nul_inj hm
                  have ihx1 := ih .expr D (e1 :: e2 :: E3) w hx
                    (fun h0 => absurd h0 (by simp))
                    (fun h0 => by simp at h0)
                  have ihx2 := ih .expr E3 E4 w1 hx2
                    (fun h0 => boundOK_mono (by decide) (hE (hE4E ▸ h0)))
                    (fun h0 => hBg (hE4E ▸ h0))
                  simp only [ihx1, pbind_ok, List.cons_append, if_pos hor,
                    if_pos he2, ihx2]
                  rw [hv, hE4E]
              · rw [if_neg he2] at h
                cases hx2 : parseFn lk f .expr (e2 :: (E3 ++ ['\x00'])) with
                | error e => rw [hx2] at h; exact Except.noConfusion h
                | ok p2 =>
                  obtain ⟨w1, m2⟩ := p2
                  rw [hx2] at h
                  simp only [pbind_ok] at h
                  have hC2x : (e2 :: E3) ++ ['\x00'] = m2 → True := fun _ => trivial
                  obtain ⟨C2, hC2, hn2⟩ :=
                    parseFn_consumed lk f .expr _ w1 m2 hx2
                  have hC2' : (e2 :: E3) ++ ['\x00'] = C2 ++ m2 := hC2
                  obtain ⟨E4, hE4, hX4⟩ := suffix_nul hC2' hn2
                  subst hE4
                  simp only [Except.ok.injEq, Prod.mk.injEq] at h
                  obtain ⟨hv, hm⟩ := h
                  have hE4E : E4 = E := append_nul_inj hm
                  have ihx1 := ih .expr D (e1 :: e2 :: E3) w hx
                    (fun h0 => absurd h0 (by simp))
                    (fun h0 => by simp at h0)
                  have ihx2 := ih .expr (e2 :: E3) E4 w1 hx2
                    (fun h0 => boundOK_mono (by decide) (hE (hE4E ▸ h0)))
                    (fun h0 => hBg (hE4E ▸ h0))
                  have ihx2' : parseFn lk f .expr (e2 :: (E3 ++ z :: zs)) =
                      .ok (w1, E4 ++ z :: zs) := ihx2
                  simp only [ihx1, pbind_ok, List.cons_append, if_pos hor,
                    if_neg he2, ihx2']
                  rw [hv, hE4E]
          · rw [if_neg hor] at h
            simp only [Except.ok.injEq, Prod.mk.injEq] at h
            obtain ⟨hv, hm⟩ := h
            have hEe : E = e1 :: E2 := @append_nul_inj E (e1 :: E2) hm.symm
            have ihx := ih .expr D (e1 :: E2) w hx
              (fun h0 => absurd h0 (by simp))
              (fun h0 => hBg (hEe.trans h0))
            simp only [ihx, pbind_ok, List.cons_append, if_neg hor]
            rw [hv, hEe]
            simp only [List.cons_append]
    | bEq =>
      simp only [parseFn] at h ⊢
      cases hx : parseFn lk f .bCmp (D ++ ['\x00']) with
      | error e => rw [hx] at h; exact Except.noConfusion h
      | ok p =>
        obtain ⟨w, m⟩ := p
        rw [hx] at h
        simp only [pbind_ok] at h
        obtain ⟨C1, hC1, hn1⟩ := parseFn_consumed lk f .bCmp _ w m hx
        obtain ⟨E1, hE1, hX1⟩ := suffix_nul hC1 hn1
        subst hE1
        cases E1 with
        | nil =>
          simp only [List.nil_append] at h
          rw [if_neg (by decide : ¬ ('\x00' : Char) = '='),
            if_neg (by decide : ¬ ('\x00' : Char) = '!')] at h
          simp only [Except.ok.injEq, Prod.mk.injEq] at h
          obtain ⟨hv, hm⟩ := h
          have hE0 : E = [] := append_nul_nil hm.symm
          subst hE0
          have ihx := ih .bCmp D [] w hx
            (fun _ => boundOK_mono (by decide) (hE rfl))
            (fun h0 => absurd h0 (by simp))
          rw [ihx]
          simp only [pbind_ok, List.nil_append]
          rw [if_neg (boundOK_ne (hE rfl) (by decide : '=' ∈ pfExtra PF.bEq))]
          rw [if_neg (boundOK_ne (hE rfl) (by decide : '!' ∈ pfExtra PF.bEq))]
          rw [hv]
        | cons e1 E2 =>
          simp only [List.cons_append] at h
          by_cases he1 : e1 = '='
          · rw [if_pos he1] at h
            cases E2 with
            | nil =>
              simp only [List.nil_append] at h
              rw [if_neg (by decide : ¬ ('\x00' : Char) = '=')] at h
              exact Except.noConfusion h
            | cons e2 E3 =>
              simp only [List.cons_append] at h
              by_cases he2 : e2 = '='
              · rw [if_pos he2] at h
                cases hx2 : parseFn lk f .bCmp (E3 ++ ['\x00']) with
                | error e => rw [hx2] at h; exact Except.noConfusion h
                | ok p2 =>
                  obtain ⟨w1, m2⟩ := p2
                  rw [hx2] at h
                  simp only [pbind_ok] at h
                  obtain ⟨C2, hC2, hn2⟩ :=
                    parseFn_consumed lk f .bCmp _ w1 m2 hx2
                  obtain ⟨E4, hE4, hX4⟩ := suffix_nul hC2 hn2
                  subst hE4
                  simp only [Except.ok.injEq, Prod.mk.injEq] at h
                  obtain ⟨hv, hm⟩ := h
                  have hE4E : E4 = E := append_nul_inj hm
                  have ihx1 := ih .bCmp D (e1 :: e2 :: E3) w hx
                    (fun h0 => absurd h0 (by simp))
                    (fun h0 => by simp at h0)
                  have ihx2 := ih .bCmp E3 E4 w1 hx2
                    (fun h0 => boundOK_mono (by decide) (hE (hE4E ▸ h0)))
                    (fun h0 => hBg (hE4E ▸ h0))
                  simp only [ihx1, pbind_ok, List.cons_append, if_pos he1,
                    if_pos he2, ihx2]
                  rw [hv, hE4E]
              · rw [if_neg he2] at h
                exact Except.noConfusion h
          · by_cases hbg1 : e1 = '!'
            · subst hbg1
              rw [if_neg he1] at h
              rw [if_pos rfl] at h
              cases E2 with
              | nil =>
                simp only [List.nil_append] at h
                rw [if_neg (by decide : ¬ ('\x00' : Char) = '=')] at h
                simp only [Except.ok.injEq, Prod.mk.injEq] at h
                obtain ⟨hv, hm⟩ := h
                have hEb : E = ['!'] :=
                  (@append_nul_inj ['!'] E (by simpa using hm)).symm
                subst hEb
                have hz := hBg rfl
                have ihx := ih .bCmp D ['!'] w hx
                  (fun h0 => absurd h0 (by simp))
                  (fun _ => hz)
                rw [ihx]
                simp only [pbind_ok, List.cons_append, List.nil_append,
                  if_neg (by decide : ¬ ('!' : Char) = '='), if_true]
                rw [if_neg hz]
                rw [hv]
              | cons e2 E3 =>
                simp only [List.cons_append] at h
                by_cases he2 : e2 = '='
                · rw [if_pos he2] at h
                  cases hx2 : parseFn lk f .bCmp (E3 ++ ['\x00']) with
                  | error e => rw [hx2] at h; exact Except.noConfusion h
                  | ok p2 =>
                    obtain ⟨w1, m2⟩ := p2
                    rw [hx2] at h
                    simp only [pbind_ok] at h
                    obtain ⟨C2, hC2, hn2⟩ :=
                      parseFn_consumed lk f .bCmp _ w1 m2 hx2
                    obtain ⟨E4, hE4, hX4⟩ := suffix_nul hC2 hn2
                    subst hE4
                    simp only [Except.ok.injEq, Prod.mk.injEq] at h
                    obtain ⟨hv, hm⟩ := h
                    have hE4E : E4 = E := append_nul_inj hm
                    have ihx1 := ih .bCmp D ('!' :: e2 :: E3) w hx
                      (fun h0 => absurd h0 (by simp))
                      (fun h0 => by simp at h0)
                    have ihx2 := ih .bCmp E3 E4 w1 hx2
                      (fun h0 => boundOK_mono (by decide) (hE (hE4E ▸ h0)))
                      (fun h0 => hBg (hE4E ▸ h0))
                    simp only [ihx1, pbind_ok, List.cons_append,
                      if_neg (by decide : ¬ ('!' : Char) = '='),
                      if_pos (rfl : ('!' : Char) = '!'), if_true,
                      if_pos he2, ihx2]
                    rw [hv, hE4E]
                · rw [if_neg he2] at h
                  simp only [Except.ok.injEq, Prod.mk.injEq] at h
                  obtain ⟨hv, hm⟩ := h
                  have hEe : E = '!' :: e2 :: E3 :=
                    @append_nul_inj E ('!' :: e2 :: E3) hm.symm
                  have ihx := ih .bCmp D ('!' :: e2 :: E3) w hx
                    (fun h0 => absurd h0 (by simp))
                    (fun h0 => by simp at h0)
                  simp only [ihx, pbind_ok, List.cons_append,
                    if_neg (by decide : ¬ ('!' : Char) = '='),
                    if_pos (rfl : ('!' : Char) = '!'), if_true,
                    if_neg he2]
                  rw [hv, hEe]
                  simp only [List.cons_append]
            · rw [if_neg he1, if_neg hbg1] at h
              simp only [Except.ok.injEq, Prod.mk.injEq] at h
              obtain ⟨hv, hm⟩ := h
              have hEe : E = e1 :: E2 := @append_nul_inj E (e1 :: E2) hm.symm
              have ihx := ih .bCmp D (e1 :: E2) w hx
                (fun h0 => absurd h0 (by simp))
                (fun h0 => absurd (List.cons.inj h0).1 hbg1)
              simp only [ihx, pbind_ok, List.cons_append, if_neg he1,
                if_neg hbg1]
              rw [hv, hEe]
              simp only [List.cons_append]
    | bAnd =>
      simp only [parseFn] at h ⊢
      exact ext_seq lk z zs f .bEq (fun w => .bAndLoop w) D E v ih h
        (fun h0 => boundOK_mono (by decide) (hE h0))
        (fun w h0 => hE h0)
        hBg
        (fun w v2 E2 hh => append_nul_bang (bAndLoop_stop lk hh (by decide)).2)
    | bAndLoop v0 =>
      cases D with
      | nil =>
        simp only [List.nil_append] at h
        obtain ⟨hv, hm⟩ := bAndLoop_stop lk h (by decide)
        have hE0 : E = [] := append_nul_nil hm
        subst hE0
        simp only [List.nil_append]
        rw [hv]
        have hb0 : boundOK PF.bAnd z = true := hE rfl
        exact bAndLoop_id lk f v0 zs (boundOK_ne hb0 (by decide))
      | cons d D =>
        simp only [List.cons_append] at h ⊢
        simp only [parseFn] at h ⊢
        by_cases hc : d = '&'
        · simp only [if_pos hc] at h ⊢
          cases D with
          | nil =>
            simp only [List.nil_append] at h
            rw [if_neg (by decide : ¬ ('\x00' : Char) = '&')] at h
            exact Except.noConfusion h
          | cons d2 D2 =>
            simp only [List.cons_append] at h ⊢
            by_cases hd2 : d2 = '&'
            · simp only [if_pos hd2] at h ⊢
              exact ext_seq lk z zs f .bEq
                (fun w => .bAndLoop
                  (if eqThreshold ≤ |v0| ∧ eqThreshold ≤ |w| then 1 else 0))
                D2 E v ih h
                (fun h0 => boundOK_mono (by decide)
                (show boundOK PF.bAnd z = true from hE h0))
                (fun w h0 => hE h0)
                hBg
                (fun w v2 E2 hh =>
                  append_nul_bang (bAndLoop_stop lk hh (by decide)).2)
            · simp only [if_neg hd2] at h
              exact Except.noConfusion h
        · simp only [if_neg hc] at h ⊢
          simp only [Except.ok.injEq, Prod.mk.injEq] at h
          obtain ⟨hv, hm⟩ := h
          have hEd : E = d :: D := @append_nul_inj E (d :: D) hm.symm
          rw [hv, hEd]
          simp only [List.cons_append]
    | bOr =>
      simp only [parseFn] at h ⊢
      exact ext_seq lk z zs f .bAnd (fun w => .bOrLoop w) D E v ih h
        (fun h0 => boundOK_mono (by decide) (hE h0))
        (fun w h0 => hE h0)
        hBg
        (fun w v2 E2 hh => append_nul_bang (bOrLoop_stop lk hh (by decide)).2)
    | bOrLoop v0 =>
      cases D with
      | nil =>
        simp only [List.nil_append] at h
        obtain ⟨hv, hm⟩ := bOrLoop_stop lk h (by decide)
        have hE0 : E = [] := append_nul_nil hm
        subst hE0
        simp only [List.nil_append]
        rw [hv]
        have hb0 : boundOK PF.bOr z = true := hE rfl
        exact bOrLoop_id lk f v0 zs (boundOK_ne hb0 (by decide))
      | cons d D =>
        simp only [List.cons_append] at h ⊢
        simp only [parseFn] at h ⊢
        by_cases hc : d = '|'
        · simp only [if_pos hc] at h ⊢
          cases D with
          | nil =>
            simp only [List.nil_append] at h
            rw [if_neg (by decide : ¬ ('\x00' : Char) = '|')] at h
            exact Except.noConfusion h
          | cons d2 D2 =>
            simp only [List.cons_append] at h ⊢
            by_cases hd2 : d2 = '|'
            · simp only [if_pos hd2] at h ⊢
              exact ext_seq lk z zs f .bAnd
                (fun w => .bOrLoop
                  (if eqThreshold ≤ |v0| ∨ eqThreshold ≤ |w| then 1 else 0))
                D2 E v ih h
                (fun h0 => boundOK_mono (by decide)
                (show boundOK PF.bOr z = true from hE h0))
                (fun w h0 => hE h0)
                hBg
                (fun w v2 E2 hh =>
                  append_nul_bang (bOrLoop_stop lk hh (by decide)).2)
            · simp only [if_neg hd2] at h
              exact Except.noConfusion h
        · simp only [if_neg hc] at h ⊢
          simp only [Except.ok.injEq, Prod.mk.injEq] at h
          obtain ⟨hv, hm⟩ := h
          have hEd : E = d :: D := @append_nul_inj E (d :: D) hm.symm
          rw [hv, hEd]
          simp only [List.cons_append]

/-! ## Run composition lemmas -/

/-- The accumulator of `_read_expr`'s loop is affine: shifting the starting
accumulator shifts the result by the same amount. -/
theorem exprLoop_shift (lk : String → Option ℚ) :
    ∀ fuel u v r l, parseFn lk fuel (.exprLoop u) l = .ok (v, r) →
      ∀ u', parseFn lk fuel (.exprLoop u') l = .ok (u' + (v - u), r) := by
  intro fuel
  induction fuel with
  | zero => intro u v r l h u'; exact Except.noConfusion h
  | succ f ih =>
    intro u v r l h u'
    cases l with
    | nil => exact Except.noConfusion h
    | cons c t =>
      simp only [parseFn] at h ⊢
      by_cases hc : c = '+'
      · simp only [if_pos hc] at h ⊢
        cases ht : parseFn lk f .term t with
        | error e => rw [ht] at h; exact Except.noConfusion h
        | ok p =>
          obtain ⟨w, m⟩ := p
          rw [ht] at h
          simp only [pbind_ok] at h ⊢
          have := ih (u + w) v r m h (u' + w)
          rw [this]
          have harith : u' + w + (v - (u + w)) = u' + (v - u) := by ring
          rw [harith]
      · simp only [if_neg hc] at h ⊢
        by_cases hc2 : c = '-'
        · simp only [if_pos hc2] at h ⊢
          cases ht : parseFn lk f .term t with
          | error e => rw [ht] at h; exact Except.noConfusion h
          | ok p =>
            obtain ⟨w, m⟩ := p
            rw [ht] at h
            simp only [pbind_ok] at h ⊢
            have := ih (u - w) v r m h (u' - w)
            rw [this]
            have harith : u' - w + (v - (u - w)) = u' + (v - u) := by ring
            rw [harith]
        · simp only [if_neg hc2] at h ⊢
          simp only [Except.ok.injEq, Prod.mk.injEq] at h
          obtain ⟨hv, hm⟩ := h
          rw [← hm]
          have harith : u' + (v - u) = u' + (v - u) := rfl
          rw [← hv]
          have : u' + (u - u) = u' := by ring
          rw [this]

/-- Concatenating a continuation after a fully consumed `_read_expr` loop
run: the loop run on `E1` (stopping at the NUL) followed by more loop input
`'+' :: T` behaves like the loop restarted at the accumulated value. -/
theorem exprLoop_cat (lk : String → Option ℚ) (T : List Char) (g : ℕ)
    (va w : ℚ) (r : List Char)
    (hsec : ∀ g2, g ≤ g2 →
      parseFn lk g2 (.exprLoop va) ('+' :: T) = .ok (w, r)) :
    ∀ fuel u E1 F, fuel ≤ F → g + E1.length ≤ F →
      parseFn lk fuel (.exprLoop u) (E1 ++ ['\x00']) = .ok (va, ['\x00']) →
      parseFn lk F (.exprLoop u) (E1 ++ '+' :: T) = .ok (w, r) := by
  intro fuel
  induction fuel with
  | zero => intro u E1 F _ _ h; exact Except.noConfusion h
  | succ f ih =>
    intro u E1 F hle hlen h
    cases E1 with
    | nil =>
      simp only [List.nil_append] at h ⊢
      obtain ⟨hv, -⟩ := exprLoop_stop lk h (by decide) (by decide)
      subst hv
      exact hsec F (by omega)
    | cons e E1 =>
      cases F with
      | zero => exact absurd hle (by omega)
      | succ F =>
      simp only [List.length_cons] at hlen
      simp only [List.cons_append] at h ⊢
      simp only [parseFn] at h ⊢
      by_cases hc : e = '+'
      · simp only [if_pos hc] at h ⊢
        cases ht : parseFn lk f .term (E1 ++ ['\x00']) with
        | error e2 => rw [ht] at h; exact Except.noConfusion h
        | ok p =>
          obtain ⟨w1, m⟩ := p
          rw [ht] at h
          simp only [pbind_ok] at h
          obtain ⟨C1, hC1, hn1⟩ := parseFn_consumed lk f .term _ w1 m ht
          obtain ⟨E2, hE2, hX⟩ := suffix_nul hC1 hn1
          subst hE2
          have hext := parseFn_ext lk '+' T f .term E1 E2 w1 ht
            (fun _ => by decide) (fun _ => by decide)
          have hterm2 := parseFn_mono lk (show f ≤ F by omega) hext
          rw [hterm2]
          simp only [pbind_ok]
          have hlen2 : E2.length ≤ E1.length := by
            have := congrArg List.length hX
            simp only [List.length_append] at this
            omega
          exact ih (u + w1) E2 F (by omega) (by omega) h
      · simp only [if_neg hc] at h ⊢
        by_cases hc2 : e = '-'
        · simp only [if_pos hc2] at h ⊢
          cases ht : parseFn lk f .term (E1 ++ ['\x00']) with
          | error e2 => rw [ht] at h; exact Except.noConfusion h
          | ok p =>
            obtain ⟨w1, m⟩ := p
            rw [ht] at h
            simp only [pbind_ok] at h
            obtain ⟨C1, hC1, hn1⟩ := parseFn_consumed lk f .term _ w1 m ht
            obtain ⟨E2, hE2, hX⟩ := suffix_nul hC1 hn1
            subst hE2
            have hext := parseFn_ext lk '+' T f .term E1 E2 w1 ht
              (fun _ => by decide) (fun _ => by decide)
            have hterm2 := parseFn_mono lk (show f ≤ F by omega) hext
            rw [hterm2]
            simp only [pbind_ok]
            have hlen2 : E2.length ≤ E1.length := by
              have := congrArg List.length hX
              simp only [List.length_append] at this
              omega
            exact ih (u - w1) E2 F (by omega) (by omega) h
        · simp only [if_neg hc2] at h ⊢
          simp only [Except.ok.injEq, Prod.mk.injEq] at h
          obtain ⟨-, hm⟩ := h
          have := congrArg List.length hm
          simp only [List.length_cons, List.length_append,
            List.length_nil] at this
          omega

/-- Concatenating a continuation after a fully consumed `_read_expr` run. -/
theorem expr_cat (lk : String → Option ℚ) (T : List Char) (g : ℕ)
    (va w : ℚ) (r : List Char)
    (hsec : ∀ g2, g ≤ g2 →
      parseFn lk g2 (.exprLoop va) ('+' :: T) = .ok (w, r)) :
    ∀ fuel A F, fuel ≤ F → g + A.length + 1 ≤ F →
      parseFn lk fuel .expr (A ++ ['\x00']) = .ok (va, ['\x00']) →
      parseFn lk F .expr (A ++ '+' :: T) = .ok (w, r) := by
  intro fuel
  cases fuel with
  | zero => intro A F _ _ h; exact Except.noConfusion h
  | succ f =>
    intro A F hle hlen h
    cases A with
    | nil => exact ((expr_nul lk (f + 1) _ (by simpa using h)).elim)
    | cons a0 A =>
      cases F with
      | zero => exact absurd hle (by omega)
      | succ F =>
      simp only [List.length_cons] at hlen
      simp only [List.cons_append] at h ⊢
      simp only [parseFn] at h ⊢
      by_cases hc : a0 = '+'
      · simp only [if_pos hc] at h ⊢
        cases ht : parseFn lk f .term (A ++ ['\x00']) with
        | error e2 => rw [ht] at h; exact Except.noConfusion h
        | ok p =>
          obtain ⟨w1, m⟩ := p
          rw [ht] at h
          simp only [pbind_ok] at h
          obtain ⟨C1, hC1, hn1⟩ := parseFn_consumed lk f .term _ w1 m ht
          obtain ⟨E2, hE2, hX⟩ := suffix_nul hC1 hn1
          subst hE2
          have hext := parseFn_ext lk '+' T f .term A E2 w1 ht
            (fun _ => by decide) (fun _ => by decide)
          have hterm2 := parseFn_mono lk (show f ≤ F by omega) hext
          rw [hterm2]
          simp only [pbind_ok]
          have hlen2 : E2.length ≤ A.length := by
            have := congrArg List.length hX
            simp only [List.length_append] at this
            omega
          exact exprLoop_cat lk T g va w r hsec f (0 + w1) E2 F (by omega)
            (by omega) h
      · simp only [if_neg hc] at h ⊢
        by_cases hc2 : a0 = '-'
        · simp only [if_pos hc2] at h ⊢
          cases ht : parseFn lk f .term (A ++ ['\x00']) with
          | error e2 => rw [ht] at h; exact Except.noConfusion h
          | ok p =>
            obtain ⟨w1, m⟩ := p
            rw [ht] at h
            simp only [pbind_ok] at h
            obtain ⟨C1, hC1, hn1⟩ := parseFn_consumed lk f .term _ w1 m ht
            obtain ⟨E2, hE2, hX⟩ := suffix_nul hC1 hn1
            subst hE2
            have hext := parseFn_ext lk '+' T f .term A E2 w1 ht
              (fun _ => by decide) (fun _ => by decide)
            have hterm2 := parseFn_mono lk (show f ≤ F by omega) hext
            rw [hterm2]
            simp only [pbind_ok]
            have hlen2 : E2.length ≤ A.length := by
              have := congrArg List.length hX
              simp only [List.length_append] at this
              omega
            exact exprLoop_cat lk T g va w r hsec f (0 - w1) E2 F (by omega)
              (by omega) h
        · simp only [if_neg hc2] at h ⊢
          cases ht : parseFn lk f .term (a0 :: (A ++ ['\x00'])) with
          | error e2 => rw [ht] at h; exact Except.noConfusion h
          | ok p =>
            obtain ⟨w1, m⟩ := p
            rw [ht] at h
            simp only [pbind_ok] at h
            obtain ⟨C1, hC1, hn1⟩ := parseFn_consumed lk f .term _ w1 m ht
            have hC1' : (a0 :: A) ++ ['\x00'] = C1 ++ m := hC1
            obtain ⟨E2, hE2, hX⟩ := suffix_nul hC1' hn1
            subst hE2
            have hext := parseFn_ext lk '+' T f .term (a0 :: A) E2 w1 ht
              (fun _ => by decide) (fun _ => by decide)
            have hext' : parseFn lk f .term (a0 :: (A ++ '+' :: T)) =
                .ok (w1, E2 ++ '+' :: T) := hext
            have hterm2 := parseFn_mono lk (show f ≤ F by omega) hext'
            rw [hterm2]
            simp only [pbind_ok]
            have hlen2 : E2.length ≤ A.length + 1 := by
              have := congrArg List.length hX
              simp only [List.length_append, List.length_cons] at this
              omega
            exact exprLoop_cat lk T g va w r hsec f w1 E2 F (by omega)
              (by omega) h

/-! One-step unfolding equations at symbolic fuel. -/

theorem term_step (lk : String → Option ℚ) (fuel : ℕ) (l : List Char) :
    parseFn lk (fuel + 1) .term l =
      pbind (parseFn lk fuel .power l) fun v r =>
        parseFn lk fuel (.termLoop v) r := by
  simp only [parseFn]

theorem power_step (lk : String → Option ℚ) (fuel : ℕ) (l : List Char) :
    parseFn lk (fuel + 1) .power l =
      pbind (parseFn lk fuel .unary l) fun v r =>
        parseFn lk fuel (.powerLoop v 1) r := by
  simp only [parseFn]

theorem expr_step (lk : String → Option ℚ) (fuel : ℕ) (c : Char)
    (t : List Char) (h1 : ¬ c = '+') (h2 : ¬ c = '-') :
    parseFn lk (fuel + 1) .expr (c :: t) =
      pbind (parseFn lk fuel .term (c :: t)) fun v r =>
        parseFn lk fuel (.exprLoop v) r := by
  simp only [parseFn, if_neg h1, if_neg h2]

theorem unary_step (lk : String → Option ℚ) (fuel : ℕ) (c : Char)
    (t : List Char) (h1 : ¬ c = '!') (h2 : ¬ c = '-') (h3 : ¬ c = '+') :
    parseFn lk (fuel + 1) .unary (c :: t) = parseFn lk fuel .paren (c :: t) := by
  simp only [parseFn, if_neg h1, if_neg h2, if_neg h3]

theorem paren_step (lk : String → Option ℚ) (fuel : ℕ) (c : Char)
    (t : List Char) (h : ¬ c = '(') :
    parseFn lk (fuel + 1) .paren (c :: t) =
      parseFn lk fuel .builtin (c :: t) := by
  simp only [parseFn, if_neg h]

/-- Building a full `_read_expr` run from a `_read_builtin` run whose head
character commits every intermediate reader to the primary path. -/
theorem expr_of_builtin (lk : String → Option ℚ) (fuel : ℕ) (c : Char)
    (t : List Char) (v : ℚ)
    (h : parseFn lk fuel .builtin (c :: t) = .ok (v, ['\x00']))
    (h1 : ¬ c = '+') (h2 : ¬ c = '-') (h3 : ¬ c = '!') (h4 : ¬ c = '(') :
    parseFn lk (fuel + 5) .expr (c :: t) = .ok (v, ['\x00']) := by
  have hparen : parseFn lk (fuel + 1) .paren (c :: t) = .ok (v, ['\x00']) := by
    rw [paren_step lk fuel c t h4]
    exact h
  have hunary : parseFn lk (fuel + 2) .unary (c :: t) = .ok (v, ['\x00']) := by
    rw [unary_step lk (fuel + 1) c t h3 h2 h1]
    exact hparen
  have hpower : parseFn lk (fuel + 3) .power (c :: t) = .ok (v, ['\x00']) := by
    rw [power_step lk (fuel + 2)]
    rw [hunary]
    simp only [pbind_ok]
    exact powerLoop_id lk (fuel + 1) v 1 [] (by decide)
  have hterm : parseFn lk (fuel + 4) .term (c :: t) = .ok (v, ['\x00']) := by
    rw [term_step lk (fuel + 3)]
    rw [hpower]
    simp only [pbind_ok]
    exact termLoop_id lk (fuel + 2) v [] (by decide) (by decide)
  rw [expr_step lk (fuel + 4) c t h1 h2]
  rw [hterm]
  simp only [pbind_ok]
  exact exprLoop_id lk (fuel + 3) v [] (by decide) (by decide)

/-- `_parse` succeeds exactly with the run value when the expression run
stops at the terminating NUL. -/
theorem _parse_of_run {lk : String → Option ℚ} {fuel : ℕ} {l0 : List Char}
    {v : ℚ} (h : parseFn lk fuel .expr l0 = .ok (v, ['\x00'])) :
    _parse lk fuel l0 = (v, none) := by
  unfold _parse
  rw [h]
  simp

/-- Extracting the underlying parser run from a successful top-level
evaluation: the run consumes the entire space-stripped input and stops at
the terminating NUL (in particular the input contains no NUL). -/
theorem eval_ok_run {lk : String → Option ℚ} {a : String} {va : ℚ}
    (h : gst_validate_utils_parse_expression a lk = (va, none)) :
    parseFn lk
      (evalFuel (a.data.filter (fun c => ¬ c = ' ') ++ ['\x00'])) .expr
      (a.data.filter (fun c => ¬ c = ' ') ++ ['\x00']) = .ok (va, ['\x00']) := by
  simp only [gst_validate_utils_parse_expression] at h
  unfold _parse at h
  cases hp : parseFn lk
      (evalFuel (a.data.filter (fun c => ¬ c = ' ') ++ ['\x00'])) .expr
      (a.data.filter (fun c => ¬ c = ' ') ++ ['\x00']) with
  | error e =>
    rw [hp] at h
    simp only [Prod.mk.injEq] at h
    exact absurd h.2 (by simp)
  | ok p =>
    obtain ⟨v, r⟩ := p
    rw [hp] at h
    dsimp only at h
    by_cases hr : r.length ≤ 1
    · rw [if_pos hr] at h
      simp only [Prod.mk.injEq] at h
      obtain ⟨hv, -⟩ := h
      subst hv
      obtain ⟨C, hC, hn⟩ := parseFn_consumed lk _ .expr _ v r hp
      cases r with
      | nil =>
        exfalso
        rw [List.append_nil] at hC
        exact hn (hC ▸ List.mem_append_right _ (List.mem_cons_self _ _))
      | cons c0 r0 =>
        cases r0 with
        | nil =>
          obtain ⟨-, h1c⟩ := List.append_inj' hC rfl
          rw [← h1c]
        | cons c1 r1 =>
          simp only [List.length_cons] at hr
          omega
    · rw [if_neg hr] at h
      simp only [Prod.mk.injEq] at h
      exact absurd h.2 (by simp)

theorem exprLoop_plus_step (lk : String → Option ℚ) (fuel : ℕ) (v0 : ℚ)
    (t : List Char) :
    parseFn lk (fuel + 1) (.exprLoop v0) ('+' :: t) =
      pbind (parseFn lk fuel .term t) fun w r =>
        parseFn lk fuel (.exprLoop (v0 + w)) r := by
  simp [parseFn]

theorem arg_step (lk : String → Option ℚ) (fuel : ℕ) (l : List Char) :
    parseFn lk (fuel + 1) .arg l =
      pbind (parseFn lk fuel .expr l) fun v r =>
        match r with
        | [] => .error .pastEnd
        | c :: t => if c = ',' then .ok (v, t) else .ok (v, c :: t) := by
  simp only [parseFn]

/-- The loop continuation for `"x" ++ "+" ++ "y"`: starting the additive
loop at accumulator `va` on `'+'` followed by the (space-free) text of `y`
adds `y`'s value, provided `y` does not begin with a sign of its own. -/
theorem exprLoop_plus_run (lk : String → Option ℚ) {f2 : ℕ} {B : List Char}
    {vy : ℚ} (va : ℚ)
    (hB : ∀ c B2, B = c :: B2 → ¬ c = '+' ∧ ¬ c = '-')
    (hy : parseFn lk f2 .expr (B ++ ['\x00']) = .ok (vy, ['\x00'])) :
    ∀ g2, f2 ≤ g2 →
      parseFn lk g2 (.exprLoop va) ('+' :: (B ++ ['\x00'])) =
        .ok (va + vy, ['\x00']) := by
  cases f2 with
  | zero => intro g2 hg; exact Except.noConfusion hy
  | succ f =>
    cases B with
    | nil =>
      intro g2 hg
      exact ((expr_nul lk (f + 1) _ (by simpa using hy)).elim)
    | cons b0 B =>
      obtain ⟨hb1, hb2⟩ := hB b0 B rfl
      rw [List.cons_append] at hy
      rw [expr_step lk f b0 (B ++ ['\x00']) hb1 hb2] at hy
      cases ht : parseFn lk f .term (b0 :: (B ++ ['\x00'])) with
      | error e => rw [ht] at hy; exact Except.noConfusion hy
      | ok p =>
        obtain ⟨w1, M⟩ := p
        rw [ht] at hy
        simp only [pbind_ok] at hy
        intro g2 hg
        cases g2 with
        | zero => exact absurd hg (by omega)
        | succ g =>
          rw [exprLoop_plus_step lk g va ((b0 :: B) ++ ['\x00'])]
          rw [List.cons_append]
          rw [parseFn_mono lk (show f ≤ g by omega) ht]
          simp only [pbind_ok]
          have hshift := exprLoop_shift lk f w1 vy ['\x00'] M hy (va + w1)
          rw [parseFn_mono lk (show f ≤ g by omega) hshift]
          have harith : va + w1 + (vy - w1) = va + vy := by ring
          rw [harith]

/-- An argument run ending at a comma: the expression run of `a` transported
into `a,<rest>` and wrapped by `_read_argument`, which consumes the comma. -/
theorem arg_comma_run (lk : String → Option ℚ) {f : ℕ} {A : List Char}
    {va : ℚ} (REST : List Char)
    (h : parseFn lk f .expr (A ++ ['\x00']) = .ok (va, ['\x00'])) :
    parseFn lk (f + 1) .arg (A ++ ',' :: REST) = .ok (va, REST) := by
  have hext := parseFn_ext lk ',' REST f .expr A [] va h
    (fun _ => by decide) (fun h0 => absurd h0 (by simp))
  simp only [List.nil_append] at hext
  rw [arg_step lk f]
  rw [hext]
  simp only [pbind_ok]
  simp

/-- An argument run ending at the closing parenthesis, which the argument
reader leaves in place. -/
theorem arg_close_run (lk : String → Option ℚ) {f : ℕ} {B : List Char}
    {vb : ℚ}
    (h : parseFn lk f .expr (B ++ ['\x00']) = .ok (vb, ['\x00'])) :
    parseFn lk (f + 1) .arg (B ++ [')', '\x00']) = .ok (vb, [')', '\x00']) := by
  have hext := parseFn_ext lk ')' ['\x00'] f .expr B [] vb h
    (fun _ => by decide) (fun h0 => absurd h0 (by simp))
  simp only [List.nil_append] at hext
  rw [arg_step lk f]
  rw [hext]
  simp only [pbind_ok]
  simp

theorem scan_min (t : List Char) :
    scanIdent ('m' :: 'i' :: 'n' :: '(' :: t) =
      .ok (['m', 'i', 'n'], '(' :: t) := by
  have h4 : scanIdent ('(' :: t) = .ok ([], '(' :: t) :=
    scanIdent_nil (by decide)
  have h3 := scanIdent_cons (by decide : identChar 'n' = true) h4
  have h2 := scanIdent_cons (by decide : identChar 'i' = true) h3
  exact scanIdent_cons (by decide : identChar 'm' = true) h2

theorem scan_max (t : List Char) :
    scanIdent ('m' :: 'a' :: 'x' :: '(' :: t) =
      .ok (['m', 'a', 'x'], '(' :: t) := by
  have h4 : scanIdent ('(' :: t) = .ok ([], '(' :: t) :=
    scanIdent_nil (by decide)
  have h3 := scanIdent_cons (by decide : identChar 'x' = true) h4
  have h2 := scanIdent_cons (by decide : identChar 'a' = true) h3
  exact scanIdent_cons (by decide : identChar 'm' = true) h2

/-- The `min(a1,a2)` builtin run assembled from its two argument runs. -/
theorem builtin_min_run (lk : String → Option ℚ) {M : ℕ} {A B : List Char}
    {va vb : ℚ}
    (ha : parseFn lk M .arg (A ++ ',' :: (B ++ [')', '\x00'])) =
      .ok (va, B ++ [')', '\x00']))
    (hb : parseFn lk M .arg (B ++ [')', '\x00']) = .ok (vb, [')', '\x00'])) :
    parseFn lk (M + 1) .builtin
      ('m' :: 'i' :: 'n' :: '(' :: (A ++ ',' :: (B ++ [')', '\x00']))) =
      .ok (min va vb, ['\x00']) := by
  simp only [parseFn, scan_min, if_pos (by decide : identStart 'm' = true),
    if_pos (show String.mk ['m', 'i', 'n'] = "min" from rfl), ha, hb,
    pbind_ok, if_true]

/-- The `max(a1,a2)` builtin run assembled from its two argument runs. -/
theorem builtin_max_run (lk : String → Option ℚ) {M : ℕ} {A B : List Char}
    {va vb : ℚ}
    (ha : parseFn lk M .arg (A ++ ',' :: (B ++ [')', '\x00'])) =
      .ok (va, B ++ [')', '\x00']))
    (hb : parseFn lk M .arg (B ++ [')', '\x00']) = .ok (vb, [')', '\x00'])) :
    parseFn lk (M + 1) .builtin
      ('m' :: 'a' :: 'x' :: '(' :: (A ++ ',' :: (B ++ [')', '\x00']))) =
      .ok (max va vb, ['\x00']) := by
  simp only [parseFn, scan_max, if_pos (by decide : identStart 'm' = true),
    if_neg (show ¬ String.mk ['m', 'a', 'x'] = "min" from by decide),
    if_pos (show String.mk ['m', 'a', 'x'] = "max" from rfl), ha, hb,
    pbind_ok, if_true]


/-- `eval "min(a,b)" = min (eval a) (eval b)` for any two successfully
evaluating argument expressions. -/
theorem eval_min (lk : String → Option ℚ) (a b : String) (va vb : ℚ)
    (ha : gst_validate_utils_parse_expression a lk = (va, none))
    (hb : gst_validate_utils_parse_expression b lk = (vb, none)) :
    gst_validate_utils_parse_expression ("min(" ++ a ++ "," ++ b ++ ")") lk =
      (min va vb, none) := by
  have hra := eval_ok_run ha
  have hrb := eval_ok_run hb
  generalize hA : a.data.filter (fun c => ¬ c = ' ') = A at hra
  generalize hB : b.data.filter (fun c => ¬ c = ' ') = B at hrb
  have hM1 : parseFn lk
      (max (evalFuel (A ++ ['\x00'])) (evalFuel (B ++ ['\x00'])) + 1) .arg
      (A ++ ',' :: (B ++ [')', '\x00'])) = .ok (va, B ++ [')', '\x00']) :=
    parseFn_mono lk (by omega) (arg_comma_run lk (B ++ [')', '\x00']) hra)
  have hM2 : parseFn lk
      (max (evalFuel (A ++ ['\x00'])) (evalFuel (B ++ ['\x00'])) + 1) .arg
      (B ++ [')', '\x00']) = .ok (vb, [')', '\x00']) :=
    parseFn_mono lk (by omega) (arg_close_run lk hrb)
  have hbuiltin := builtin_min_run lk hM1 hM2
  have hexpr := expr_of_builtin lk
    (max (evalFuel (A ++ ['\x00'])) (evalFuel (B ++ ['\x00'])) + 2) 'm'
    ('i' :: 'n' :: '(' :: (A ++ ',' :: (B ++ [')', '\x00']))) (min va vb)
    hbuiltin (by decide) (by decide) (by decide) (by decide)
  simp only [gst_validate_utils_parse_expression]
  have hdata : ("min(" ++ a ++ "," ++ b ++ ")").data.filter
      (fun c => ¬ c = ' ') = ['m', 'i', 'n', '('] ++ A ++ [','] ++ B ++ [')'] := by
    have hA2 := hA
    have hB2 := hB
    simp only [decide_not] at hA2 hB2
    simp [String.data_append, List.filter_append, hA2, hB2]
  rw [hdata]
  have hfull : (['m', 'i', 'n', '('] ++ A ++ [','] ++ B ++ [')']) ++ ['\x00'] =
      'm' :: 'i' :: 'n' :: '(' :: (A ++ ',' :: (B ++ [')', '\x00'])) := by
    simp [List.append_assoc]
  rw [hfull]
  refine _parse_of_run (parseFn_mono lk ?_ hexpr)
  simp only [evalFuel, List.length_append, List.length_cons, List.length_nil]
  omega

/-- `eval "max(a,b)" = max (eval a) (eval b)` for any two successfully
evaluating argument expressions. -/
theorem eval_max (lk : String → Option ℚ) (a b : String) (va vb : ℚ)
    (ha : gst_validate_utils_parse_expression a lk = (va, none))
    (hb : gst_validate_utils_parse_expression b lk = (vb, none)) :
    gst_validate_utils_parse_expression ("max(" ++ a ++ "," ++ b ++ ")") lk =
      (max va vb, none) := by
  have hra := eval_ok_run ha
  have hrb := eval_ok_run hb
  generalize hA : a.data.filter (fun c => ¬ c = ' ') = A at hra
  generalize hB : b.data.filter (fun c => ¬ c = ' ') = B at hrb
  have hM1 : parseFn lk
      (max (evalFuel (A ++ ['\x00'])) (evalFuel (B ++ ['\x00'])) + 1) .arg
      (A ++ ',' :: (B ++ [')', '\x00'])) = .ok (va, B ++ [')', '\x00']) :=
    parseFn_mono lk (by omega) (arg_comma_run lk (B ++ [')', '\x00']) hra)
  have hM2 : parseFn lk
      (max (evalFuel (A ++ ['\x00'])) (evalFuel (B ++ ['\x00'])) + 1) .arg
      (B ++ [')', '\x00']) = .ok (vb, [')', '\x00']) :=
    parseFn_mono lk (by omega) (arg_close_run lk hrb)
  have hbuiltin := builtin_max_run lk hM1 hM2
  have hexpr := expr_of_builtin lk
    (max (evalFuel (A ++ ['\x00'])) (evalFuel (B ++ ['\x00'])) + 2) 'm'
    ('a' :: 'x' :: '(' :: (A ++ ',' :: (B ++ [')', '\x00']))) (max va vb)
    hbuiltin (by decide) (by decide) (by decide) (by decide)
  simp only [gst_validate_utils_parse_expression]
  have hdata : ("max(" ++ a ++ "," ++ b ++ ")").data.filter
      (fun c => ¬ c = ' ') = ['m', 'a', 'x', '('] ++ A ++ [','] ++ B ++ [')'] := by
    have hA2 := hA
    have hB2 := hB
    simp only [decide_not] at hA2 hB2
    simp [String.data_append, List.filter_append, hA2, hB2]
  rw [hdata]
  have hfull : (['m', 'a', 'x', '('] ++ A ++ [','] ++ B ++ [')']) ++ ['\x00'] =
      'm' :: 'a' :: 'x' :: '(' :: (A ++ ',' :: (B ++ [')', '\x00'])) := by
    simp [List.append_assoc]
  rw [hfull]
  refine _parse_of_run (parseFn_mono lk ?_ hexpr)
  simp only [evalFuel, List.length_append, List.length_cons, List.length_nil]
  omega

/-- `eval (x ++ "+" ++ y) = eval x + eval y` for successfully evaluating
`x` and `y`, provided the space-stripped `y` does not begin with a sign
(otherwise the concatenation merges the separator into `y`'s leading sign
chain and the sum law fails). -/
theorem eval_plus (lk : String → Option ℚ) (x y : String) (vx vy : ℚ)
    (hyhead : ∀ c B2, y.data.filter (fun c => ¬ c = ' ') = c :: B2 →
      ¬ c = '+' ∧ ¬ c = '-')
    (hx : gst_validate_utils_parse_expression x lk = (vx, none))
    (hy : gst_validate_utils_parse_expression y lk = (vy, none)) :
    gst_validate_utils_parse_expression (x ++ "+" ++ y) lk =
      (vx + vy, none) := by
  have hrx := eval_ok_run hx
  have hry := eval_ok_run hy
  generalize hA : x.data.filter (fun c => ¬ c = ' ') = A at hrx
  generalize hB : y.data.filter (fun c => ¬ c = ' ') = B at hry hyhead
  have hsec := exprLoop_plus_run lk vx hyhead hry
  have hcomb := expr_cat lk (B ++ ['\x00']) (evalFuel (B ++ ['\x00'])) vx
    (vx + vy) ['\x00'] hsec (evalFuel (A ++ ['\x00'])) A
    (evalFuel (A ++ '+' :: (B ++ ['\x00'])))
    (by simp only [evalFuel, List.length_append, List.length_cons,
          List.length_nil]; omega)
    (by simp only [evalFuel, List.length_append, List.length_cons,
          List.length_nil]; omega)
    hrx
  simp only [gst_validate_utils_parse_expression]
  have hdata : (x ++ "+" ++ y).data.filter (fun c => ¬ c = ' ') =
      A ++ ['+'] ++ B := by
    have hA2 := hA
    have hB2 := hB
    simp only [decide_not] at hA2 hB2
    simp [String.data_append, List.filter_append, hA2, hB2]
  rw [hdata]
  have hfull : (A ++ ['+'] ++ B) ++ ['\x00'] = A ++ '+' :: (B ++ ['\x00']) := by
    simp [List.append_assoc]
  rw [hfull]
  exact _parse_of_run hcomb

/-! ## Substitution and loader helper lemmas -/

theorem takeWhile_word {l : List Char} (h : ∀ c ∈ l, wordChar c = true) :
    (l ++ [')']).takeWhile wordChar = l := by
  induction l with
  | nil => decide
  | cons c t ih =>
    have hc : wordChar c = true := h c (List.mem_cons_self _ _)
    simp only [List.cons_append, List.takeWhile_cons, hc, if_true]
    rw [ih (fun x hx => h x (List.mem_cons_of_mem _ hx))]

theorem findVarRefs_cons (c : Char) (t : List Char) :
    findVarRefs (c :: t) =
      (if c = '$' then (varRefAt t).toList else []) ++ findVarRefs t := rfl

theorem findVarRefs_none {l : List Char} (h : ∀ c ∈ l, ¬ c = '$') :
    findVarRefs l = [] := by
  induction l with
  | nil => rfl
  | cons c t ih =>
    rw [findVarRefs_cons]
    rw [if_neg (h c (List.mem_cons_self _ _))]
    rw [ih (fun x hx => h x (List.mem_cons_of_mem _ hx))]
    rfl

theorem varRefAt_exact (name : List Char) (hne : ¬ name = [])
    (hword : ∀ c ∈ name, wordChar c = true) :
    varRefAt ('(' :: (name ++ [')'])) = some (String.mk name) := by
  simp only [varRefAt]
  rw [takeWhile_word hword]
  have hcond : name ≠ [] ∧
      (((name ++ [')']).drop name.length).head? = some ')') :=
    ⟨hne, by rw [List.drop_left]; rfl⟩
  rw [if_pos hcond]

theorem findVarRefs_single (name : List Char) (hne : ¬ name = [])
    (hword : ∀ c ∈ name, wordChar c = true) :
    findVarRefs ('$' :: '(' :: (name ++ [')'])) = [String.mk name] := by
  have hrest : ∀ c ∈ '(' :: (name ++ [')']), ¬ c = '$' := by
    intro c hc
    rcases List.mem_cons.mp hc with h1 | h1
    · subst h1; decide
    · rcases List.mem_append.mp h1 with h2 | h2
      · intro he
        subst he
        exact absurd (hword _ h2) (by decide)
      · rcases List.mem_cons.mp h2 with h3 | h3
        · subst h3; decide
        · simp at h3
  rw [findVarRefs_cons]
  rw [if_pos rfl]
  rw [varRefAt_exact name hne hword]
  rw [findVarRefs_none hrest]
  rfl

theorem patAt_self : ∀ l : List Char, patAt l l = true := by
  intro l
  induction l with
  | nil => rfl
  | cons c t ih => simp [patAt, ih]

theorem replaceAllGo_nil (pat rep : List Char) (n : ℕ) :
    replaceAllGo pat rep n [] = [] := by
  cases n with
  | zero => rfl
  | succ k => rfl

theorem replaceAllGo_skip (pat rep : List Char) :
    ∀ l n, l.length ≤ n → replaceAllGo pat rep n l = [] := by
  intro l
  induction l with
  | nil => intro n _; exact replaceAllGo_nil pat rep n
  | cons c t ih =>
    intro n hn
    cases n with
    | zero => simp at hn
    | succ k =>
      show replaceAllGo pat rep k t = []
      exact ih k (by simpa using hn)

theorem replaceAll_self (pat rep : List Char) (hne : pat ≠ []) :
    replaceAll pat pat rep = rep := by
  unfold replaceAll
  cases pat with
  | nil => exact absurd rfl hne
  | cons c t =>
    show replaceAllGo (c :: t) rep 0 (c :: t) = rep
    simp only [replaceAllGo]
    rw [if_pos ⟨List.cons_ne_nil c t, patAt_self (c :: t)⟩]
    rw [replaceAllGo_skip (c :: t) rep t ((c :: t).length - 1) (by simp)]
    simp

/-- The loading loop invariant of `gst_validate_scenario_load`. -/
theorem load_iff (outcomes : List (Option Bool)) :
    ∀ fa, gst_validate_scenario_load outcomes fa = true ↔
      ((∀ o ∈ outcomes, o.isSome = true) ∧
       (outcomes.filter (fun o => o = some false)).length +
         (if fa then 1 else 0) ≤ 1) := by
  induction outcomes with
  | nil =>
    intro fa
    simp [gst_validate_scenario_load]
    cases fa <;> simp
  | cons o rest ih =>
    intro fa
    cases o with
    | none => simp [gst_validate_scenario_load]
    | some cfg =>
      cases cfg with
      | false =>
        cases fa with
        | true =>
          constructor
          · intro h
            exact absurd h (by simp [gst_validate_scenario_load])
          · intro h
            obtain ⟨-, h2⟩ := h
            simp [List.filter_cons] at h2
        | false =>
          have hstep : gst_validate_scenario_load (some false :: rest) false =
              gst_validate_scenario_load rest true := rfl
          rw [hstep, ih]
          simp [List.filter_cons]
      | true =>
        have hstep : gst_validate_scenario_load (some true :: rest) fa =
            gst_validate_scenario_load rest fa := rfl
        rw [hstep, ih]
        simp [List.filter_cons]

theorem find?_append_none {α : Type} (p : α → Bool) {l1 : List α}
    (h : l1.find? p = none) (l2 : List α) :
    (l1 ++ l2).find? p = l2.find? p := by
  induction l1 with
  | nil => rfl
  | cons a t ih =>
    cases hpa : p a with
    | true =>
      rw [List.find?_cons_of_pos _ hpa] at h
      exact absurd h (by simp)
    | false =>
      rw [List.find?_cons_of_neg _ (by simp [hpa])] at h
      rw [List.cons_append, List.find?_cons_of_neg _ (by simp [hpa])]
      exact ih h

theorem eraseP_append_none {α : Type} (p : α → Bool) {l1 : List α}
    (h : l1.find? p = none) (l2 : List α) :
    (l1 ++ l2).eraseP p = l1 ++ l2.eraseP p := by
  induction l1 with
  | nil => rfl
  | cons a t ih =>
    cases hpa : p a with
    | true =>
      rw [List.find?_cons_of_pos _ hpa] at h
      exact absurd h (by simp)
    | false =>
      rw [List.find?_cons_of_neg _ (by simp [hpa])] at h
      simp only [List.cons_append, List.eraseP_cons, hpa, cond_false]
      rw [ih h]

/-! ## The claims -/

/-- C1 (amended): the top-level entry `_parse` starts at the additive level
(`_read_expr`), so the boolean and comparison operators evaluate only inside
parentheses, where `_read_paren` enters at `_read_boolean_or`; the same
expressions without parentheses stop before the operator and fail as
malformed input.  Of the levels reachable from the top, additive binds
looser than multiplicative, and `^` is right-associative; a unary minus on a
non-leading factor is read by `_read_unary` inside the power base, so it
binds tighter than `^`. -/
theorem C1_parser_entry :
    gst_validate_utils_parse_expression "(1<2)" (fun _ => none) = (1, none) ∧
    gst_validate_utils_parse_expression "(1<=2)" (fun _ => none) = (1, none) ∧
    gst_validate_utils_parse_expression "(1==1)" (fun _ => none) = (1, none) ∧
    gst_validate_utils_parse_expression "(1!=2)" (fun _ => none) = (1, none) ∧
    gst_validate_utils_parse_expression "(1&&1)" (fun _ => none) = (1, none) ∧
    gst_validate_utils_parse_expression "(0||1)" (fun _ => none) = (1, none) ∧
    gst_validate_utils_parse_expression "1<2" (fun _ => none) =
      (-1, some PErr.malformedInput) ∧
    gst_validate_utils_parse_expression "1&&1" (fun _ => none) =
      (-1, some PErr.malformedInput) ∧
    gst_validate_utils_parse_expression "1==1" (fun _ => none) =
      (-1, some PErr.malformedInput) ∧
    gst_validate_utils_parse_expression "0||1" (fun _ => none) =
      (-1, some PErr.malformedInput) ∧
    gst_validate_utils_parse_expression "1+2*3" (fun _ => none) = (7, none) ∧
    gst_validate_utils_parse_expression "2^3^2" (fun _ => none) =
      (512, none) ∧
    gst_validate_utils_parse_expression "3*-2^2" (fun _ => none) =
      (12, none) :=
  ⟨by with_unfolding_all rfl, by with_unfolding_all rfl,
   by with_unfolding_all rfl, by with_unfolding_all rfl,
   by with_unfolding_all rfl, by with_unfolding_all rfl,
   by with_unfolding_all rfl, by with_unfolding_all rfl,
   by with_unfolding_all rfl, by with_unfolding_all rfl,
   by with_unfolding_all rfl, by with_unfolding_all rfl,
   by with_unfolding_all rfl⟩

/-- C1 (counterexample to the original claim): the grammatically valid
expressions `1<2` and `1&&1` are rejected at top level with a malformed
input error instead of evaluating, and `3*-2^2` evaluates to 12, not to
the value 3 * -(2^2) = -12 required by the claimed precedence ordering. -/
theorem C1_counterexample :
    (gst_validate_utils_parse_expression "1<2" (fun _ => none) =
       (-1, some PErr.malformedInput) ∧
     gst_validate_utils_parse_expression "1&&1" (fun _ => none) =
       (-1, some PErr.malformedInput)) ∧
    (gst_validate_utils_parse_expression "3*-2^2" (fun _ => none) =
       (12, none) ∧
     ¬ (12 : ℚ) = 3 * -(2 ^ 2)) :=
  ⟨⟨by with_unfolding_all rfl, by with_unfolding_all rfl⟩,
   ⟨by with_unfolding_all rfl, by norm_num⟩⟩

/-- C2 (amended): substituting a reference `$(name)`: a string-typed
variable is replaced by its stored string value, a double-typed variable is
replaced by the literal variable name (`var_value = varname` in the
source), and an undefined name is the fatal `g_error`. -/
theorem C2_substitution (vars : String → Option VarVal) (name : String)
    (hne : ¬ name.data = [])
    (hword : ∀ c ∈ name.data, wordChar c = true) :
    _replace_variables_in_string vars
      (String.mk ('$' :: '(' :: (name.data ++ [')']))) =
      (match vars name with
       | some (.dbl _) => some name
       | some (.str v) => some v
       | none => none) := by
  unfold _replace_variables_in_string
  have hdata : (String.mk ('$' :: '(' :: (name.data ++ [')']))).data =
      '$' :: '(' :: (name.data ++ [')']) := rfl
  rw [hdata, findVarRefs_single name.data hne hword]
  have hmk : String.mk name.data = name := rfl
  rw [hmk]
  simp only [List.foldl_cons, List.foldl_nil]
  have hpat : ("$(" ++ name ++ ")").data =
      '$' :: '(' :: (name.data ++ [')']) := by
    simp [String.data_append]
  cases hv : vars name with
  | none => rfl
  | some vv =>
    cases vv with
    | dbl q =>
      dsimp only
      rw [hpat]
      rw [replaceAll_self ('$' :: '(' :: (name.data ++ [')'])) name.data
        (List.cons_ne_nil _ _)]
    | str v =>
      dsimp only
      rw [hpat]
      rw [replaceAll_self ('$' :: '(' :: (name.data ++ [')'])) v.data
        (List.cons_ne_nil _ _)]

/-- C2 witness: a string-typed binding substitutes its value. -/
theorem C2_substitution_witness :
    _replace_variables_in_string
      (fun n => if n = "foo" then some (VarVal.str "bar") else none)
      (String.mk ('$' :: '(' :: (("foo" : String).data ++ [')']))) =
      some "bar" := by
  have h := C2_substitution
    (fun n => if n = "foo" then some (VarVal.str "bar") else none) "foo"
    (by decide) (by decide)
  simpa using h

/-- C2 (counterexample to the original claim): with `foo` bound to the
double value 2.0, `$(foo)` is replaced by the literal name `foo` rather
than by a rendering of the value. -/
theorem C2_counterexample :
    _replace_variables_in_string
      (fun n => if n = "foo" then some (VarVal.dbl 2) else none) "$(foo)" =
      some "foo" ∧ ¬ ("foo" : String) = "2" :=
  ⟨by with_unfolding_all rfl, by decide⟩

/-- C3 (confirmed): registering the same name twice, lookup resolves to the
higher-ranked registration: with an equal or higher new rank the new type
replaces the previous one, which is chained as its overriden type; with a
strictly lower new rank the new registration is discarded and the existing
type is returned. -/
theorem C3_registry (L0 : List GstValidateActionType) (n : String)
    (r1 r2 : ℕ) (h0 : _find_action_type L0 n = none) :
    ((r1 ≤ r2 →
      _find_action_type
        (gst_validate_register_action_type_dynamic
          (gst_validate_register_action_type_dynamic L0 n r1).1 n r2).1 n =
        some (GstValidateActionType.mk n r2
          (some (GstValidateActionType.mk n r1 none))) ∧
      (gst_validate_register_action_type_dynamic
        (gst_validate_register_action_type_dynamic L0 n r1).1 n r2).2 =
        GstValidateActionType.mk n r2
          (some (GstValidateActionType.mk n r1 none))) ∧
     (r2 < r1 →
      _find_action_type
        (gst_validate_register_action_type_dynamic
          (gst_validate_register_action_type_dynamic L0 n r1).1 n r2).1 n =
        some (GstValidateActionType.mk n r1 none) ∧
      (gst_validate_register_action_type_dynamic
        (gst_validate_register_action_type_dynamic L0 n r1).1 n r2).2 =
        GstValidateActionType.mk n r1 none)) := by
  have h0' : L0.find? (fun t => t.name = n) = none := h0
  have hstep1 : gst_validate_register_action_type_dynamic L0 n r1 =
      (L0 ++ [GstValidateActionType.mk n r1 none],
       GstValidateActionType.mk n r1 none) := by
    unfold gst_validate_register_action_type_dynamic
    rw [h0]
  have hfind1 : _find_action_type
      (L0 ++ [GstValidateActionType.mk n r1 none]) n =
      some (GstValidateActionType.mk n r1 none) := by
    unfold _find_action_type
    rw [find?_append_none _ h0']
    rw [List.find?_cons_of_pos _ (by simp [GstValidateActionType.name])]
  constructor
  · intro hle
    rw [hstep1]
    have hstep2 : gst_validate_register_action_type_dynamic
        (L0 ++ [GstValidateActionType.mk n r1 none]) n r2 =
        (L0 ++ [GstValidateActionType.mk n r2
          (some (GstValidateActionType.mk n r1 none))],
         GstValidateActionType.mk n r2
          (some (GstValidateActionType.mk n r1 none))) := by
      unfold gst_validate_register_action_type_dynamic
      rw [hfind1]
      dsimp only
      rw [if_pos (show (GstValidateActionType.mk n r1 none).rank ≤ r2
        from hle)]
      rw [eraseP_append_none _ h0']
      simp [List.eraseP_cons, GstValidateActionType.name]
    rw [hstep2]
    refine ⟨?_, rfl⟩
    unfold _find_action_type at h0' ⊢
    rw [find?_append_none _ h0']
    rw [List.find?_cons_of_pos _ (by simp [GstValidateActionType.name])]
  · intro hlt
    rw [hstep1]
    have hstep2 : gst_validate_register_action_type_dynamic
        (L0 ++ [GstValidateActionType.mk n r1 none]) n r2 =
        (L0 ++ [GstValidateActionType.mk n r1 none],
         GstValidateActionType.mk n r1 none) := by
      unfold gst_validate_register_action_type_dynamic
      rw [hfind1]
      dsimp only
      rw [if_neg (show ¬ (GstValidateActionType.mk n r1 none).rank ≤ r2
        from Nat.not_le.mpr hlt)]
    rw [hstep2]
    exact ⟨hfind1, rfl⟩

/-- C3 witness: an empty registry, `seek` at rank 10 then rank 20. -/
theorem C3_registry_witness :
    _find_action_type
      (gst_validate_register_action_type_dynamic
        (gst_validate_register_action_type_dynamic [] "seek" 10).1
        "seek" 20).1 "seek" =
      some (GstValidateActionType.mk "seek" 20
        (some (GstValidateActionType.mk "seek" 10 none))) :=
  ((C3_registry [] "seek" 10 20 rfl).1 (by decide)).1

/-- C4 (amended): with a pipeline present, no EOS just observed, pipeline
state at least PAUSED and a playback time set, the head action executes iff
neither skip test of the source fires: not (rate positive and position
before the playback time) and not (rate negative and position after it).
For nonzero rate this agrees with the claimed disjunction, and at the moment
of execution (rate > 0 implies position at or past the playback time) and
(rate < 0 implies position at or before it); for rate zero the gate
executes unconditionally. -/
theorem C4_execution_gate (a : DispAction) (st : ℕ) (p t : ℕ) (r : ℚ)
    (hst : GST_STATE_PAUSED ≤ st) (hpt : a.playback_time = some t) :
    ((_should_execute_action (some a) (some st) false p r).1 = true ↔
      (¬ (0 < r ∧ p < t) ∧ ¬ (r < 0 ∧ t < p))) := by
  have hstep : _should_execute_action (some a) (some st) false p r =
      (if 0 < r ∧ p < t then (false, false) else
       if r < 0 ∧ t < p then (false, false) else (true, false)) := by
    unfold _should_execute_action
    dsimp only
    rw [if_neg (by simp : ¬ (false : Bool) = true)]
    rw [if_neg (Nat.not_lt.mpr hst)]
    rw [hpt]
  rw [hstep]
  by_cases h1 : 0 < r ∧ p < t
  · rw [if_pos h1]
    simp [h1]
  · rw [if_neg h1]
    by_cases h2 : r < 0 ∧ t < p
    · rw [if_pos h2]
      simp [h1, h2]
    · rw [if_neg h2]
      simp [h1, h2]

/-- C4 witness: rate 1, position 12, playback time 10 executes. -/
theorem C4_execution_gate_witness :
    (_should_execute_action
      (some ⟨ActionState.none, 0, none, 0, some 10, false, false, false,
        false⟩) (some 3) false 12 1).1 = true :=
  (C4_execution_gate
    ⟨ActionState.none, 0, none, 0, some 10, false, false, false, false⟩
    3 12 10 1 (by decide) rfl).mpr
    ⟨by norm_num, by norm_num⟩

/-- C4 (counterexample to the original claim): with rate 0, position 0 and
playback time 10 the action executes although neither claimed disjunct
(rate > 0 and position at or past t, or rate < 0 and position at or before
t) holds. -/
theorem C4_counterexample :
    (_should_execute_action
      (some ⟨ActionState.none, 0, none, 0, some 10, false, false, false,
        false⟩) (some 3) false 0 0).1 = true ∧
    ¬ ((0 < (0 : ℚ) ∧ 10 ≤ (0 : ℕ)) ∨ ((0 : ℚ) < 0 ∧ (0 : ℕ) ≤ 10)) :=
  ⟨by with_unfolding_all rfl,
   by rintro (⟨h, -⟩ | ⟨h, -⟩) <;> exact absurd h (by norm_num)⟩

/-- C5 (amended): in the EOS branch of `message_cb`, when the handler does
not defer (it is an error message, or no message type is being waited for,
or exactly one action is queued), a `scenario-not-ended` report is emitted
iff some action of the three queues counts (state not OK, not optional,
type not NO_EXECUTION_NOT_FATAL); the three queues are flushed and the
synthesized stop action is executed. -/
theorem C5_eos_report (is_error got_eos0 : Bool) (mt : Option String)
    (actions interlaced on_addition : List EosAction)
    (hno : is_error = true ∨ mt = none ∨ actions.length = 1) :
    ∃ out,
      message_cb_eos is_error got_eos0 mt actions interlaced on_addition =
        some out ∧
      (out.scenarioNotEnded = true ↔
        0 < ((actions ++ interlaced ++ on_addition).filter
          eosCounts).length) ∧
      out.actions = [] ∧ out.interlaced_actions = [] ∧
      out.on_addition_actions = [] ∧ out.stopExecuted = true := by
  unfold message_cb_eos
  have hg1 : ¬ (¬ is_error = true ∧ mt.isSome = true ∧ actions = []) := by
    rcases hno with h | h | h
    · intro hc
      exact hc.1 h
    · rintro ⟨-, h2, -⟩
      rw [h] at h2
      simp at h2
    · rintro ⟨-, -, h3⟩
      rw [h3] at h
      simp at h
  have hg2 : ¬ (¬ is_error = true ∧ mt.isSome = true ∧
      1 < actions.length) := by
    rcases hno with h | h | h
    · intro hc
      exact hc.1 h
    · rintro ⟨-, h2, -⟩
      rw [h] at h2
      simp at h2
    · rintro ⟨-, -, h3⟩
      omega
  rw [if_neg hg1, if_neg hg2]
  refine ⟨_, rfl, ?_, rfl, rfl, rfl, rfl⟩
  simp

/-- C5 witness: a single failed non-optional action triggers the report and
the queues are flushed. -/
theorem C5_eos_report_witness :
    ∃ out,
      message_cb_eos false false none [⟨ActionState.error, false, false⟩]
        [] [] = some out ∧
      (out.scenarioNotEnded = true ↔
        0 < (([(⟨ActionState.error, false, false⟩ : EosAction)] ++ [] ++
          []).filter eosCounts).length) ∧
      out.actions = [] ∧ out.interlaced_actions = [] ∧
      out.on_addition_actions = [] ∧ out.stopExecuted = true :=
  C5_eos_report false false none [⟨ActionState.error, false, false⟩] [] []
    (Or.inr (Or.inl rfl))

/-- C5 (counterexample to the original claim): waiting for a message type
with two queued actions, the handler defers entirely (`goto done`): no
report is emitted, the queues keep their actions and no stop is executed,
although a countable failed action remains; and with an empty main queue
the same wait state dereferences the NULL `priv->actions->next`. -/
theorem C5_counterexample :
    message_cb_eos false false (some "playing")
      [⟨ActionState.error, false, false⟩, ⟨ActionState.error, false, false⟩]
      [] [] =
      some ⟨false,
        [⟨ActionState.error, false, false⟩,
         ⟨ActionState.error, false, false⟩],
        [], [], false, some "playing", true⟩ ∧
    eosCounts ⟨ActionState.error, false, false⟩ = true ∧
    message_cb_eos false false (some "playing") [] [] [] = none :=
  ⟨by with_unfolding_all rfl, by decide, by with_unfolding_all rfl⟩

/-- C6 (confirmed): the loader succeeds exactly when every scenario
reference of the list loads and at most one of the loaded scenarios is a
non-config (action) scenario; any number of config scenarios compose. -/
theorem C6_scenario_load (outcomes : List (Option Bool)) :
    gst_validate_scenario_load outcomes false = true ↔
      ((∀ o ∈ outcomes, o.isSome = true) ∧
       (outcomes.filter (fun o => o = some false)).length ≤ 1) := by
  rw [load_iff]
  simp

/-- C7 (amended): the evaluator satisfies the min, max and additive
homomorphism equations, the last one provided the concatenation does not
reassociate at the seam: the space-stripped right operand must not start
with `+` or `-` (otherwise, as in `1+-2^2`, the leading sign of y is
parsed as part of the first summand chain and the sum differs). -/
theorem C7_homomorphism (lk : String → Option ℚ) (a b x y : String)
    (va vb vx vy : ℚ)
    (ha : gst_validate_utils_parse_expression a lk = (va, none))
    (hb : gst_validate_utils_parse_expression b lk = (vb, none))
    (hx : gst_validate_utils_parse_expression x lk = (vx, none))
    (hy : gst_validate_utils_parse_expression y lk = (vy, none))
    (hyhead : ∀ c B2, y.data.filter (fun c => ¬ c = ' ') = c :: B2 →
      ¬ c = '+' ∧ ¬ c = '-') :
    gst_validate_utils_parse_expression ("min(" ++ a ++ "," ++ b ++ ")")
      lk = (min va vb, none) ∧
    gst_validate_utils_parse_expression ("max(" ++ a ++ "," ++ b ++ ")")
      lk = (max va vb, none) ∧
    gst_validate_utils_parse_expression (x ++ "+" ++ y) lk =
      (vx + vy, none) :=
  ⟨eval_min lk a b va vb ha hb, eval_max lk a b va vb ha hb,
   eval_plus lk x y vx vy hyhead hx hy⟩

/-- C7 witness at the literals 1 and 2. -/
theorem C7_homomorphism_witness :
    gst_validate_utils_parse_expression ("min(" ++ "1" ++ "," ++ "2" ++ ")")
      (fun _ => none) = (min (1 : ℚ) 2, none) ∧
    gst_validate_utils_parse_expression ("max(" ++ "1" ++ "," ++ "2" ++ ")")
      (fun _ => none) = (max (1 : ℚ) 2, none) ∧
    gst_validate_utils_parse_expression ("1" ++ "+" ++ "2")
      (fun _ => none) = ((1 : ℚ) + 2, none) :=
  C7_homomorphism (fun _ => none) "1" "2" "1" "2" 1 2 1 2
    (by with_unfolding_all rfl) (by with_unfolding_all rfl)
    (by with_unfolding_all rfl) (by with_unfolding_all rfl)
    (fun c B2 h => by
      have h2 : (['2'] : List Char) = c :: B2 := by
        rw [show ("2" : String).data.filter (fun c => ¬ c = ' ') = ['2']
          from by with_unfolding_all rfl] at h
        exact h
      injection h2 with h3 h4
      subst h3
      exact ⟨by decide, by decide⟩)

/-- C7 (counterexample to the original claim): the concatenation equation
fails when the right operand starts with a sign: `1+-2^2` evaluates to 5
(the trailing `^2` squares the signed summand -2), while the summands
evaluate to 1 and -4. -/
theorem C7_counterexample :
    gst_validate_utils_parse_expression "1" (fun _ => none) = (1, none) ∧
    gst_validate_utils_parse_expression "-2^2" (fun _ => none) =
      (-4, none) ∧
    gst_validate_utils_parse_expression ("1" ++ "+" ++ "-2^2")
      (fun _ => none) = (5, none) ∧
    ¬ (5 : ℚ) = 1 + -4 :=
  ⟨by with_unfolding_all rfl, by with_unfolding_all rfl,
   by with_unfolding_all rfl, by norm_num⟩

/-- C8 (confirmed): a head action in state ASYNC with a set timeout whose
elapsed time exceeds the timeout makes the dispatcher emit the
execution-timeout report and return with the scenario state unchanged: the
action stays at the head of the queue in state ASYNC and the dispatch
source keeps running (the action does not automatically fail). -/
theorem C8_async_timeout (exec sub : DispAction → ActionState) (now : ℕ)
    (cp : Option (ℕ × ℚ)) (pp : Bool) (fuel : ℕ) (s : DispState)
    (act : DispAction) (rest : List DispAction) (tmo : ℕ)
    (hq : s.actions = act :: rest) (hb : s.buffering = false)
    (hcs : s.changing_state = false) (hnad : s.needs_async_done = false)
    (hst : act.state = ActionState.async) (htmo : act.timeout = some tmo)
    (hover : tmo < now - act.execution_time) :
    execute_next_action exec sub now cp pp (fuel + 1) s =
      ⟨s, [DispReport.actionTimedOut], true, false⟩ := by
  have h1 : ¬ s.buffering = true := by
    rw [hb]
    simp
  have h2 : ¬ (s.changing_state = true ∨ s.needs_async_done = true) := by
    rw [hcs, hnad]
    simp
  simp only [execute_next_action]
  rw [if_neg h1, if_neg h2, hq]
  dsimp only
  rw [if_neg (show ¬ act.state = ActionState.inProgress by
        rw [hst]; decide)]
  rw [if_neg (show ¬ (act.state = ActionState.ok ∧ act.repeatCount ≤ 0) by
        rw [hst]; rintro ⟨h, -⟩; exact ActionState.noConfusion h)]
  rw [if_pos hst, htmo]
  dsimp only
  rw [if_pos hover]

/-- C8 witness: timeout 5, 100 nanoseconds elapsed. -/
theorem C8_async_timeout_witness :
    execute_next_action (fun _ => ActionState.ok) (fun _ => ActionState.ok)
      200 none true 1
      ⟨false, false, false, false, false, false, some 3,
        [⟨ActionState.async, 0, some 5, 100, none, false, false, false,
          false⟩], [], []⟩ =
      ⟨⟨false, false, false, false, false, false, some 3,
        [⟨ActionState.async, 0, some 5, 100, none, false, false, false,
          false⟩], [], []⟩, [DispReport.actionTimedOut], true, false⟩ :=
  C8_async_timeout (fun _ => ActionState.ok) (fun _ => ActionState.ok) 200
    none true 0
    ⟨false, false, false, false, false, false, some 3,
      [⟨ActionState.async, 0, some 5, 100, none, false, false, false,
        false⟩], [], []⟩
    ⟨ActionState.async, 0, some 5, 100, none, false, false, false, false⟩
    [] 5 rfl rfl rfl rfl rfl rfl (by decide)

/-- C9 (confirmed): the done check succeeds exactly when every action still
queued in any of the three queues is optional; one non-optional action in
any queue prevents it. -/
theorem C9_done_signal (actions interlaced on_addition : List DispAction) :
    _check_scenario_is_done actions interlaced on_addition = true ↔
      ∀ a : DispAction,
        (a ∈ actions ∨ a ∈ interlaced ∨ a ∈ on_addition) →
        a.optional = true := by
  unfold _check_scenario_is_done actions_list_is_done
  simp only [Bool.and_eq_true, List.all_eq_true]
  constructor
  · rintro ⟨⟨h1, h2⟩, h3⟩ a (ha | ha | ha)
    · exact h1 a ha
    · exact h2 a ha
    · exact h3 a ha
  · intro h
    exact ⟨⟨fun a ha => h a (Or.inl ha),
      fun a ha => h a (Or.inr (Or.inl ha))⟩,
      fun a ha => h a (Or.inr (Or.inr ha))⟩

/-- C10 (confirmed): a parse failure makes `_parse` return exactly -1 with
the error set, and -1 also arises as a legitimate value (`0-1`); in
`gst_validate_action_get_clocktime`, a string field whose substituted
expression evaluates without error maps the value -1 to
GST_CLOCK_TIME_NONE and any other value, taken as seconds, to nanoseconds
rounded up to a multiple of 4. -/
theorem C10_clocktime :
    (∀ (lk : String → Option ℚ) (fuel : ℕ) (l0 : List Char) (e : PErr),
      (_parse lk fuel l0).2 = some e → (_parse lk fuel l0).1 = -1) ∧
    gst_validate_utils_parse_expression "0-1" (fun _ => none) =
      (-1, none) ∧
    (∀ (vars : String → Option VarVal) (s strval : String) (val : ℚ),
      _replace_variables_in_string vars s = some strval →
      gst_validate_utils_parse_expression strval
        (_set_variable_func vars) = (val, none) →
      gst_validate_action_get_clocktime vars (some (FieldVal.str s)) =
        (1, if val = -1 then GST_CLOCK_TIME_NONE
            else GST_ROUND_UP_4 (doubleToU64 (val * GST_SECOND)))) := by
  refine ⟨?_, by with_unfolding_all rfl, ?_⟩
  · intro lk fuel l0 e h
    unfold _parse at h ⊢
    cases hp : parseFn lk fuel PF.expr l0 with
    | error e2 => rfl
    | ok p =>
      obtain ⟨v, r⟩ := p
      rw [hp] at h
      dsimp only at h
      by_cases hl : r.length ≤ 1
      · rw [if_pos hl] at h
        simp at h
      · dsimp only
        rw [if_neg hl]
  · intro vars s strval val hrep heval
    unfold gst_validate_action_get_clocktime
    dsimp only [gst_validate_utils_get_clocktime]
    rw [hrep]
    dsimp only
    rw [heval]
    dsimp only
    by_cases hv : val = -1
    · rw [if_pos hv, if_pos hv]
    · rw [if_neg hv, if_neg hv]

/-- C10 witness: the failing input `1<2` returns -1, and the string field
`0-1` evaluates to -1 and is mapped to GST_CLOCK_TIME_NONE. -/
theorem C10_clocktime_witness :
    (_parse (fun _ => none) 64 ['1', '<', '2', '\x00']).1 = -1 ∧
    (_parse (fun _ => none) 64 ['1', '<', '2', '\x00']).2 =
      some PErr.malformedInput ∧
    gst_validate_action_get_clocktime (fun _ => none)
      (some (FieldVal.str "0-1")) = (1, GST_CLOCK_TIME_NONE) := by
  refine ⟨?_, by with_unfolding_all rfl, ?_⟩
  · exact C10_clocktime.1 (fun _ => none) 64 ['1', '<', '2', '\x00']
      PErr.malformedInput (by with_unfolding_all rfl)
  · have h := C10_clocktime.2.2 (fun _ => none) "0-1" "0-1" (-1)
      (by with_unfolding_all rfl) (by with_unfolding_all rfl)
    rw [h]
    norm_num
